import Mathlib

/-!
# NDR encoder (package `ndr`): shallow embedding and verified properties

The development embeds the encoder of `encoder.go`, `header.go` and `strings.go`.

Conventions of the embedding.

* A byte is a `Nat` below 256; the output buffer `enc.w` (`*bytes.Buffer`) is a `List Nat`.
* Machine integers are `Nat` (unsigned) or `Int` (signed) with explicit reduction modulo
  `2 ^ width` wherever the Go code converts or overflows.
* `bytes.Buffer.Write` and `binary.Write` of a fixed-size value into a `bytes.Buffer` always
  return a nil error, so the emitters, whose only error is the one of `binary.Write`, are
  functions from an encoder state to the next encoder state.
* A method with receiver `enc *Encoder` takes the encoder state first and returns the
  updated state.
-/

namespace Ndr

/-! ## Byte order (`encoding/binary`) -/

/-- The two `binary.ByteOrder` values the package uses. -/
inductive ByteOrder where
  | littleEndian
  | bigEndian
deriving DecidableEq, Repr

/-- The `w` low-order bytes of `n`, least significant first. -/
def leBytes : Nat → Nat → List Nat
  | 0, _ => []
  | w + 1, n => (n % 256) :: leBytes w (n / 256)

/-- The number a byte string denotes when read least significant byte first. -/
def leValue : List Nat → Nat
  | [] => 0
  | b :: bs => b + 256 * leValue bs

/-- The bytes `binary.Write(_, order, v)` produces for an unsigned integer `v` of `w` bytes
(`order.PutUint16`, `PutUint32`, `PutUint64`; one byte for `w = 1`). -/
def putUint (order : ByteOrder) (w n : Nat) : List Nat :=
  match order with
  | .littleEndian => leBytes w n
  | .bigEndian => (leBytes w n).reverse

/-- The unsigned integer `order.Uint16` / `Uint32` / `Uint64` reads from a byte string. -/
def getUint (order : ByteOrder) (bs : List Nat) : Nat :=
  match order with
  | .littleEndian => leValue bs
  | .bigEndian => leValue bs.reverse

/-! ## Encoder state -/

/-- The `CommonHeader` of `header.go`. -/
structure CommonHeader where
  Version : Nat
  Endianness : ByteOrder
  CharacterEncoding : Nat
  FloatRepresentation : Nat
  HeaderLength : Nat
  Filler : List Nat
deriving DecidableEq, Repr

/-- The `Encoder` of `encoder.go`. The field `s` (the value being encoded, written once by
`Encode` and never read) and the field `ph` (never touched by the encoder) are left out. -/
structure Encoder where
  w : List Nat
  ch : CommonHeader
  conformantMax : List Nat
  current : List String
  nextReferentID : Nat
  includeHeaders : Bool
deriving DecidableEq, Repr

/-- Go `NewEncoder`: every field has its zero value except the buffer, the first referent id,
the byte order and the framing flag. -/
def NewEncoder (w : List Nat) (includeHeaders : Bool) : Encoder :=
  { w := w
    ch := { Version := 0, Endianness := .littleEndian, CharacterEncoding := 0,
            FloatRepresentation := 0, HeaderLength := 0, Filler := [] }
    conformantMax := []
    current := []
    nextReferentID := 0x00020000
    includeHeaders := includeHeaders }

/-- Go `(*Encoder).GetBytes`. -/
def Encoder.GetBytes (enc : Encoder) : List Nat := enc.w

/-- Go `(*Encoder).SetEndianness`. -/
def Encoder.SetEndianness (enc : Encoder) (order : ByteOrder) : Encoder :=
  { enc with ch := { enc.ch with Endianness := order } }

/-- The effect of `binary.Write(enc.w, _, data)` on the encoder: the bytes of `data` are
appended to the buffer. -/
def Encoder.write (enc : Encoder) (bs : List Nat) : Encoder :=
  { enc with w := enc.w ++ bs }

/-! ## Primitive widths

The `Size*` constants are declared in another file of the package; their values are the
primitive widths of the specification (section 4.1). -/

/-- Modelled from the spec: the constant `SizeUint16`, declared in another file of the
package; "uint16/int16 = 2". -/
def SizeUint16 : Nat := 2
/-- Modelled from the spec: the constant `SizeUint32`, declared in another file of the
package; "uint32/int32 = 4". -/
def SizeUint32 : Nat := 4
/-- Modelled from the spec: the constant `SizeUint64`, declared in another file of the
package; "uint64/int64 = 8". -/
def SizeUint64 : Nat := 8
/-- Modelled from the spec: the constant `SizeSingle`, declared in another file of the
package; "single = 4". -/
def SizeSingle : Nat := 4
/-- Modelled from the spec: the constant `SizeDouble`, declared in another file of the
package; "double = 8". -/
def SizeDouble : Nat := 8
/-- Modelled from the spec: the constant `SizePtr`, declared in another file of the
package; "referent-id = 4". -/
def SizePtr : Nat := 4

/-! ## Alignment and primitive emitters (`encoder.go`, lines 390-459) -/

/-- Go `(*Encoder).ensureAlignment`. -/
def Encoder.ensureAlignment (enc : Encoder) (n : Nat) : Encoder :=
  let diff := enc.w.length % n
  if diff > 0 then
    enc.write (List.replicate (n - diff) 0)
  else
    enc

/-- Go `(*Encoder).writeBool`: `binary.Write` of a `bool` is one byte, 1 for true. -/
def Encoder.writeBool (enc : Encoder) (val : Bool) : Encoder :=
  enc.write [if val then 1 else 0]

/-- Go `(*Encoder).writeUint8`; the alignment call is commented out in the source. -/
def Encoder.writeUint8 (enc : Encoder) (val : Nat) : Encoder :=
  enc.write (putUint enc.ch.Endianness 1 val)

/-- Go `(*Encoder).writeUint16`. -/
def Encoder.writeUint16 (enc : Encoder) (val : Nat) : Encoder :=
  let enc := enc.ensureAlignment SizeUint16
  enc.write (putUint enc.ch.Endianness 2 val)

/-- Go `(*Encoder).writeUint32`. -/
def Encoder.writeUint32 (enc : Encoder) (val : Nat) : Encoder :=
  let enc := enc.ensureAlignment SizeUint32
  enc.write (putUint enc.ch.Endianness 4 val)

/-- Go `(*Encoder).writeUint64`. -/
def Encoder.writeUint64 (enc : Encoder) (val : Nat) : Encoder :=
  let enc := enc.ensureAlignment SizeUint64
  enc.write (putUint enc.ch.Endianness 8 val)

/-- Go `(*Encoder).writeInt8`: the byte is the two's complement pattern of `val`. -/
def Encoder.writeInt8 (enc : Encoder) (val : Int) : Encoder :=
  enc.write (putUint enc.ch.Endianness 1 (val % 2 ^ 8).toNat)

/-- Go `(*Encoder).writeInt16`. -/
def Encoder.writeInt16 (enc : Encoder) (val : Int) : Encoder :=
  let enc := enc.ensureAlignment SizeUint16
  enc.write (putUint enc.ch.Endianness 2 (val % 2 ^ 16).toNat)

/-- Go `(*Encoder).writeInt32`. -/
def Encoder.writeInt32 (enc : Encoder) (val : Int) : Encoder :=
  let enc := enc.ensureAlignment SizeUint32
  enc.write (putUint enc.ch.Endianness 4 (val % 2 ^ 32).toNat)

/-- Go `(*Encoder).writeInt64`. -/
def Encoder.writeInt64 (enc : Encoder) (val : Int) : Encoder :=
  let enc := enc.ensureAlignment SizeUint64
  enc.write (putUint enc.ch.Endianness 8 (val % 2 ^ 64).toNat)

/-- Go `(*Encoder).writeFloat32`; the value is given by its IEEE-754 bit pattern. -/
def Encoder.writeFloat32 (enc : Encoder) (bits : Nat) : Encoder :=
  let enc := enc.ensureAlignment SizeSingle
  enc.write (putUint enc.ch.Endianness 4 bits)

/-- Go `(*Encoder).writeFloat64`; the value is given by its IEEE-754 bit pattern. -/
def Encoder.writeFloat64 (enc : Encoder) (bits : Nat) : Encoder :=
  let enc := enc.ensureAlignment SizeDouble
  enc.write (putUint enc.ch.Endianness 8 bits)

/-- Go `(*Encoder).writePointer`: the referent id is a `uint32`, so the increment wraps. -/
def Encoder.writePointer (enc : Encoder) : Encoder :=
  let enc := enc.ensureAlignment SizePtr
  let refId := enc.nextReferentID
  let enc := { enc with nextReferentID := (enc.nextReferentID + 4) % 2 ^ 32 }
  enc.write (putUint enc.ch.Endianness 4 refId)

/-! ## Field attributes, types and values

`parseTags`, `tags.HasValue`, `tags.delete`, `tags.StructTag`, `getReflectValue`,
`sliceDimensions`, `unionSelectedField`, `deferedPtr` and the array writers are declared in
files of the package other than the three embedded here. They are modelled from the
specification; each such definition says so. `getReflectValue` is applied to values that
already are `reflect.Value`s (`v.Field(i)`, `p.v`, and the root handed to the embedding),
which the traversal uses as they are. -/

/-- Modelled from the spec: the parsed `ndr` struct tag (`parseTags` and the `tags` type are
declared in another file of the package). Sections 3.2, 4.2 and 6.4: a field carries a set
of flags among `pointer`, `conformant`, `varying`, `union_tag`, `union_field`; any other
attribute is ignored. `HasValue(TagPointer)` is the field `pointer`, and so on. -/
structure Tag where
  pointer : Bool := false
  conformant : Bool := false
  varying : Bool := false
  unionTag : Bool := false
  unionField : Bool := false
deriving DecidableEq, Repr

/-- Modelled from the spec: `ndrTag.delete(TagPointer)` followed by `ndrTag.StructTag()`
(declared in another file of the package). Section 4.2: "the `pointer` flag must be removed
before the referent is processed". -/
def Tag.deletePointer (t : Tag) : Tag := { t with pointer := false }

/-- Modelled from the spec: the attributes an array writer hands to its elements (the array
writers are declared in another file of the package). Section 4.4: "propagating `attrs`
minus array-shape flags". -/
def Tag.elemTag (t : Tag) : Tag := { t with conformant := false, varying := false }

/-- Go types, as far as `reflect.Type` is consulted by the encoder. -/
inductive Ty where
  | bool | uint8 | uint16 | uint32 | uint64
  | int8 | int16 | int32 | int64
  | float32 | float64
  | string
  | struct (name : String)
  | ptr (elem : Ty)
  | array (len : Nat) (elem : Ty)
  | slice (elem : Ty)
deriving DecidableEq, Repr

/-- The Go values the encoder traverses (a `reflect.Value` together with what reflection
reports about it).

* `struct name switch fields`: a struct with its type name, the discriminant-to-arm mapping
  its type declares (section 4.5; empty for a struct that is no union) and its fields in
  declaration order, each with field name, `ndr` tag and value.
* Integers hold their numeric value; floats hold their IEEE-754 bit pattern.
* `string s`: a Go string, given by its bytes `s`, which need not be valid UTF-8.
* `slice elem isNil elems` is a slice of element type `elem`; the nil slice has `isNil` set
  and no elements.
* `ptr target` is a non-nil Go pointer, `nilPtr` the nil pointer.
* `other isZero` is a value of any kind `fill` has no case for (`int`, `uint`, map,
  interface, channel, ...); `isZero` tells whether it equals the zero value of its type.
* `readOnly v` is the value `v` as reflection hands it out when it was reached through an
  unexported struct field (the `reflect.Value` carries a read-only flag): `Kind`, `IsNil`,
  `Len`, `Field`, `Uint` and the other readers behave as for `v`, and `Interface()`
  panics. The root and every value reached through exported fields only come without it;
  the flag of an unexported field passes on to what `Field` and `Index` take out of its
  value, so the parts of such a value carry the wrapper themselves. -/
inductive Value where
  | struct (name : String) (switch : List (Int × String))
      (fields : List (String × Tag × Value))
  | bool (b : Bool)
  | uint8 (n : Nat) | uint16 (n : Nat) | uint32 (n : Nat) | uint64 (n : Nat)
  | int8 (i : Int) | int16 (i : Int) | int32 (i : Int) | int64 (i : Int)
  | float32 (bits : Nat) | float64 (bits : Nat)
  | string (s : List Nat)
  | array (elems : List Value)
  | slice (elem : Ty) (isNil : Bool) (elems : List Value)
  | ptr (target : Value)
  | nilPtr
  | other (isZero : Bool)
  | readOnly (v : Value)
deriving Repr

/-- Modelled from the spec: the `deferedPtr` record (declared in another file of the
package), a value queued with its attributes (section 4.4, "enqueue the value (minus the
pointer flag) onto `deferred`"). -/
structure DeferedPtr where
  v : Value
  tag : Tag
deriving Repr

/-- The ways the traversal ends early. Go wraps an error in further text on the way up
(`fmt.Errorf("could not fill struct field(%s): %v", ...)`); only the cause is kept. The last
one is no error value: it is the run-time panic of `v.Interface()` on a read-only value, which
no function of the package recovers, so that `fill`, `process` and `Encode` are all left
without returning. The model hands it up the same way as an error, and a statement that
holds of returned errors only excludes it by name. -/
inductive EncErr where
  /-- The error "Haven't implemented varying strings yet". -/
  | varyingString
  /-- The error "unsupported type". -/
  | unsupportedType
  /-- The error "could not determine selected union value field ...". -/
  | unionSelection
  /-- The panic "reflect.Value.Interface: cannot return value obtained from unexported field
  or method". -/
  | interfacePanic
deriving DecidableEq, Repr

/-- Modelled from the spec: `sliceDimensions` (declared in another file of the package).
Section 4.3: the dimensionality of a slice type ("1 for flat slices; higher for
slice-of-slice") and its innermost element type. -/
def sliceDimensions : Ty → Nat × Ty
  | .slice e => ((sliceDimensions e).1 + 1, (sliceDimensions e).2)
  | t => (0, t)

/-- Go `v.Kind() == reflect.Pointer && !v.IsNil()`. -/
def Value.isNonNilPointer : Value → Bool
  | .ptr _ => true
  | .readOnly v => v.isNonNilPointer
  | _ => false

/-- Go `v.Kind() == reflect.String`. -/
def Value.isString : Value → Bool
  | .string _ => true
  | .readOnly v => v.isString
  | _ => false

/-- Go `v.CanInterface()`: whether `v.Interface()` returns instead of panicking. -/
def Value.canInterface : Value → Bool
  | .readOnly _ => false
  | _ => true

mutual
/-- Go `reflect.DeepEqual(v.Interface(), reflect.Zero(v.Type()).Interface())` when
`v.Interface()` returns: the value is the zero value of its type. A float is compared with
`==`, so both zeros are zero values; a non-nil slice differs from the nil slice even when it
is empty. -/
def isZero : Value → Bool
  | .struct _ _ fields => isZeroFields fields
  | .bool b => !b
  | .uint8 n => n == 0
  | .uint16 n => n == 0
  | .uint32 n => n == 0
  | .uint64 n => n == 0
  | .int8 i => i == 0
  | .int16 i => i == 0
  | .int32 i => i == 0
  | .int64 i => i == 0
  | .float32 bits => bits == 0 || bits == 2 ^ 31
  | .float64 bits => bits == 0 || bits == 2 ^ 63
  | .string s => s.isEmpty
  | .array elems => isZeroList elems
  | .slice _ isNil _ => isNil
  | .ptr _ => false
  | .nilPtr => true
  | .other z => z
  | .readOnly v => isZero v
/-- Every field of a struct is the zero value of its type. -/
def isZeroFields : List (String × Tag × Value) → Bool
  | [] => true
  | (_, _, v) :: rest => isZero v && isZeroFields rest
/-- Every element of an array is the zero value of its type. -/
def isZeroList : List Value → Bool
  | [] => true
  | v :: rest => isZero v && isZeroList rest
end

/-! ## Strings (`strings.go`, lines 76-114) -/

/-- Go `utf16.Encode` on one rune: a rune outside the surrogate range and below `0x10000` is
one unit, a rune up to `0x10FFFF` a surrogate pair, anything else `U+FFFD`. -/
def utf16EncodeRune (v : Nat) : List Nat :=
  if v < 0xD800 ∨ (0xE000 ≤ v ∧ v < 0x10000) then [v]
  else if 0x10000 ≤ v ∧ v ≤ 0x10FFFF then
    [0xD800 + ((v - 0x10000) / 2 ^ 10) % 2 ^ 10, 0xDC00 + (v - 0x10000) % 2 ^ 10]
  else [0xFFFD]

/-- Go `utf16.Encode`: the UTF-16 code units of a sequence of runes. -/
def utf16Encode (runes : List Nat) : List Nat :=
  runes.flatMap utf16EncodeRune

/-- Go `utf8.DecodeRune`, which the conversion `[]rune(s)` applies at each position of a
string: the rune at the start of the bytes `p` and its width in bytes. A byte that starts no
well-formed sequence, a sequence cut short and a sequence with a byte outside the accepted
range (among them the overlong forms, the surrogates and the values beyond `U+10FFFF`) give
`U+FFFD` with width 1. -/
def decodeRune (p : List Nat) : Nat × Nat :=
  match p with
  | [] => (0xFFFD, 0)
  | p0 :: rest =>
    if p0 < 0x80 then (p0, 1)
    else if p0 < 0xC2 ∨ 0xF4 < p0 then (0xFFFD, 1)
    else
      let sz := if p0 < 0xE0 then 2 else if p0 < 0xF0 then 3 else 4
      let lo := if p0 = 0xE0 then 0xA0 else if p0 = 0xF0 then 0x90 else 0x80
      let hi := if p0 = 0xED then 0x9F else if p0 = 0xF4 then 0x8F else 0xBF
      if p.length < sz then (0xFFFD, 1)
      else
        match rest with
        | [] => (0xFFFD, 1)
        | b1 :: rest1 =>
          if b1 < lo ∨ hi < b1 then (0xFFFD, 1)
          else if sz ≤ 2 then (p0 % 2 ^ 5 * 2 ^ 6 + b1 % 2 ^ 6, 2)
          else
            match rest1 with
            | [] => (0xFFFD, 1)
            | b2 :: rest2 =>
              if b2 < 0x80 ∨ 0xBF < b2 then (0xFFFD, 1)
              else if sz ≤ 3 then
                (p0 % 2 ^ 4 * 2 ^ 12 + b1 % 2 ^ 6 * 2 ^ 6 + b2 % 2 ^ 6, 3)
              else
                match rest2 with
                | [] => (0xFFFD, 1)
                | b3 :: _ =>
                  if b3 < 0x80 ∨ 0xBF < b3 then (0xFFFD, 1)
                  else
                    (p0 % 2 ^ 3 * 2 ^ 18 + b1 % 2 ^ 6 * 2 ^ 12 + b2 % 2 ^ 6 * 2 ^ 6
                      + b3 % 2 ^ 6, 4)

/-- The loop of `[]rune(s)`: the runes of the bytes still to read, of which the first `skip`
belong to the rune decoded last. -/
def runesFrom : Nat → List Nat → List Nat
  | _, [] => []
  | skip + 1, _ :: bs => runesFrom skip bs
  | 0, b :: bs => (decodeRune (b :: bs)).1 :: runesFrom ((decodeRune (b :: bs)).2 - 1) bs

/-- Go `[]rune(s)` for a string `s`, given by its bytes. -/
def runes (s : List Nat) : List Nat := runesFrom 0 s

/-- Go `string(r)` for a rune `r` (`utf8.AppendRune`): the UTF-8 encoding of a code point,
and that of `U+FFFD`, `EF BF BD`, for a surrogate or a value beyond `U+10FFFF`. -/
def utf8EncodeRune (r : Nat) : List Nat :=
  if r ≤ 0x7F then [r]
  else if r ≤ 0x7FF then [0xC0 + r / 2 ^ 6, 0x80 + r % 2 ^ 6]
  else if 0x10FFFF < r ∨ (0xD800 ≤ r ∧ r ≤ 0xDFFF) then [0xEF, 0xBF, 0xBD]
  else if r ≤ 0xFFFF then [0xE0 + r / 2 ^ 12, 0x80 + r / 2 ^ 6 % 2 ^ 6, 0x80 + r % 2 ^ 6]
  else [0xF0 + r / 2 ^ 18, 0x80 + r / 2 ^ 12 % 2 ^ 6, 0x80 + r / 2 ^ 6 % 2 ^ 6,
        0x80 + r % 2 ^ 6]

/-- Go `string(rs)` for a slice of runes: the encodings of the runes, one after the other. -/
def runesToString (rs : List Nat) : List Nat := rs.flatMap utf8EncodeRune

/-- The Go string a string literal denotes: the UTF-8 encoding of its characters. -/
def goString (s : String) : List Nat := runesToString (s.toList.map Char.toNat)

/-- Go `(*Encoder).ToUnicode`: the code units of `utf16.Encode([]rune(input))`, each written
as a `uint16` in the configured byte order. -/
def Encoder.ToUnicode (enc : Encoder) (input : List Nat) : List Nat :=
  (utf16Encode (runes input)).flatMap (putUint enc.ch.Endianness 2)

/-- Go `(*Encoder).writeConformantVaryingString`; it always returns a nil error. -/
def Encoder.writeConformantVaryingString (enc : Encoder) (s : List Nat) : Encoder :=
  let unc := enc.ToUnicode s
  let actualLen := (unc.length / 2) % 2 ^ 32
  let enc := enc.ensureAlignment SizeUint32
  let enc := enc.write (putUint enc.ch.Endianness 4 0)
  let enc := enc.write (putUint enc.ch.Endianness 4 actualLen)
  let enc := enc.write unc
  enc.ensureAlignment SizeUint32

/-! ## Conformant scan (`encoder.go`, lines 96-156) -/

/-- The `reflect.Slice` case of `conformantScan` for a slice of element type `elem` and
length `len`. -/
def conformantScanSlice (enc : Encoder) (tag : Tag) (elem : Ty) (len : Nat) : Encoder :=
  if !tag.conformant then enc
  else
    let dt := sliceDimensions (.slice elem)
    let enc := { enc with
      conformantMax := enc.conformantMax ++ List.replicate dt.1 (len % 2 ^ 32) }
    if dt.2 = .string then
      { enc with conformantMax := enc.conformantMax ++ [0] }
    else enc

mutual
/-- Go `(*Encoder).conformantScan`. Every path of the Go function returns a nil error. The
scan reads a read-only value like any other: the case `readOnly v` runs the function on `v`
with the same attributes, whose pointer flag is known to be unset at that point. -/
def conformantScan (enc : Encoder) (s : Value) (tag : Tag) : Encoder :=
  if tag.pointer then enc
  else
    match s with
    | .struct _ _ fields => conformantScanFields enc fields
    | .string str =>
      if !tag.conformant then enc
      else { enc with conformantMax := enc.conformantMax ++ [str.length % 2 ^ 32] }
    | .slice elem _ elems => conformantScanSlice enc tag elem elems.length
    | .readOnly v => conformantScan enc v tag
    | _ => enc
/-- The loop of the `reflect.Struct` case of `conformantScan`. -/
def conformantScanFields (enc : Encoder) : List (String × Tag × Value) → Encoder
  | [] => enc
  | (_, tag, v) :: rest => conformantScanFields (conformantScan enc v tag) rest
end

/-- The loop of `scanConformantArrays` that writes the collected counts. -/
def writeConformantMax (enc : Encoder) : List Nat → Encoder
  | [] => enc
  | m :: rest => writeConformantMax (enc.write (putUint .littleEndian 4 m)) rest

/-- Go `(*Encoder).scanConformantArrays`; `conformantScan` never fails, so neither does it. -/
def scanConformantArrays (enc : Encoder) (s : Value) (tag : Tag) : Encoder :=
  let enc := conformantScan enc s tag
  let enc := writeConformantMax enc enc.conformantMax
  { enc with conformantMax := [] }

/-! ## Pointer deferral and the main traversal (`encoder.go`, lines 158-388) -/

/-- Go `(*Encoder).isPointer`. The result is the encoder, the deferred list, the boolean and
the way the call ends early, if it does. The error the Go function can return is the one of
`binary.Write`, always nil; the call `v.Interface()` of the second branch panics on a
read-only value, before anything is written. -/
def isPointer (enc : Encoder) (v : Value) (tag : Tag) (deferred : List DeferedPtr) :
    Encoder × List DeferedPtr × Bool × Option EncErr :=
  if tag.pointer then
    let ndrTag := tag.deletePointer
    if v.isNonNilPointer then
      (enc.writePointer, deferred ++ [{ v := v, tag := ndrTag }], true, none)
    else if !v.canInterface then
      (enc, deferred, false, some .interfacePanic)
    else if !isZero v then
      (enc.writePointer, deferred ++ [{ v := v, tag := ndrTag }], true, none)
    else if v.isString then
      (enc.writePointer, deferred ++ [{ v := v, tag := ndrTag }], true, none)
    else
      (enc.write (putUint .littleEndian 4 0), deferred, true, none)
  else
    (enc, deferred, false, none)

/-- Modelled from the spec: the scalar a discriminant field holds (part of
`unionSelectedField`, which is declared in another file of the package). Section 4.5: "the
discriminant value is interpreted as an integer". -/
def Value.scalar : Value → Option Int
  | .uint8 n => some n
  | .uint16 n => some n
  | .uint32 n => some n
  | .uint64 n => some n
  | .int8 i => some i
  | .int16 i => some i
  | .int32 i => some i
  | .int64 i => some i
  | .readOnly v => v.scalar
  | _ => none

/-- Modelled from the spec: `unionSelectedField` (declared in another file of the package). Section
4.5: the mapping from discriminant value to arm name that the struct type declares is
consulted; "if no arm matches, the encoding fails with a union-selection error". -/
def unionSelectedField (switch : List (Int × String)) (unionTag : Value) :
    Except EncErr String :=
  match unionTag.scalar with
  | none => .error .unionSelection
  | some d =>
    match switch.lookup d with
    | some name => .ok name
    | none => .error .unionSelection

/-- Go `float32(v.Float())` on the bit pattern of a `float32` field: `v.Float()` widens the
value to `float64` and the conversion narrows it again, which gives back every value as it
was except a signalling NaN (exponent all ones, quiet bit `2 ^ 22` unset, mantissa not zero),
whose quiet bit comes back set. -/
def float32RoundTrip (bits : Nat) : Nat :=
  if bits / 2 ^ 23 % 2 ^ 8 = 255 ∧ bits % 2 ^ 23 ≠ 0 ∧ bits / 2 ^ 22 % 2 = 0 then
    bits + 2 ^ 22
  else bits

/-- Modelled from the spec: the header of `writeVaryingArray` and of
`writeConformantVaryingArray` (declared in another file of the package). Section 4.7:
`uint32 offset=0`, `uint32 actual_count`; "All counts are 4-byte aligned". -/
def writeArrayCounts (enc : Encoder) (count : Nat) : Encoder :=
  (enc.writeUint32 0).writeUint32 (count % 2 ^ 32)

mutual
/-- Go `(*Encoder).fill`. The result is the encoder, the deferred list `*localDef` and the
error (`none` for nil), or the panic handed up from `isPointer`. The array writers
`writeFixedArray`, `writeConformantVaryingArray`, `writeVaryingArray` and
`writeConformantArray` are declared in another file of the package;
their calls are written out in place as modelled from the specification: the header
`writeArrayCounts` where section 4.7 gives one, then the element loop `fillElems` with the
attributes `Tag.elemTag`. -/
def fill (enc : Encoder) (s : Value) (tag : Tag) (localDef : List DeferedPtr) :
    Encoder × List DeferedPtr × Option EncErr :=
  match isPointer enc s tag localDef with
  | (enc, localDef, _, some err) => (enc, localDef, some err)
  | (enc, localDef, true, none) => (enc, localDef, none)
  | (enc, localDef, false, none) =>
    match s with
    | .struct name switch fields =>
      match fillFields { enc with current := enc.current ++ [name] } switch none ""
          fields localDef with
      | (enc, localDef, some err) => (enc, localDef, some err)
      | (enc, localDef, none) =>
        ({ enc with current := enc.current.dropLast }, localDef, none)
    | .bool b => (enc.writeBool b, localDef, none)
    | .uint8 n => (enc.writeUint8 (n % 2 ^ 8), localDef, none)
    | .uint16 n => (enc.writeUint16 (n % 2 ^ 16), localDef, none)
    | .uint32 n => (enc.writeUint32 (n % 2 ^ 32), localDef, none)
    | .uint64 n => (enc.writeUint64 (n % 2 ^ 64), localDef, none)
    | .int8 i => (enc.writeInt8 i, localDef, none)
    | .int16 i => (enc.writeInt16 i, localDef, none)
    | .int32 i => (enc.writeInt32 i, localDef, none)
    | .int64 i => (enc.writeInt64 i, localDef, none)
    | .string str =>
      if tag.conformant then
        (enc.writeConformantVaryingString str, localDef, none)
      else
        (enc, localDef, some .varyingString)
    | .float32 bits => (enc.writeFloat32 (float32RoundTrip (bits % 2 ^ 32)), localDef, none)
    | .float64 bits => (enc.writeFloat64 (bits % 2 ^ 64), localDef, none)
    | .array elems =>
      -- writeFixedArray
      fillElems enc elems tag.elemTag localDef
    | .slice _ _ elems =>
      if tag.conformant && tag.varying then
        -- writeConformantVaryingArray
        fillElems (writeArrayCounts enc elems.length) elems tag.elemTag localDef
      else if !tag.conformant && tag.varying then
        -- writeVaryingArray
        fillElems (writeArrayCounts enc elems.length) elems tag.elemTag localDef
      else
        -- writeConformantArray
        fillElems enc elems tag.elemTag localDef
    | .ptr _ => (enc, localDef, some .unsupportedType)
    | .nilPtr => (enc, localDef, some .unsupportedType)
    | .other _ => (enc, localDef, some .unsupportedType)
    | .readOnly v =>
      -- the switch on v.Kind() of a read-only value: the pointer flag is unset here, so
      -- isPointer answers false once more and the case of the kind of v is taken
      fill enc v tag localDef
/-- The field loop of the `reflect.Struct` case of `fill`, from field `i` on, with the
loop variables `unionTag` (`none` for the invalid `reflect.Value`) and `unionField`. The
source never assigns `unionTag`: the assignment is commented out. -/
def fillFields (enc : Encoder) (switch : List (Int × String)) (unionTag : Option Value)
    (unionField : String) (fields : List (String × Tag × Value))
    (localDef : List DeferedPtr) : Encoder × List DeferedPtr × Option EncErr :=
  match fields with
  | [] => (enc, localDef, none)
  | (fieldName, structTag, fv) :: rest =>
    let enc := { enc with current := enc.current ++ [fieldName] }
    match unionTag with
    | none =>
      match fill enc fv structTag localDef with
      | (enc, localDef, some err) => (enc, localDef, some err)
      | (enc, localDef, none) =>
        fillFields { enc with current := enc.current.dropLast } switch none unionField
          rest localDef
    | some ut =>
      match (if unionField = "" then unionSelectedField switch ut else .ok unionField) with
      | .error err => (enc, localDef, some err)
      | .ok unionField =>
        if structTag.unionField && fieldName != unionField then
          fillFields { enc with current := enc.current.dropLast } switch (some ut)
            unionField rest localDef
        else
          match fill enc fv structTag localDef with
          | (enc, localDef, some err) => (enc, localDef, some err)
          | (enc, localDef, none) =>
            fillFields { enc with current := enc.current.dropLast } switch (some ut)
              unionField rest localDef
/-- Modelled from the spec: the element loop shared by the array writers (declared in
another file of the package). Section 4.7: "Each element is encoded by recursive fill", in
order; the first error ends the loop. -/
def fillElems (enc : Encoder) (elems : List Value) (tag : Tag)
    (localDef : List DeferedPtr) : Encoder × List DeferedPtr × Option EncErr :=
  match elems with
  | [] => (enc, localDef, none)
  | e :: rest =>
    match fill enc e tag localDef with
    | (enc, localDef, some err) => (enc, localDef, some err)
    | (enc, localDef, none) => fillElems enc rest tag localDef
end

/-! ## Deferred referents and the entry point (`encoder.go`, lines 39-94) -/

mutual
/-- The number of nodes of a value: a bound on how deeply pointer-tagged fields nest in it. -/
def Value.nodes : Value → Nat
  | .struct _ _ fields => nodesFields fields + 1
  | .array elems => nodesElems elems + 1
  | .slice _ _ elems => nodesElems elems + 1
  | .readOnly v => v.nodes + 1
  | _ => 1
/-- The nodes of the fields of a struct. -/
def nodesFields : List (String × Tag × Value) → Nat
  | [] => 0
  | (_, _, v) :: rest => v.nodes + nodesFields rest
/-- The nodes of the elements of an array or slice. -/
def nodesElems : List Value → Nat
  | [] => 0
  | v :: rest => v.nodes + nodesElems rest
end

/-- The recursion depth `process` can reach on a value with the given attributes is at most
this number: a deferred referent is a proper part of the value, or the value itself with the
pointer flag removed. -/
def rank (s : Value) (tag : Tag) : Nat :=
  s.nodes + (if tag.pointer then 1 else 0)

/-- The loop of `process` over the deferred referents, `f` being the recursive call of
`process`; `none` stands for a recursion that did not finish. -/
def processDeferred (f : Encoder → Value → Tag → Option (Encoder × Option EncErr))
    (enc : Encoder) : List DeferedPtr → Option (Encoder × Option EncErr)
  | [] => some (enc, none)
  | p :: rest =>
    match f enc p.v p.tag with
    | none => none
    | some (enc, some err) => some (enc, some err)
    | some (enc, none) => processDeferred f enc rest

/-- Go `(*Encoder).process`, with the recursion depth bounded by the first argument; the
result is `none` when the bound is reached. -/
def processFuel : Nat → Encoder → Value → Tag → Option (Encoder × Option EncErr)
  | 0, _, _, _ => none
  | n + 1, enc, s, tag =>
    match fill (scanConformantArrays enc s tag) s tag [] with
    | (enc, _, some err) => some (enc, some err)
    | (enc, localDef, none) => processDeferred (processFuel n) enc localDef

/-- Go `(*Encoder).process`: the encoder afterwards and the error (`none` for nil). The
depth bound `rank s tag + 1` is never reached (`processFuel_rank`), so the second case of
the match is never taken. -/
def process (enc : Encoder) (s : Value) (tag : Tag) : Encoder × Option EncErr :=
  match processFuel (rank s tag + 1) enc s tag with
  | some r => r
  | none => (enc, none)

/-! ## Header framing (`header.go`, lines 219-238) -/

/-- Go `(*Encoder).writeCommonHeader` on the header buffer `w`. -/
def writeCommonHeader (w : List Nat) : List Nat :=
  w ++ putUint .littleEndian 1 1 ++ putUint .littleEndian 1 0x10
    ++ putUint .littleEndian 2 0x0008 ++ putUint .littleEndian 4 0xCCCCCCCC

/-- Go `(*Encoder).writePrivateHeader` on the header buffer `w`: the encoder with its own
buffer padded, and the header buffer. All arithmetic is `uint32` arithmetic. -/
def Encoder.writePrivateHeader (enc : Encoder) (w : List Nat) : Encoder × List Nat :=
  let bufLen := enc.w.length % 2 ^ 32
  let bufferSize := (((bufLen + 7) % 2 ^ 32) / 8 * 8) % 2 ^ 32
  let padd := (bufferSize + 2 ^ 32 - bufLen) % 2 ^ 32
  let enc := enc.write (List.replicate padd 0)
  (enc, w ++ putUint .littleEndian 4 bufferSize ++ putUint .littleEndian 4 0)

deriving instance DecidableEq for Except

/-- Go `(*Encoder).Encode`: the encoder afterwards and the returned pair, `.ok buf` for
`(buf, nil)` and `.error err` for `(nil, err)`; `.error .interfacePanic` stands for a call
that panics and returns nothing. The empty tag is `reflect.StructTag("")`. -/
def Encode (enc : Encoder) (s : Value) : Encoder × Except EncErr (List Nat) :=
  let enc := enc.write (putUint .littleEndian 4 0xFFFFFFFF)
  match process enc s {} with
  | (enc, some err) => (enc, .error err)
  | (enc, none) =>
    if enc.includeHeaders then
      let header := writeCommonHeader []
      let r := enc.writePrivateHeader header
      (r.1, .ok (r.2 ++ r.1.w))
    else
      (enc, .ok enc.w)

/-! ## Properties stated about the emitters -/

/-- The contract of an integer emitter of width `W` that takes the encoder `enc` to `enc'`
for the value `val`: the buffer keeps its bytes, gains `pad < W` zero bytes that bring it to
a multiple of `W`, then the `W` bytes that read back, in the configured byte order, as `val`
reduced to `8 * W` bits (the two's complement pattern of a negative value); the new length is
a multiple of `W`. -/
def EmitsAligned (enc enc' : Encoder) (W : Nat) (val : Int) : Prop :=
  ∃ (pad : Nat) (bytes : List Nat),
    pad < W ∧ (enc.w.length + pad) % W = 0 ∧
    enc'.w = enc.w ++ List.replicate pad 0 ++ bytes ∧
    bytes.length = W ∧ (∀ b ∈ bytes, b < 256) ∧
    (getUint enc.ch.Endianness bytes : Int) = val % 2 ^ (8 * W) ∧
    enc'.w.length % W = 0

/-- A run of calls of `writePointer` within one encoding: the call number `k` comes after
the bytes `gaps[k]` that other emitters wrote since the previous call. The result is the
encoder after the run and the 32-bit words the calls wrote, in stream order, each read back
from the last four bytes of the buffer right after its call. -/
def writePointerRun (enc : Encoder) : List (List Nat) → Encoder × List Nat
  | [] => (enc, [])
  | g :: gs =>
    let enc1 := (enc.write g).writePointer
    let word := getUint enc1.ch.Endianness (enc1.w.drop (enc1.w.length - 4))
    ((writePointerRun enc1 gs).1, word :: (writePointerRun enc1 gs).2)

/-! ## Sample inputs -/

/-- A struct with one pointer-tagged `uint32` field of value `x`. -/
def pointerToUint32 (x : Nat) : Value :=
  .struct "S" [] [("P", { pointer := true }, .uint32 x)]

/-- A struct with one unexported pointer-tagged `uint32` field `p` of value 7: reflection
hands the field out read-only. -/
def unexportedPointer : Value :=
  .struct "S" [] [("p", { pointer := true }, .readOnly (.uint32 7))]

/-- A struct with a `uint8` field of value 1 followed by a pointer-tagged `uint32` field of
value `x`. -/
def byteThenPointer (x : Nat) : Value :=
  .struct "S" [] [("A", {}, .uint8 1), ("P", { pointer := true }, .uint32 x)]

/-- A struct with one conformant string field. -/
def conformantString (str : String) : Value :=
  .struct "S" [] [("Str", { conformant := true }, .string (goString str))]

/-- The union of scenario E: a `uint16` discriminant of value `d` tagged `union_tag`, the
arms `arm_a` (`uint32`) and `arm_b` (`uint16`) tagged `union_field`, and the mapping
1 to `arm_a`, 2 to `arm_b`. -/
def unionStruct (d : Nat) : Value :=
  .struct "U" [(1, "arm_a"), (2, "arm_b")]
    [("tag", { unionTag := true }, .uint16 d),
     ("arm_a", { unionField := true }, .uint32 0x11223344),
     ("arm_b", { unionField := true }, .uint16 0x5566)]

/-! ## The conformant scan as a function of the value -/

/-- The counts the `reflect.Slice` case of `conformantScan` appends. -/
def scanMaxesSlice (tag : Tag) (elem : Ty) (len : Nat) : List Nat :=
  if !tag.conformant then []
  else
    List.replicate (sliceDimensions (.slice elem)).1 (len % 2 ^ 32)
      ++ (if (sliceDimensions (.slice elem)).2 = .string then [0] else [])

mutual
/-- The counts `conformantScan` appends to `conformantMax` for a value with the given
attributes, in the order it appends them (`conformantScan_eq`). -/
def scanMaxes (s : Value) (tag : Tag) : List Nat :=
  if tag.pointer then []
  else
    match s with
    | .struct _ _ fields => scanMaxesFields fields
    | .string str => if !tag.conformant then [] else [str.length % 2 ^ 32]
    | .slice elem _ elems => scanMaxesSlice tag elem elems.length
    | .readOnly v => scanMaxes v tag
    | _ => []
/-- The counts `conformantScan` appends for the fields of a struct. -/
def scanMaxesFields : List (String × Tag × Value) → List Nat
  | [] => []
  | (_, tag, v) :: rest => scanMaxes v tag ++ scanMaxesFields rest
end

/-! ## Invariants of the traversal -/

/-- The encoder `enc'` continues `enc`: its buffer is the buffer of `enc` with bytes added at
the end, and byte order, framing flag and header are the same. -/
def Encoder.Continues (enc enc' : Encoder) : Prop :=
  (∃ bs, enc'.w = enc.w ++ bs) ∧ enc'.ch = enc.ch ∧ enc'.includeHeaders = enc.includeHeaders

/-- What `fill` and its loops keep, for a result `r` obtained from the encoder `enc` and the
deferred list `d`: the encoder continues `enc` with the same pending maxes, and the deferred
list is `d` with entries added at the end, each of rank below `bound`. -/
def FillKeeps (enc : Encoder) (d : List DeferedPtr) (bound : Nat)
    (r : Encoder × List DeferedPtr × Option EncErr) : Prop :=
  enc.Continues r.1 ∧ r.1.conformantMax = enc.conformantMax ∧
    ∃ new, r.2.1 = d ++ new ∧ ∀ p ∈ new, rank p.v p.tag < bound

/-- The encoder with the framing flag set to `b`. -/
def Encoder.withHeaders (enc : Encoder) (b : Bool) : Encoder :=
  { enc with includeHeaders := b }

/-! ## Decoder side of strings (`strings.go`, lines 16-28) -/

/-- Go `uint16SliceToString`: every `uint16` is taken as a rune of its own, one trailing
zero rune is removed, and the runes are converted to a string, given by its bytes. -/
def uint16SliceToString (a : List Nat) : List Nat :=
  let s := a
  let s := if s.length > 0 then (if s.getLast? = some 0 then s.dropLast else s) else s
  runesToString s

/-- The `uint16` values a reader takes from a byte string, two bytes each, in the given byte
order (`order.Uint16`). -/
def readUint16s (order : ByteOrder) : List Nat → List Nat
  | b0 :: b1 :: rest => getUint order [b0, b1] :: readUint16s order rest
  | _ => []

/-! ## The recursion of `process` without the depth bound -/

/-- The loop of `process` over the deferred referents of one frame, in enqueue order, each
referent handled by `process` itself; the first error ends the loop (`process_unfold`). -/
def processReferents (enc : Encoder) : List DeferedPtr → Encoder × Option EncErr
  | [] => (enc, none)
  | p :: rest =>
    match process enc p.v p.tag with
    | (enc, some err) => (enc, some err)
    | (enc, none) => processReferents enc rest

/-! ## Integer primitives -/

/-- The width in bytes of a value of an integer kind. -/
def Value.intWidth : Value → Option Nat
  | .uint8 _ => some 1
  | .int8 _ => some 1
  | .uint16 _ => some 2
  | .int16 _ => some 2
  | .uint32 _ => some 4
  | .int32 _ => some 4
  | .uint64 _ => some 8
  | .int64 _ => some 8
  | .readOnly v => v.intWidth
  | _ => none

/-- The number a value of an integer kind holds. -/
def Value.intValue : Value → Int
  | .uint8 n => n
  | .uint16 n => n
  | .uint32 n => n
  | .uint64 n => n
  | .int8 i => i
  | .int16 i => i
  | .int32 i => i
  | .int64 i => i
  | .readOnly v => v.intValue
  | _ => 0

/-! ## What the traversal meets first -/

/-- The test of `isPointer` that sends a pointer-tagged value to the deferred list: the value
is a non-nil pointer, or `v.Interface()` returns and the value differs from the zero value of
its type or is a string. -/
def Value.isDeferred (v : Value) : Bool :=
  v.isNonNilPointer || (v.canInterface && (!isZero v || v.isString))

/-- What a part of the traversal meets first, of the two events the statements about strings
tell apart: a string without the conformant attribute in the string case of `fill`, where
`fill` returns its error, or a call of `v.Interface()` on a read-only value, where `isPointer`
panics. -/
inductive Meets where
  | nothing
  | plainString
  | panic
deriving DecidableEq, Repr

/-- The first of two parts of the traversal that meets something decides. -/
def Meets.orElse : Meets → Meets → Meets
  | .nothing, m => m
  | .plainString, _ => .plainString
  | .panic, _ => .panic

mutual
/-- What one call of `fill` meets first on a value with the given attributes, in the order
in which `fill` visits the value: a pointer-tagged value is only looked at by `isPointer`,
which panics when the value is read-only and no non-nil pointer, a struct, array or slice is
visited field by field and element by element, and a string is met when it does not carry
the conformant attribute. Values of a kind `fill` rejects count as nothing: their error is
an error `Encode` returns, whatever comes after them. -/
def fillMeets (s : Value) (tag : Tag) : Meets :=
  if tag.pointer then
    if !s.isNonNilPointer && !s.canInterface then .panic else .nothing
  else
    match s with
    | .struct _ _ fields => fillMeetsFields fields
    | .string _ => if tag.conformant then .nothing else .plainString
    | .array elems => fillMeetsElems elems tag.elemTag
    | .slice _ _ elems => fillMeetsElems elems tag.elemTag
    | .readOnly v => fillMeets v tag
    | _ => .nothing
/-- What `fill` meets first in the fields of a struct, in declaration order. -/
def fillMeetsFields : List (String × Tag × Value) → Meets
  | [] => .nothing
  | (_, tag, v) :: rest => (fillMeets v tag).orElse (fillMeetsFields rest)
/-- What `fill` meets first in the elements of an array or slice, in index order. -/
def fillMeetsElems : List Value → Tag → Meets
  | [], _ => .nothing
  | v :: rest, tag => (fillMeets v tag).orElse (fillMeetsElems rest tag)
end

mutual
/-- What the referents meet first that one call of `fill` enqueues for a value whose own
pointer flag is unset, when they are processed in the order of the deferred list: each
referent by a call of `fill` with the pointer flag removed, followed by the referents that
call enqueues. -/
def referentsMeet (s : Value) (tag : Tag) : Meets :=
  match s with
  | .struct _ _ fields => referentsMeetFields fields
  | .array elems => referentsMeetElems elems tag.elemTag
  | .slice _ _ elems => referentsMeetElems elems tag.elemTag
  | .readOnly v => referentsMeet v tag
  | _ => .nothing
/-- What the referents enqueued for the fields of a struct meet first: a pointer-tagged
field contributes itself when `isPointer` enqueues it, any other field the referents found
inside it. -/
def referentsMeetFields : List (String × Tag × Value) → Meets
  | [] => .nothing
  | (_, tag, v) :: rest =>
    (if tag.pointer then
        (if v.isDeferred then
          (fillMeets v tag.deletePointer).orElse (referentsMeet v tag.deletePointer)
        else .nothing)
      else referentsMeet v tag).orElse (referentsMeetFields rest)
/-- What the referents enqueued for the elements of an array or slice meet first. -/
def referentsMeetElems : List Value → Tag → Meets
  | [], _ => .nothing
  | v :: rest, tag =>
    (if tag.pointer then
        (if v.isDeferred then
          (fillMeets v tag.deletePointer).orElse (referentsMeet v tag.deletePointer)
        else .nothing)
      else referentsMeet v tag).orElse (referentsMeetElems rest tag)
end

/-- What one call of `process` meets first on a value whose pointer flag is unset: what its
`fill` meets, and after that what the deferred referents meet. -/
def processMeets (s : Value) (tag : Tag) : Meets :=
  (fillMeets s tag).orElse (referentsMeet s tag)

/-- What the referents meet first that one call of `fill` enqueues for a value with the given
attributes, the pointer flag included. -/
def deferredMeets (s : Value) (tag : Tag) : Meets :=
  if tag.pointer then
    (if s.isDeferred then processMeets s tag.deletePointer else .nothing)
  else referentsMeet s tag

/-- What the entries of a deferred list meet first, each handled by `process`, in the order
of the list. -/
def listMeets : List DeferedPtr → Meets
  | [] => .nothing
  | p :: rest => (processMeets p.v p.tag).orElse (listMeets rest)

/-- The error `err` is one a Go function returns, not the panic. -/
def EncErr.isReturned (err : EncErr) : Prop := err ≠ .interfacePanic

/-- What a call of `fill`, with the result `r` from the deferred list `d`, has to do with
what it was predicted to meet: when a string without the conformant attribute comes first,
the call returns an error; when a panic comes first, the call does not end normally, and not
with the error of the string case; when nothing is met, it returns an error of another kind
or it ends normally, having appended entries with the pointer flag removed that meet
`refs`. -/
def FillSim (m refs : Meets) (d : List DeferedPtr)
    (r : Encoder × List DeferedPtr × Option EncErr) : Prop :=
  (m = .plainString → ∃ e, r.2.2 = some e ∧ e.isReturned) ∧
  (m = .panic → ∃ e, r.2.2 = some e ∧ e ≠ .varyingString) ∧
  (m = .nothing →
    (∃ e, r.2.2 = some e ∧ e.isReturned ∧ e ≠ .varyingString) ∨
    (r.2.2 = none ∧ ∃ new, r.2.1 = d ++ new ∧ listMeets new = refs ∧
      ∀ p ∈ new, p.tag.pointer = false))

/-- What a call of `process`, or of its loop over a deferred list, with the result `r`, has
to do with what it was predicted to meet: when a string without the conformant attribute
comes first, the call returns an error; when a panic comes first, the call does not end
normally, and not with the error of the string case; when nothing is met, it ends normally
or returns an error of another kind. -/
def ProcessSim (m : Meets) (r : Encoder × Option EncErr) : Prop :=
  (m = .plainString → ∃ e, r.2 = some e ∧ e.isReturned) ∧
  (m = .panic → ∃ e, r.2 = some e ∧ e ≠ .varyingString) ∧
  (m = .nothing → r.2 = none ∨ ∃ e, r.2 = some e ∧ e.isReturned ∧ e ≠ .varyingString)

/-- A struct with one unexported string field `s`, holding "x", with the given attributes:
reflection hands the field out read-only. -/
def unexportedString (tag : Tag) : Value :=
  .struct "S" [] [("s", tag, .readOnly (.string (goString "x")))]

/-! ## The order of referent ids and referents -/

/-- The `n` consecutive referent ids that begin with `id` (each the one before plus 4, as a
`uint32`) stand in the buffer `w` as `uint32` words in the byte order `order`, at offsets
that increase with the id: the first at an offset not below `lo`, each one after the end of
the one before, and the last ending at or before `hi`. -/
def IdsAt (w : List Nat) (order : ByteOrder) : Nat → Nat → Nat → Nat → Prop
  | _, _, _, 0 => True
  | lo, hi, id, n + 1 =>
    ∃ o, lo ≤ o ∧ o + 4 ≤ hi ∧ (w.drop o).take 4 = putUint order 4 id ∧
      IdsAt w order (o + 4) hi ((id + 4) % 2 ^ 32) n

/-- The bytes the entries of a deferred list add to the buffer, one run per entry, when the
list is handled from the encoder `enc` in its order, each entry by `process`. -/
def referentRuns (enc : Encoder) : List DeferedPtr → List (List Nat)
  | [] => []
  | p :: rest =>
    (process enc p.v p.tag).1.w.drop enc.w.length
      :: referentRuns (process enc p.v p.tag).1 rest

/-- What a call of `fill`, with the result `r` from the encoder `enc` and the deferred list
`d`, does about referent ids: the buffer is only extended, the entries the call appends to
the deferred list are as many as the referent ids it writes, these ids are the consecutive
ones from the id counter of `enc` on and stand in the bytes the call wrote in increasing
order, and the id counter advances by 4 for each. -/
def FillOrder (enc : Encoder) (d : List DeferedPtr)
    (r : Encoder × List DeferedPtr × Option EncErr) : Prop :=
  enc.Continues r.1 ∧
  ∃ new, r.2.1 = d ++ new ∧
    IdsAt r.1.w enc.ch.Endianness enc.w.length r.1.w.length enc.nextReferentID new.length ∧
    r.1.nextReferentID % 2 ^ 32 = (enc.nextReferentID + 4 * new.length) % 2 ^ 32

/-! ## Further sample inputs -/

/-- A struct with one string field tagged both pointer and conformant. -/
def pointerConformantString (str : String) : Value :=
  .struct "S" [] [("Str", { pointer := true, conformant := true }, .string (goString str))]

/-- A struct whose pointer and conformant string field "Hi" is followed by a `uint8` field
of value 1. -/
def pointerStringThenByte : Value :=
  .struct "S" []
    [("Str", { pointer := true, conformant := true }, .string (goString "Hi")),
     ("B", {}, .uint8 1)]

/-- A struct with two pointer-tagged fields, the first holding a struct that has a
pointer-tagged `uint32` field of value 5 itself, the second a `uint32` of value 7. -/
def nestedPointers : Value :=
  .struct "Outer" []
    [("P1", { pointer := true },
        .struct "Inner" [] [("Q", { pointer := true }, .uint32 5)]),
     ("P2", { pointer := true }, .uint32 7)]

/-- A struct with one field, of integer kind. -/
def singleField (v : Value) : Value :=
  .struct "S" [] [("X", {}, v)]

/-- A struct with one string field that carries the given attributes. -/
def taggedString (tag : Tag) (str : String) : Value :=
  .struct "S" [] [("Str", tag, .string (goString str))]

/-! ## UUID text (`uuid.go`) -/

/-- The errors `uuid_to_bin` can return: `hex.InvalidByteError` and `hex.ErrLength` from
`hex.DecodeString`, the package's own `Failed to parse UUID v2 string`, and the two
`strconv.NumError` kinds of `strconv.ParseUint`. -/
inductive UuidErr where
  | invalidByte
  | errLength
  | parseFailed
  | numSyntax
  | numRange
deriving DecidableEq, Repr

/-- The value of one hexadecimal digit in `encoding/hex` (`reverseHexTable`): `0-9`, `a-f`
and `A-F`; `none` for every other character. -/
def fromHexChar (c : Char) : Option Nat :=
  if 48 ≤ c.toNat ∧ c.toNat ≤ 57 then some (c.toNat - 48)
  else if 97 ≤ c.toNat ∧ c.toNat ≤ 102 then some (c.toNat - 97 + 10)
  else if 65 ≤ c.toNat ∧ c.toNat ≤ 70 then some (c.toNat - 65 + 10)
  else none

/-- Go `hex.DecodeString`: the bytes decoded before the first problem, and the problem, an
invalid character taking precedence over an odd length. -/
def hexDecodeString : List Char → List Nat × Option UuidErr
  | [] => ([], none)
  | [p] => if fromHexChar p = none then ([], some .invalidByte) else ([], some .errLength)
  | p :: q :: rest =>
    match fromHexChar p, fromHexChar q with
    | some a, some b => ((a * 16 + b) :: (hexDecodeString rest).1, (hexDecodeString rest).2)
    | _, _ => ([], some .invalidByte)

/-- The character class `[\dA-Fa-f]` of the pattern `re`. -/
def isHexDigit (c : Char) : Bool :=
  (48 ≤ c.toNat && c.toNat ≤ 57) || (65 ≤ c.toNat && c.toNat ≤ 70)
    || (97 ≤ c.toNat && c.toNat ≤ 102)

/-- One piece `([\dA-Fa-f]{n})` of the pattern `re` at the start of `s`: the submatch and
the rest of the text. -/
def reHex (n : Nat) (s : List Char) : Option (List Char × List Char) :=
  if (s.take n).length = n ∧ (s.take n).all isHexDigit = true then some (s.take n, s.drop n)
  else none

/-- The literal `-` of the pattern `re` at the start of `s`: the rest of the text. -/
def reDash : List Char → Option (List Char)
  | [] => none
  | c :: rest => if c = '-' then some rest else none

/-- A match of the pattern `re` that begins at the start of `s`: the matched text followed
by the six submatches. The pattern has no alternation and every piece has a fixed length, so
there is at most one match at a position. -/
def reMatch (s : List Char) : Option (List (List Char)) := do
  let (g1, s1) ← reHex 8 s
  let s1 ← reDash s1
  let (g2, s2) ← reHex 4 s1
  let s2 ← reDash s2
  let (g3, s3) ← reHex 4 s2
  let s3 ← reDash s3
  let (g4, s4) ← reHex 4 s3
  let s4 ← reDash s4
  let (g5, s5) ← reHex 4 s4
  let (g6, _) ← reHex 8 s5
  pure [s.take 36, g1, g2, g3, g4, g5, g6]

/-- Go `re.FindAllStringSubmatch(s, -1)`: the successive non-overlapping matches of `re` in
the text, leftmost first. The first argument is the number of characters still covered by
the previous match (0 at the start). -/
def FindAllStringSubmatch : Nat → List Char → List (List (List Char))
  | _, [] => []
  | skip + 1, _ :: cs => FindAllStringSubmatch skip cs
  | 0, c :: cs =>
    match reMatch (c :: cs) with
    | some m => m :: FindAllStringSubmatch 35 cs
    | none => FindAllStringSubmatch 0 cs

/-- The value of one digit in `strconv.ParseUint`: `0-9`, and a letter of either case as
10 to 35; `none` for every other character. -/
def digitValue (c : Char) : Option Nat :=
  if 48 ≤ c.toNat ∧ c.toNat ≤ 57 then some (c.toNat - 48)
  else if 97 ≤ c.toNat ∧ c.toNat ≤ 122 then some (c.toNat - 97 + 10)
  else if 65 ≤ c.toNat ∧ c.toNat ≤ 90 then some (c.toNat - 65 + 10)
  else none

/-- The digit loop of `strconv.ParseUint`, with `n` the value read so far. -/
def parseUintLoop (base bitSize : Nat) : List Char → Nat → Except UuidErr Nat
  | [], n => .ok n
  | c :: cs, n =>
    match digitValue c with
    | none => .error .numSyntax
    | some d =>
      if d ≥ base then .error .numSyntax
      else if n ≥ (2 ^ 64 - 1) / base + 1 then .error .numRange
      else if n * base + d ≥ 2 ^ 64 ∨ n * base + d > 2 ^ bitSize - 1 then .error .numRange
      else parseUintLoop base bitSize cs (n * base + d)

/-- Go `strconv.ParseUint(s, base, bitSize)` for a base from 2 to 36 and a non-zero
`bitSize`. -/
def ParseUint (s : List Char) (base bitSize : Nat) : Except UuidErr Nat :=
  if s = [] then .error .numSyntax else parseUintLoop base bitSize s 0

/-- Go `uuid_to_bin`: the returned bytes and error. -/
def uuid_to_bin (uuid : String) : List Nat × Option UuidErr :=
  if ¬ ('-' ∈ uuid.toList) then hexDecodeString uuid.toList
  else
    match FindAllStringSubmatch 0 uuid.toList with
    | [] => ([], some .parseFailed)
    | [_, uuid1, uuid2, uuid3, uuid4, uuid5, uuid6] :: _ =>
      let r : Except UuidErr (List Nat) := do
        let buf := []
        let n ← ParseUint uuid1 16 32
        let buf := buf ++ putUint .littleEndian 4 (n % 2 ^ 32)
        let n ← ParseUint uuid2 16 16
        let buf := buf ++ putUint .littleEndian 2 (n % 2 ^ 16)
        let n ← ParseUint uuid3 16 16
        let buf := buf ++ putUint .littleEndian 2 (n % 2 ^ 16)
        let n ← ParseUint uuid4 16 16
        let buf := buf ++ putUint .bigEndian 2 (n % 2 ^ 16)
        let n ← ParseUint uuid5 16 16
        let buf := buf ++ putUint .bigEndian 2 (n % 2 ^ 16)
        let n ← ParseUint uuid6 16 32
        let buf := buf ++ putUint .bigEndian 4 (n % 2 ^ 32)
        pure buf
      match r with
      | .ok buf => (buf, none)
      | .error err => ([], some err)
    | _ :: _ => ([], some .parseFailed)

/-! ## Decoder side of the headers (`header.go`, lines 50-217) -/

/-- The `PrivateHeader` of `header.go`. -/
structure PrivateHeader where
  ObjectBufferLength : Nat
  Filler : List Nat
deriving DecidableEq, Repr

/-- Modelled from the spec: the `Decoder` type, which `header.go` uses and does not declare
(the spec names the decoder's reader an external collaborator). Only what `header.go` uses
is kept: the reader `r`, as the bytes of the stream not yet consumed, and the two headers. -/
structure Decoder where
  r : List Nat
  ch : CommonHeader
  ph : PrivateHeader
deriving DecidableEq, Repr

/-- The errors of the header readers: `Malformed` with its `EText` (a format string is kept
as written, without its arguments), and a plain `fmt.Errorf` error. -/
inductive DecErr where
  | Malformed (EText : String)
  | Errorf (text : String)
deriving DecidableEq, Repr

/-- Modelled from the spec: `dec.r.ReadByte()` on the decoder's reader, which `header.go`
calls and does not define. The next byte of the stream is consumed and returned; `none`
stands for the error on an exhausted stream. -/
def Decoder.ReadByte (dec : Decoder) : Decoder × Option Nat :=
  match dec.r with
  | [] => (dec, none)
  | b :: rest => ({ dec with r := rest }, some b)

/-- Modelled from the spec: `(*Decoder).readBytes(n)`, which `header.go` calls and does not
define. A buffer of `n` bytes is filled from the stream; the flag is `err != nil`, raised
when the stream holds fewer than `n` bytes, in which case the buffer holds what was left of
the stream followed by zero bytes. -/
def Decoder.readBytes (dec : Decoder) (n : Nat) : Decoder × List Nat × Bool :=
  if n ≤ dec.r.length then ({ dec with r := dec.r.drop n }, dec.r.take n, false)
  else ({ dec with r := [] }, dec.r ++ List.replicate (n - dec.r.length) 0, true)

/-- Go `binary.Read(dec.r, order, &v)` for a `uint32` destination: four bytes are consumed
and decoded in the given byte order; `none` stands for the error on a stream that holds
fewer than four bytes, and the destination is then left as it was. -/
def Decoder.binaryReadUint32 (dec : Decoder) (order : ByteOrder) : Decoder × Option Nat :=
  if 4 ≤ dec.r.length then ({ dec with r := dec.r.drop 4 }, some (getUint order (dec.r.take 4)))
  else ({ dec with r := [] }, none)

/-- Go `(*Decoder).readCommonHeaderV1`: the decoder afterwards and the returned error. The
expression `eb >> 4 & 0xF` on a byte is `eb / 2 ^ 4 % 2 ^ 4`, and `dec.ch.Version & 0xF` is
`dec.ch.Version % 2 ^ 4`. -/
def Decoder.readCommonHeaderV1 (dec : Decoder) : Decoder × Option DecErr :=
  match dec.ReadByte with
  | (dec, none) =>
    (dec, some (.Malformed "could not read second byte of common header for endianness"))
  | (dec, some eb) =>
    let endian := eb / 2 ^ 4 % 2 ^ 4
    if endian ≠ 0 ∧ endian ≠ 1 then
      (dec, some (.Malformed "common header does not indicate a valid endianness"))
    else
      let dec := { dec with ch := { dec.ch with CharacterEncoding := dec.ch.Version % 2 ^ 4 } }
      if dec.ch.CharacterEncoding ≠ 0 ∧ dec.ch.CharacterEncoding ≠ 1 then
        (dec, some (.Malformed "common header does not indicate a valid character encoding"))
      else
        let dec :=
          if endian = 1 then { dec with ch := { dec.ch with Endianness := .littleEndian } }
          else if endian = 0 then { dec with ch := { dec.ch with Endianness := .bigEndian } }
          else dec
        match dec.readBytes 2 with
        | (dec, _, true) =>
          (dec, some (.Malformed "could not read common header length: %v"))
        | (dec, lb, false) =>
          let dec := { dec with ch := { dec.ch with HeaderLength := getUint dec.ch.Endianness lb } }
          if dec.ch.HeaderLength ≠ 8 then
            (dec, some (.Malformed "common header does not indicate a valid length"))
          else
            match dec.readBytes 4 with
            | (dec, filler, err) =>
              let dec := { dec with ch := { dec.ch with Filler := filler } }
              if err then (dec, some (.Malformed "could not read common header filler: %v"))
              else (dec, none)

/-- Go `(*Decoder).readCommonHeaderV2`: the decoder afterwards and the returned error. -/
def Decoder.readCommonHeaderV2 (dec : Decoder) : Decoder × Option DecErr :=
  match dec.ReadByte with
  | (dec, none) =>
    (dec, some (.Malformed "could not read second byte of common header for endianness"))
  | (dec, some eb) =>
    if eb ≠ 0x10 then
      (dec, some (.Malformed
        "common header v2 for endianness does NOT specify LittleEndian 0x10, but %x"))
    else
      let dec := { dec with ch := { dec.ch with Endianness := .littleEndian } }
      match dec.readBytes 2 with
      | (dec, _, true) =>
        (dec, some (.Malformed "could not read common header v2 length: %v"))
      | (dec, lb, false) =>
        let dec := { dec with ch := { dec.ch with HeaderLength := getUint dec.ch.Endianness lb } }
        if dec.ch.HeaderLength ≠ 0x40 then
          (dec, some (.Malformed
            "common header v2 does not indicate a valid length of 0x40, but %x"))
        else
          match dec.readBytes 4 with
          | (dec, _, true) =>
            (dec, some (.Malformed "could not read common header v2 endianInfo: %v"))
          | (dec, _, false) =>
            match dec.readBytes 16 with
            | (dec, _, true) =>
              (dec, some (.Malformed "could not read common header v2 reserved bytes: %v"))
            | (dec, _, false) =>
              match dec.readBytes 20 with
              | (dec, _, true) =>
                (dec, some (.Malformed
                  "could not read common header v2 TransferSyntax bytes: %v"))
              | (dec, tsb, false) =>
                match uuid_to_bin "8a885d04-1ceb-11c9-9fe8-08002b104860" with
                | (_, some _) =>
                  (dec, some (.Errorf "Failed to convert NDRUuid string to bytes"))
                | (ndrUuid, none) =>
                  if ¬ (tsb = ndrUuid) then
                    (dec, some (.Malformed
                      "common header v2 invalid TransferSyntax bytes: %x"))
                  else
                    match dec.readBytes 20 with
                    | (dec, _, true) =>
                      (dec, some (.Malformed
                        "could not read common header v2 InterfaceID bytes: %v"))
                    | (dec, _, false) => (dec, none)

/-- Go `(*Decoder).readCommonHeader`: the decoder afterwards and the returned error. -/
def Decoder.readCommonHeader (dec : Decoder) : Decoder × Option DecErr :=
  match dec.ReadByte with
  | (dec, none) =>
    (dec, some (.Malformed "could not read first byte of common header for version"))
  | (dec, some vb) =>
    let dec := { dec with ch := { dec.ch with Version := vb % 2 ^ 8 } }
    if dec.ch.Version = 1 then dec.readCommonHeaderV1
    else if dec.ch.Version = 2 then dec.readCommonHeaderV2
    else
      (dec, some (.Malformed
        "byte stream does not indicate a RPC Type serialization of version 1 or 2 but instead: %v"))

/-- Go `(*Decoder).readPrivateHeaderV1`: the decoder afterwards and the returned error. -/
def Decoder.readPrivateHeaderV1 (dec : Decoder) : Decoder × Option DecErr :=
  match dec.binaryReadUint32 dec.ch.Endianness with
  | (dec, none) =>
    (dec, some (.Malformed "could not read private header object buffer length"))
  | (dec, some v) =>
    let dec := { dec with ph := { dec.ph with ObjectBufferLength := v } }
    if dec.ph.ObjectBufferLength % 8 ≠ 0 then
      (dec, some (.Malformed "object buffer length not a multiple of 8"))
    else
      match dec.readBytes 4 with
      | (dec, filler, err) =>
        let dec := { dec with ph := { dec.ph with Filler := filler } }
        if err then (dec, some (.Malformed "could not read private header filler: %v"))
        else (dec, none)

/-- Go `(*Decoder).readPrivateHeaderV2`: the decoder afterwards and the returned error. -/
def Decoder.readPrivateHeaderV2 (dec : Decoder) : Decoder × Option DecErr :=
  match dec.binaryReadUint32 dec.ch.Endianness with
  | (dec, none) =>
    (dec, some (.Malformed "could not read private header object buffer length"))
  | (dec, some v) =>
    let dec := { dec with ph := { dec.ph with ObjectBufferLength := v } }
    if dec.ph.ObjectBufferLength % 8 ≠ 0 then
      (dec, some (.Malformed "object buffer length not a multiple of 8"))
    else
      match dec.readBytes 12 with
      | (dec, filler, err) =>
        let dec := { dec with ph := { dec.ph with Filler := filler } }
        if err then (dec, some (.Malformed "could not read private header filler: %v"))
        else (dec, none)

/-- Go `(*Decoder).readPrivateHeader`. -/
def Decoder.readPrivateHeader (dec : Decoder) : Decoder × Option DecErr :=
  if dec.ch.Version = 1 then dec.readPrivateHeaderV1 else dec.readPrivateHeaderV2

/-- A decoder whose stream holds the given bytes and whose headers have their zero values
(the byte order, `nil` in Go before a header is read, is given as little-endian). -/
def decoderOn (bytes : List Nat) : Decoder :=
  { r := bytes
    ch := { Version := 0, Endianness := .littleEndian, CharacterEncoding := 0,
            FloatRepresentation := 0, HeaderLength := 0, Filler := [] }
    ph := { ObjectBufferLength := 0, Filler := [] } }

/-- A version-2 common header with every field as the format requires: version 2,
endianness `0x10`, length `0x40`, the reserved fields filled with `0xCC`, the NDR transfer
syntax identifier (the UUID `8a885d04-1ceb-11c9-9fe8-08002b104860` and version 2.0), and an
interface identifier of 20 zero bytes. -/
def ndrHeaderV2 : List Nat :=
  [0x02, 0x10, 0x40, 0x00, 0xCC, 0xCC, 0xCC, 0xCC] ++ List.replicate 16 0xCC
    ++ [0x04, 0x5D, 0x88, 0x8A, 0xEB, 0x1C, 0xC9, 0x11, 0x9F, 0xE8, 0x08, 0x00, 0x2B, 0x10,
        0x48, 0x60, 0x02, 0x00, 0x00, 0x00]
    ++ List.replicate 20 0x00

/-! ## Statements about UUID text and the framing header -/

/-- The number a run of hexadecimal digits denotes, most significant digit first. -/
def hexValue (g : List Char) : Nat :=
  g.foldl (fun n c => n * 16 + (fromHexChar c).getD 0) 0

/-- The bytes a run of hexadecimal digits denotes when read two digits at a time, in the
order in which they are written. -/
def hexPairs : List Char → List Nat
  | hi :: lo :: rest => ((fromHexChar hi).getD 0 * 16 + (fromHexChar lo).getD 0) :: hexPairs rest
  | _ => []

/-- The text has the form `h8-h4-h4-h4-h12`: five runs of 8, 4, 4, 4 and 12 hexadecimal
digits of either case, separated by `-`. -/
def IsUuidText (m : List Char) : Prop :=
  ∃ g1 g2 g3 g4 g5 : List Char,
    g1.length = 8 ∧ g2.length = 4 ∧ g3.length = 4 ∧ g4.length = 4 ∧ g5.length = 12 ∧
    (∀ c ∈ g1 ++ g2 ++ g3 ++ g4 ++ g5, isHexDigit c = true) ∧
    m = g1 ++ '-' :: (g2 ++ '-' :: (g3 ++ '-' :: (g4 ++ '-' :: g5)))

/-- The call `readCommonHeader` followed, when it returns no error, by `readPrivateHeader`. -/
def Decoder.readHeaders (dec : Decoder) : Decoder × Option DecErr :=
  match dec.readCommonHeader with
  | (dec, some err) => (dec, some err)
  | (dec, none) => dec.readPrivateHeader

/-- The header bytes `Encode` puts in front of the body: what `writeCommonHeader` and then
`writePrivateHeader` leave in a header buffer that starts empty. -/
def Encoder.framingHeader (enc : Encoder) : List Nat :=
  (enc.writePrivateHeader (writeCommonHeader [])).2

/-! # Theorems -/

/-! ## Byte strings -/

theorem leBytes_length (w n : Nat) : (leBytes w n).length = w := by
  induction w generalizing n with
  | zero => rfl
  | succ k ih => simp [leBytes, ih]

theorem leBytes_lt (w n : Nat) : ∀ b ∈ leBytes w n, b < 256 := by
  induction w generalizing n with
  | zero => simp [leBytes]
  | succ k ih =>
    intro b hb
    simp only [leBytes, List.mem_cons] at hb
    rcases hb with rfl | hb
    · exact Nat.mod_lt _ (by norm_num)
    · exact ih _ b hb

theorem leValue_leBytes (w n : Nat) : leValue (leBytes w n) = n % 256 ^ w := by
  induction w generalizing n with
  | zero => simp [leBytes, leValue, Nat.mod_one]
  | succ k ih => simp [leBytes, leValue, ih, pow_succ', Nat.mod_mul]

theorem putUint_length (order : ByteOrder) (w n : Nat) : (putUint order w n).length = w := by
  cases order <;> simp [putUint, leBytes_length]

theorem putUint_lt (order : ByteOrder) (w n : Nat) : ∀ b ∈ putUint order w n, b < 256 := by
  cases order
  · exact leBytes_lt w n
  · intro b hb
    exact leBytes_lt w n b (by simpa [putUint] using hb)

theorem getUint_putUint (order : ByteOrder) (w n : Nat) :
    getUint order (putUint order w n) = n % 256 ^ w := by
  cases order <;> simp [getUint, putUint, leValue_leBytes]

/-! ## Alignment -/

theorem write_nil (enc : Encoder) : enc.write [] = enc := by
  simp [Encoder.write]

theorem ensureAlignment_eq_write (enc : Encoder) (W : Nat) :
    enc.ensureAlignment W
      = enc.write (List.replicate ((W - enc.w.length % W) % W) 0) := by
  unfold Encoder.ensureAlignment
  by_cases h : enc.w.length % W > 0
  · rcases Nat.eq_zero_or_pos W with h0 | h0
    · subst h0; simp [Encoder.write]
    · have hlt : enc.w.length % W < W := Nat.mod_lt _ h0
      have : (W - enc.w.length % W) % W = W - enc.w.length % W :=
        Nat.mod_eq_of_lt (by omega)
      simp [h, this]
  · have h0 : enc.w.length % W = 0 := by omega
    simp [h0, write_nil]

theorem ensureAlignment_w (enc : Encoder) (W : Nat) :
    (enc.ensureAlignment W).w
      = enc.w ++ List.replicate ((W - enc.w.length % W) % W) 0 := by
  rw [ensureAlignment_eq_write]; rfl

theorem ensureAlignment_length_mod (enc : Encoder) (W : Nat) (h0 : 0 < W) :
    (enc.ensureAlignment W).w.length % W = 0 := by
  rw [ensureAlignment_w]
  simp only [List.length_append, List.length_replicate]
  · by_cases h : enc.w.length % W = 0
    · simp [h, Nat.mod_self]
    · have hlt : enc.w.length % W < W := Nat.mod_lt _ h0
      rw [Nat.mod_eq_of_lt (by omega : W - enc.w.length % W < W)]
      have hdiv := Nat.div_add_mod enc.w.length W
      have : enc.w.length + (W - enc.w.length % W) = W * (enc.w.length / W + 1) := by
        rw [Nat.mul_add, Nat.mul_one]; omega
      rw [this, Nat.mul_mod_right]

theorem ensureAlignment_least (enc : Encoder) (W m : Nat) (hW : 0 < W) (hm : m % W = 0)
    (hle : enc.w.length ≤ m) : (enc.ensureAlignment W).w.length ≤ m := by
  rw [ensureAlignment_w]
  simp only [List.length_append, List.length_replicate]
  by_cases h : enc.w.length % W = 0
  · simp [h, Nat.mod_self, hle]
  · have hlt : enc.w.length % W < W := Nat.mod_lt _ hW
    rw [Nat.mod_eq_of_lt (by omega : W - enc.w.length % W < W)]
    have hdiv := Nat.div_add_mod enc.w.length W
    have hmdiv := Nat.div_add_mod m W
    rw [hm, Nat.add_zero] at hmdiv
    have hk : enc.w.length / W < m / W := by
      by_contra hc
      have hc : m / W ≤ enc.w.length / W := by omega
      have := Nat.mul_le_mul_left W hc
      omega
    have := Nat.mul_le_mul_left W (Nat.succ_le_of_lt hk)
    rw [Nat.mul_succ] at this
    omega


theorem ensureAlignment_ch (enc : Encoder) (W : Nat) : (enc.ensureAlignment W).ch = enc.ch := by
  rw [ensureAlignment_eq_write]; rfl

theorem emitsAligned_of_write (enc : Encoder) (W n : Nat) (hW : 0 < W) :
    EmitsAligned enc ((enc.ensureAlignment W).write
      (putUint (enc.ensureAlignment W).ch.Endianness W n)) W n := by
  refine ⟨(W - enc.w.length % W) % W, putUint enc.ch.Endianness W n,
    Nat.mod_lt _ hW, ?_, ?_, putUint_length _ _ _, putUint_lt _ _ _, ?_, ?_⟩
  · have := ensureAlignment_length_mod enc W hW
    rwa [ensureAlignment_w, List.length_append, List.length_replicate] at this
  · simp [Encoder.write, ensureAlignment_w, ensureAlignment_ch]
  · rw [getUint_putUint]
    have : (256 : Nat) ^ W = 2 ^ (8 * W) := by
      rw [show (256 : Nat) = 2 ^ 8 by norm_num, ← pow_mul]
    rw [this]
    push_cast
    rfl
  · have := ensureAlignment_length_mod enc W hW
    simp only [Encoder.write, List.length_append, putUint_length] at this ⊢
    rw [Nat.add_mod, this]
    simp

theorem emitsAligned_int (enc : Encoder) (W : Nat) (i : Int) (hW : 0 < W) :
    EmitsAligned enc ((enc.ensureAlignment W).write
      (putUint (enc.ensureAlignment W).ch.Endianness W (i % 2 ^ (8 * W)).toNat)) W i := by
  have h := emitsAligned_of_write enc W (i % 2 ^ (8 * W)).toNat hW
  have hnn : 0 ≤ i % 2 ^ (8 * W) := Int.emod_nonneg _ (by positivity)
  unfold EmitsAligned at h ⊢
  rw [Int.toNat_of_nonneg hnn, Int.emod_emod_of_dvd _ (dvd_refl _)] at h
  exact h

theorem ensureAlignment_one (enc : Encoder) : enc.ensureAlignment 1 = enc := by
  simp [Encoder.ensureAlignment, Nat.mod_one]

/-- C1. Every integer emitter of width `W` (`writeBool`, `writeUint8`, `writeInt8` with
`W = 1`; `writeUint16`, `writeInt16` with `W = 2`; `writeUint32`, `writeInt32` with `W = 4`;
`writeUint64`, `writeInt64` with `W = 8`) keeps the bytes already in the buffer, appends
fewer than `W` zero bytes so that the value starts at a multiple of `W`, then appends the `W`
bytes of the value in the configured byte order, and leaves the length a multiple of `W`. -/
theorem integer_emitters_aligned (enc : Encoder) :
    (∀ b : Bool, EmitsAligned enc (enc.writeBool b) 1 (if b then 1 else 0)) ∧
    (∀ v : Nat, EmitsAligned enc (enc.writeUint8 v) 1 v) ∧
    (∀ v : Int, EmitsAligned enc (enc.writeInt8 v) 1 v) ∧
    (∀ v : Nat, EmitsAligned enc (enc.writeUint16 v) 2 v) ∧
    (∀ v : Int, EmitsAligned enc (enc.writeInt16 v) 2 v) ∧
    (∀ v : Nat, EmitsAligned enc (enc.writeUint32 v) 4 v) ∧
    (∀ v : Int, EmitsAligned enc (enc.writeInt32 v) 4 v) ∧
    (∀ v : Nat, EmitsAligned enc (enc.writeUint64 v) 8 v) ∧
    (∀ v : Int, EmitsAligned enc (enc.writeInt64 v) 8 v) := by
  refine ⟨?_, ?_, ?_, ?_, ?_, ?_, ?_, ?_, ?_⟩
  · intro b
    have h := emitsAligned_of_write enc 1 (if b then 1 else 0) Nat.one_pos
    rw [ensureAlignment_one] at h
    cases b
    · cases hord : enc.ch.Endianness <;> simpa [Encoder.writeBool, putUint, leBytes, hord] using h
    · cases hord : enc.ch.Endianness <;> simpa [Encoder.writeBool, putUint, leBytes, hord] using h
  · intro v
    have h := emitsAligned_of_write enc 1 v Nat.one_pos
    rwa [ensureAlignment_one] at h
  · intro v
    have h := emitsAligned_int enc 1 v Nat.one_pos
    rwa [ensureAlignment_one] at h
  · intro v; exact emitsAligned_of_write enc 2 v (by norm_num)
  · intro v; exact emitsAligned_int enc 2 v (by norm_num)
  · intro v; exact emitsAligned_of_write enc 4 v (by norm_num)
  · intro v; exact emitsAligned_int enc 4 v (by norm_num)
  · intro v; exact emitsAligned_of_write enc 8 v (by norm_num)
  · intro v; exact emitsAligned_int enc 8 v (by norm_num)

/-- C2. For a buffer of length `L` and `W` in {1, 2, 4, 8}, `ensureAlignment W` appends
exactly `(W - L mod W) mod W` bytes, all zero, after the unchanged first `L` bytes; the new
length is a multiple of `W`, at least `L`, and at most every multiple of `W` that is at least
`L`; nothing at all changes when `L mod W = 0`. -/
theorem ensureAlignment_pads_to_least_multiple (enc : Encoder) (W : Nat)
    (hW : W = 1 ∨ W = 2 ∨ W = 4 ∨ W = 8) :
    (enc.ensureAlignment W).w
        = enc.w ++ List.replicate ((W - enc.w.length % W) % W) 0 ∧
      (enc.ensureAlignment W).w.take enc.w.length = enc.w ∧
      (enc.ensureAlignment W).w.length % W = 0 ∧
      enc.w.length ≤ (enc.ensureAlignment W).w.length ∧
      (∀ m, m % W = 0 → enc.w.length ≤ m → (enc.ensureAlignment W).w.length ≤ m) ∧
      (enc.w.length % W = 0 → enc.ensureAlignment W = enc) := by
  have hpos : 0 < W := by rcases hW with h | h | h | h <;> omega
  refine ⟨ensureAlignment_w enc W, ?_, ensureAlignment_length_mod enc W hpos, ?_,
    fun m hm hle => ensureAlignment_least enc W m hpos hm hle, ?_⟩
  · rw [ensureAlignment_w]; simp
  · rw [ensureAlignment_w]; simp
  · intro h
    simp [Encoder.ensureAlignment, h]

/-- C2 at a concrete input: a 3-byte buffer aligned to 4 gains one zero byte. -/
theorem ensureAlignment_pads_to_least_multiple_witness :
    ((4 : Nat) = 1 ∨ (4 : Nat) = 2 ∨ (4 : Nat) = 4 ∨ (4 : Nat) = 8) ∧
    ((NewEncoder [1, 2, 3] false).ensureAlignment 4).w = [1, 2, 3, 0] :=
  ⟨by decide, (ensureAlignment_pads_to_least_multiple (NewEncoder [1, 2, 3] false) 4
    (by decide)).1⟩


theorem writePointer_w (enc : Encoder) :
    enc.writePointer.w = enc.w ++ List.replicate ((4 - enc.w.length % 4) % 4) 0
      ++ putUint enc.ch.Endianness 4 enc.nextReferentID := by
  simp [Encoder.writePointer, SizePtr, ensureAlignment_eq_write, Encoder.write]

theorem writePointer_nextReferentID (enc : Encoder) :
    enc.writePointer.nextReferentID = (enc.nextReferentID + 4) % 2 ^ 32 := by
  simp [Encoder.writePointer, SizePtr, ensureAlignment_eq_write, Encoder.write]

theorem writePointer_ch (enc : Encoder) : enc.writePointer.ch = enc.ch := by
  simp [Encoder.writePointer, SizePtr, ensureAlignment_eq_write, Encoder.write]

/-- C3, amended. On a pointer-tagged field whose value is a non-nil Go pointer or was not
reached through an unexported struct field (so that `v.Interface()` returns), `isPointer`
reports a pointer, ends normally and writes one 4-byte word: when the value is a non-nil Go
pointer, differs from the zero value of its type, or is the empty string, the word is the
next referent id (after the zero padding that aligns it to 4), the id counter advances by 4
and exactly one entry, the value with the pointer flag removed from its attributes, is
appended to the deferred list; otherwise the word is `00 00 00 00`, nothing is enqueued and
the id counter is unchanged. On any other pointer-tagged value, one that is not a non-nil
pointer and was reached through an unexported field, `isPointer` panics in `v.Interface()`
with the buffer, the deferred list and the id counter untouched. A struct with one
pointer-tagged `uint32` field encodes to `FF FF FF FF 00 00 02 00 DD CC BB AA` for the value
`0xAABBCCDD` and to `FF FF FF FF 00 00 00 00` for the value 0. -/
theorem isPointer_writes_one_word (enc : Encoder) (v : Value) (tag : Tag)
    (deferred : List DeferedPtr) (h : tag.pointer = true)
    (hv : v.isNonNilPointer = true ∨ v.canInterface = true) :
    (isPointer enc v tag deferred).2.2.1 = true ∧
    (isPointer enc v tag deferred).2.2.2 = none ∧
    ((v.isNonNilPointer = true ∨ isZero v = false ∨ v = .string []) →
      (isPointer enc v tag deferred).1.w
          = enc.w ++ List.replicate ((4 - enc.w.length % 4) % 4) 0
              ++ putUint enc.ch.Endianness 4 enc.nextReferentID ∧
        (isPointer enc v tag deferred).1.nextReferentID = (enc.nextReferentID + 4) % 2 ^ 32 ∧
        (isPointer enc v tag deferred).2.1
          = deferred ++ [{ v := v, tag := { tag with pointer := false } }]) ∧
    (¬ (v.isNonNilPointer = true ∨ isZero v = false ∨ v = .string []) →
      (isPointer enc v tag deferred).1.w = enc.w ++ [0, 0, 0, 0] ∧
        (isPointer enc v tag deferred).1.nextReferentID = enc.nextReferentID ∧
        (isPointer enc v tag deferred).2.1 = deferred) ∧
    (∀ u : Value, u.isNonNilPointer = false → u.canInterface = false →
      isPointer enc u tag deferred = (enc, deferred, false, some .interfacePanic)) ∧
    (Encode (NewEncoder [] false) (pointerToUint32 0xAABBCCDD)).2
      = .ok [0xFF, 0xFF, 0xFF, 0xFF, 0x00, 0x00, 0x02, 0x00, 0xDD, 0xCC, 0xBB, 0xAA] ∧
    (Encode (NewEncoder [] false) (pointerToUint32 0)).2
      = .ok [0xFF, 0xFF, 0xFF, 0xFF, 0x00, 0x00, 0x00, 0x00] := by
  have hstr : v.canInterface = true → v.isString = true → isZero v = true →
      v = .string [] := by
    intro h0 h1 h2
    cases v <;> simp [Value.isString, Value.canInterface] at h0 h1
    simpa [isZero] using h2
  have hstr' : v = .string [] → v.isString = true := by
    rintro rfl; rfl
  have hpanic : v.isNonNilPointer = false → (!v.canInterface) = false := by
    intro hn
    rcases hv with hv | hv
    · rw [hn] at hv; exact absurd hv (by decide)
    · simp [hv]
  refine ⟨?_, ?_, ?_, ?_, ?_, by decide, by decide⟩
  · unfold isPointer
    simp only [h, if_true]
    by_cases h1 : v.isNonNilPointer = true
    · simp [h1]
    · have hp := hpanic (by simpa using h1)
      simp only [h1, hp, Bool.false_eq_true, if_false]
      split_ifs <;> rfl
  · unfold isPointer
    simp only [h, if_true]
    by_cases h1 : v.isNonNilPointer = true
    · simp [h1]
    · have hp := hpanic (by simpa using h1)
      simp only [h1, hp, Bool.false_eq_true, if_false]
      split_ifs <;> rfl
  · intro hc
    have hres : isPointer enc v tag deferred
        = (enc.writePointer, deferred ++ [{ v := v, tag := tag.deletePointer }], true,
            none) := by
      unfold isPointer
      simp only [h, if_true]
      by_cases h1 : v.isNonNilPointer = true
      · simp [h1]
      · have hp := hpanic (by simpa using h1)
        simp only [h1, hp, Bool.false_eq_true, if_false]
        split_ifs with h2 h3
        · rfl
        · rfl
        · exfalso
          rcases hc with hc | hc | hc
          · exact h1 hc
          · simp [hc] at h2
          · exact h3 (hstr' hc)
    rw [hres]
    exact ⟨writePointer_w enc, writePointer_nextReferentID enc, rfl⟩
  · intro hc
    push_neg at hc
    obtain ⟨h1, h2, h3⟩ := hc
    have hp := hpanic (by simpa using h1)
    have hci : v.canInterface = true := by simpa using hp
    have h3' : ¬ v.isString = true := fun hs => h3 (hstr hci hs (by simpa using h2))
    unfold isPointer
    simp only [h, if_true]
    rw [if_neg h1, if_neg (by simp [hci]), if_neg (by simpa using h2), if_neg h3']
    exact ⟨rfl, rfl, rfl⟩
  · intro u hu1 hu2
    unfold isPointer
    simp [h, hu1, hu2]

/-- C3, amended, at a concrete input: the pointer-tagged `uint32` value 7 of an exported
field on a fresh encoder. -/
theorem isPointer_writes_one_word_witness :
    ({ pointer := true } : Tag).pointer = true ∧
    (Value.uint32 7).canInterface = true ∧
    (isPointer (NewEncoder [] false) (.uint32 7) { pointer := true } []).1.w = [0, 0, 2, 0] ∧
    (isPointer (NewEncoder [] false) (.uint32 7) { pointer := true } []).1.nextReferentID
      = 0x00020004 :=
  ⟨rfl, rfl,
   ((isPointer_writes_one_word (NewEncoder [] false) (.uint32 7) { pointer := true } []
      rfl (Or.inr rfl)).2.2.1 (Or.inr (Or.inl rfl))).1,
   ((isPointer_writes_one_word (NewEncoder [] false) (.uint32 7) { pointer := true } []
      rfl (Or.inr rfl)).2.2.1 (Or.inr (Or.inl rfl))).2.1⟩

/-- C3, counterexample: the pointer-tagged `uint32` value 7 of an unexported field `p`.
The call of `isPointer` writes no word: it panics in `v.Interface()`, and `Encode` of the
struct leaves the sentinel in the buffer and returns nothing. -/
theorem isPointer_panics_on_unexported_field :
    isPointer (NewEncoder [] false) (.readOnly (.uint32 7)) { pointer := true } []
      = (NewEncoder [] false, [], false, some .interfacePanic) ∧
    (Encode (NewEncoder [] false) unexportedPointer).2 = .error .interfacePanic ∧
    (Encode (NewEncoder [] false) unexportedPointer).1.GetBytes = [0xFF, 0xFF, 0xFF, 0xFF] :=
  ⟨rfl, by decide, by decide⟩

/-- C4, the failing input: in a struct whose `uint8` field is followed by a null
pointer-tagged field, the zero word of the pointer is written at offset 5 and the buffer ends
with length 9, because the null branch of `isPointer` skips `ensureAlignment`; the same
struct with a non-null pointer has its referent id at offset 8, after three bytes of
padding, and `writePointer` always leaves the length a multiple of 4. -/
theorem null_pointer_word_unaligned :
    (Encode (NewEncoder [] false) (byteThenPointer 0)).2
      = .ok [0xFF, 0xFF, 0xFF, 0xFF, 0x01, 0x00, 0x00, 0x00, 0x00] ∧
    (Encode (NewEncoder [] false) (byteThenPointer 7)).2
      = .ok [0xFF, 0xFF, 0xFF, 0xFF, 0x01, 0x00, 0x00, 0x00, 0x00, 0x00, 0x02, 0x00,
             0x07, 0x00, 0x00, 0x00] ∧
    (isPointer (NewEncoder [0xFF, 0xFF, 0xFF, 0xFF, 0x01] false) (.uint32 0)
        { pointer := true } []).1.w.length % 4 = 1 ∧
    (∀ enc : Encoder, enc.writePointer.w.length % 4 = 0) := by
  refine ⟨by decide, by decide, by decide, fun enc => ?_⟩
  rw [writePointer_w]
  simp only [List.length_append, List.length_replicate, putUint_length]
  omega


theorem writePointer_last_word (enc : Encoder) (h : enc.nextReferentID < 2 ^ 32) :
    getUint enc.writePointer.ch.Endianness
      (enc.writePointer.w.drop (enc.writePointer.w.length - 4)) = enc.nextReferentID := by
  rw [writePointer_ch, writePointer_w]
  have hlen : (enc.w ++ List.replicate ((4 - enc.w.length % 4) % 4) 0
      ++ putUint enc.ch.Endianness 4 enc.nextReferentID).length - 4
      = (enc.w ++ List.replicate ((4 - enc.w.length % 4) % 4) 0).length := by
    simp only [List.length_append, putUint_length]
    omega
  rw [hlen, List.drop_left, getUint_putUint]
  exact Nat.mod_eq_of_lt (by simpa using h)

theorem writePointerRun_words (gaps : List (List Nat)) :
    ∀ enc : Encoder, enc.nextReferentID < 2 ^ 32 →
      (writePointerRun enc gaps).2
        = (List.range gaps.length).map (fun n => (enc.nextReferentID + 4 * n) % 2 ^ 32) := by
  induction gaps with
  | nil => intro enc _; rfl
  | cons g gs ih =>
    intro enc h
    have h1 : (enc.write g).nextReferentID = enc.nextReferentID := rfl
    have h2 : ((enc.write g).writePointer).nextReferentID < 2 ^ 32 := by
      rw [writePointer_nextReferentID]; exact Nat.mod_lt _ (by norm_num)
    simp only [writePointerRun, List.length_cons, List.range_succ_eq_map, List.map_cons,
      List.map_map]
    rw [writePointer_last_word (enc.write g) (by rw [h1]; exact h), ih _ h2,
      writePointer_nextReferentID, h1]
    congr 1
    · rw [Nat.mul_zero, Nat.add_zero, Nat.mod_eq_of_lt h]
    · apply List.map_congr_left
      intro n _
      simp only [Function.comp, Nat.succ_eq_add_one]
      rw [Nat.mod_add_mod]
      congr 1
      ring

/-- C5. On an encoder made by `NewEncoder` (whatever byte order is then configured), the
calls of `writePointer` of one encoding, with any bytes written between them, write the
32-bit words `0x00020000 + 4 * n` modulo `2 ^ 32` for n = 0, 1, 2, ... in this order; while
fewer than `2 ^ 30 - 0x8000` referents are allocated these words are strictly increasing in
stream order, hence pairwise distinct. -/
theorem referent_id_sequence (w : List Nat) (includeHeaders : Bool) (order : ByteOrder)
    (gaps : List (List Nat)) :
    (writePointerRun ((NewEncoder w includeHeaders).SetEndianness order) gaps).2
        = (List.range gaps.length).map (fun n => (0x00020000 + 4 * n) % 2 ^ 32) ∧
    (gaps.length < 2 ^ 30 - 0x8000 →
      List.Pairwise (fun a b => a < b)
        (writePointerRun ((NewEncoder w includeHeaders).SetEndianness order) gaps).2 ∧
      (writePointerRun ((NewEncoder w includeHeaders).SetEndianness order) gaps).2.Nodup) := by
  have hw := writePointerRun_words gaps ((NewEncoder w includeHeaders).SetEndianness order)
    (by simp [NewEncoder, Encoder.SetEndianness])
  have hid : ((NewEncoder w includeHeaders).SetEndianness order).nextReferentID = 0x00020000 :=
    rfl
  rw [hid] at hw
  refine ⟨hw, fun hlen => ?_⟩
  have hp : List.Pairwise (fun a b => a < b)
      (writePointerRun ((NewEncoder w includeHeaders).SetEndianness order) gaps).2 := by
    rw [hw, List.pairwise_map]
    refine List.Pairwise.imp_of_mem ?_ (List.pairwise_lt_range _)
    intro a b ha hb hab
    rw [List.mem_range] at ha hb
    rw [Nat.mod_eq_of_lt (by omega), Nat.mod_eq_of_lt (by omega)]
    omega
  exact ⟨hp, hp.imp (fun h => Nat.ne_of_lt h)⟩

/-- C5 at a concrete input: three referent ids on a fresh little-endian encoder. -/
theorem referent_id_sequence_witness :
    (writePointerRun ((NewEncoder [] false).SetEndianness .littleEndian) [[], [1], []]).2
      = [0x00020000, 0x00020004, 0x00020008] :=
  (referent_id_sequence [] false .littleEndian [[], [1], []]).1

/-- C7, the failing input (scenario E): the discriminant 2 selects `arm_b`, yet the bytes
`44 33 22 11` of `arm_a` are emitted between the discriminant and `arm_b`; the loop variable
`unionTag` of `fill` is never assigned, so the field loop (entered with the invalid
`unionTag`) gives the same result whatever mapping the struct declares. -/
theorem union_emits_unselected_arm :
    (Encode (NewEncoder [] false) (unionStruct 2)).2
      = .ok [0xFF, 0xFF, 0xFF, 0xFF, 0x02, 0x00, 0x00, 0x00, 0x44, 0x33, 0x22, 0x11,
             0x66, 0x55] ∧
    (∀ (sw sw' : List (Int × String)) (fields : List (String × Tag × Value))
        (enc : Encoder) (unionField : String) (localDef : List DeferedPtr),
      fillFields enc sw none unionField fields localDef
        = fillFields enc sw' none unionField fields localDef) := by
  refine ⟨by decide, ?_⟩
  intro sw sw' fields
  induction fields with
  | nil => intro enc uf localDef; simp [fillFields]
  | cons f rest ih =>
    intro enc uf localDef
    obtain ⟨fname, ftag, fv⟩ := f
    simp only [fillFields]
    rcases hfill : fill { enc with current := enc.current ++ [fname] } fv ftag localDef
      with ⟨e1, d1, _ | err⟩
    · simp only []
      exact ih _ _ _
    · rfl

/-- C8, the failing input: the discriminant 3 maps to no arm of the union of scenario E, yet
`Encode` returns bytes (the discriminant and both arms) and no error. -/
theorem union_unmapped_discriminant_encodes :
    (Encode (NewEncoder [] false) (unionStruct 3)).2
      = .ok [0xFF, 0xFF, 0xFF, 0xFF, 0x03, 0x00, 0x00, 0x00, 0x44, 0x33, 0x22, 0x11,
             0x66, 0x55] := by
  decide

/-- C10, the failing input: for the conformant string "é" (two bytes of UTF-8, one UTF-16
code unit) `conformantScan` records the maximum count 2 while
`writeConformantVaryingString` emits the actual count 1. -/
theorem conformant_max_counts_utf8_bytes :
    (conformantScan (NewEncoder [] false) (conformantString "é") {}).conformantMax = [2] ∧
    goString "é" = [0xC3, 0xA9] ∧
    utf16Encode (runes (goString "é")) = [0xE9] ∧
    (Encode (NewEncoder [] false) (conformantString "é")).2
      = .ok [0xFF, 0xFF, 0xFF, 0xFF, 0x02, 0x00, 0x00, 0x00, 0x00, 0x00, 0x00, 0x00,
             0x01, 0x00, 0x00, 0x00, 0xE9, 0x00, 0x00, 0x00] := by
  decide

/-- C6, counterexample: the struct with one conformant string field "Hi" encodes with the
sentinel first and the hoisted maximum count after it, not the other way round. -/
theorem hoisted_max_follows_sentinel :
    (Encode (NewEncoder [] false) (conformantString "Hi")).2
      = .ok [0xFF, 0xFF, 0xFF, 0xFF, 0x02, 0x00, 0x00, 0x00, 0x00, 0x00, 0x00, 0x00,
             0x02, 0x00, 0x00, 0x00, 0x48, 0x00, 0x69, 0x00] ∧
    (Encode (NewEncoder [] false) (conformantString "Hi")).2
      ≠ .ok [0x02, 0x00, 0x00, 0x00, 0xFF, 0xFF, 0xFF, 0xFF, 0x00, 0x00, 0x00, 0x00,
             0x02, 0x00, 0x00, 0x00, 0x48, 0x00, 0x69, 0x00] := by
  decide


/-! ## The traversal only appends -/

theorem Encoder.Continues.refl (enc : Encoder) : enc.Continues enc :=
  ⟨⟨[], by simp⟩, rfl, rfl⟩

theorem Encoder.Continues.trans {a b c : Encoder} (h1 : a.Continues b) (h2 : b.Continues c) :
    a.Continues c := by
  obtain ⟨⟨x, hx⟩, hch1, hh1⟩ := h1
  obtain ⟨⟨y, hy⟩, hch2, hh2⟩ := h2
  exact ⟨⟨x ++ y, by rw [hy, hx, List.append_assoc]⟩, hch2.trans hch1, hh2.trans hh1⟩

theorem write_continues (enc : Encoder) (bs : List Nat) : enc.Continues (enc.write bs) :=
  ⟨⟨bs, rfl⟩, rfl, rfl⟩

theorem ensureAlignment_continues (enc : Encoder) (W : Nat) :
    enc.Continues (enc.ensureAlignment W) := by
  rw [ensureAlignment_eq_write]; exact write_continues _ _

theorem ensureAlignment_conformantMax (enc : Encoder) (W : Nat) :
    (enc.ensureAlignment W).conformantMax = enc.conformantMax := by
  rw [ensureAlignment_eq_write]; rfl

theorem aligned_write_continues (enc : Encoder) (W : Nat) (f : Encoder → List Nat) :
    enc.Continues ((enc.ensureAlignment W).write (f (enc.ensureAlignment W))) :=
  (ensureAlignment_continues enc W).trans (write_continues _ _)

theorem writePointer_continues (enc : Encoder) : enc.Continues enc.writePointer :=
  ⟨⟨_, by rw [writePointer_w, List.append_assoc]⟩, writePointer_ch enc, by
    simp [Encoder.writePointer, SizePtr, ensureAlignment_eq_write, Encoder.write]⟩

theorem writePointer_conformantMax (enc : Encoder) :
    enc.writePointer.conformantMax = enc.conformantMax := by
  simp [Encoder.writePointer, SizePtr, ensureAlignment_eq_write, Encoder.write]

theorem writeConformantVaryingString_continues (enc : Encoder) (s : List Nat) :
    enc.Continues (enc.writeConformantVaryingString s) := by
  unfold Encoder.writeConformantVaryingString
  exact (((((ensureAlignment_continues enc _).trans (write_continues _ _)).trans
    (write_continues _ _)).trans (write_continues _ _)).trans
    (ensureAlignment_continues _ _))

theorem writeConformantVaryingString_conformantMax (enc : Encoder) (s : List Nat) :
    (enc.writeConformantVaryingString s).conformantMax = enc.conformantMax := by
  simp [Encoder.writeConformantVaryingString, ensureAlignment_eq_write, Encoder.write]

theorem writeArrayCounts_continues (enc : Encoder) (n : Nat) :
    enc.Continues (writeArrayCounts enc n) := by
  unfold writeArrayCounts Encoder.writeUint32
  exact (aligned_write_continues enc _ (fun e => putUint e.ch.Endianness 4 0)).trans
    (aligned_write_continues _ _ (fun e => putUint e.ch.Endianness 4 (n % 2 ^ 32)))

theorem writeArrayCounts_conformantMax (enc : Encoder) (n : Nat) :
    (writeArrayCounts enc n).conformantMax = enc.conformantMax := by
  simp [writeArrayCounts, Encoder.writeUint32, ensureAlignment_eq_write, Encoder.write]

theorem isPointer_false (enc : Encoder) (v : Value) (tag : Tag) (d : List DeferedPtr)
    (h : tag.pointer = false) : isPointer enc v tag d = (enc, d, false, none) := by
  simp [isPointer, h]

theorem isPointer_true (enc : Encoder) (v : Value) (tag : Tag) (d : List DeferedPtr)
    (h : tag.pointer = true) :
    ((isPointer enc v tag d).2.2 = (true, none) ∨
      (isPointer enc v tag d).2.2 = (false, some .interfacePanic)) ∧
    enc.Continues (isPointer enc v tag d).1 ∧
    (isPointer enc v tag d).1.conformantMax = enc.conformantMax ∧
    ((isPointer enc v tag d).2.1 = d ∨
      (isPointer enc v tag d).2.1 = d ++ [{ v := v, tag := tag.deletePointer }]) := by
  unfold isPointer
  simp only [h, if_true]
  split_ifs
  · exact ⟨Or.inl rfl, writePointer_continues enc, writePointer_conformantMax enc, Or.inr rfl⟩
  · exact ⟨Or.inr rfl, Encoder.Continues.refl enc, rfl, Or.inl rfl⟩
  · exact ⟨Or.inl rfl, writePointer_continues enc, writePointer_conformantMax enc, Or.inr rfl⟩
  · exact ⟨Or.inl rfl, writePointer_continues enc, writePointer_conformantMax enc, Or.inr rfl⟩
  · exact ⟨Or.inl rfl, write_continues _ _, rfl, Or.inl rfl⟩

theorem fill_pointer_eq (enc : Encoder) (s : Value) (tag : Tag) (d : List DeferedPtr)
    (hp : tag.pointer = true) :
    fill enc s tag d
      = ((isPointer enc s tag d).1, (isPointer enc s tag d).2.1,
          (isPointer enc s tag d).2.2.2) := by
  obtain ⟨h1, -⟩ := isPointer_true enc s tag d hp
  unfold fill
  rcases hres : isPointer enc s tag d with ⟨e, d', b, err⟩
  rw [hres] at h1
  simp only [Prod.mk.injEq] at h1
  rcases h1 with ⟨rfl, rfl⟩ | ⟨rfl, rfl⟩ <;> rfl

theorem fill_unexported (enc : Encoder) (v : Value) (tag : Tag) (d : List DeferedPtr)
    (hp : tag.pointer = false) : fill enc (.readOnly v) tag d = fill enc v tag d := by
  conv_lhs => unfold fill
  rw [isPointer_false _ _ _ _ hp]

theorem fillKeeps_leaf (enc enc' : Encoder) (d : List DeferedPtr) (bound : Nat)
    (e : Option EncErr) (h : enc.Continues enc') (hc : enc'.conformantMax = enc.conformantMax) :
    FillKeeps enc d bound (enc', d, e) :=
  ⟨h, hc, [], by simp, by simp⟩

theorem fillKeeps_trans {enc : Encoder} {d : List DeferedPtr} {b1 b2 b : Nat}
    {r1 r2 : Encoder × List DeferedPtr × Option EncErr}
    (h1 : FillKeeps enc d b1 r1) (h2 : FillKeeps r1.1 r1.2.1 b2 r2) (hb1 : b1 ≤ b)
    (hb2 : b2 ≤ b) : FillKeeps enc d b r2 := by
  obtain ⟨c1, m1, n1, e1, p1⟩ := h1
  obtain ⟨c2, m2, n2, e2, p2⟩ := h2
  refine ⟨c1.trans c2, m2.trans m1, n1 ++ n2, by rw [e2, e1, List.append_assoc], ?_⟩
  intro p hp
  rcases List.mem_append.1 hp with hp | hp
  · exact lt_of_lt_of_le (p1 p hp) hb1
  · exact lt_of_lt_of_le (p2 p hp) hb2

theorem fillKeeps_current {enc : Encoder} {d : List DeferedPtr} {b : Nat}
    {r : Encoder × List DeferedPtr × Option EncErr} (cur : List String)
    (h : FillKeeps { enc with current := cur } d b r) : FillKeeps enc d b r := h

theorem fillKeeps_setCurrent {enc : Encoder} {d : List DeferedPtr} {b : Nat}
    {e : Encoder} {d' : List DeferedPtr} {err : Option EncErr} (cur : List String)
    (h : FillKeeps enc d b (e, d', err)) (err' : Option EncErr) :
    FillKeeps enc d b ({ e with current := cur }, d', err') := h


theorem fill_pointer_keeps (enc : Encoder) (s : Value) (tag : Tag) (d : List DeferedPtr)
    (hp : tag.pointer = true) : FillKeeps enc d (rank s tag) (fill enc s tag d) := by
  obtain ⟨h1, h2, h3, h4⟩ := isPointer_true enc s tag d hp
  rw [fill_pointer_eq enc s tag d hp]
  refine ⟨h2, h3, ?_⟩
  rcases h4 with h4 | h4
  · exact ⟨[], by simp [h4], by simp⟩
  · refine ⟨[{ v := s, tag := tag.deletePointer }], h4, ?_⟩
    intro p hp'
    rw [List.mem_singleton] at hp'
    subst hp'
    simp [rank, hp, Tag.deletePointer]

theorem leaf_keeps (enc enc' : Encoder) (d : List DeferedPtr) (bound : Nat)
    (e : Option EncErr) (bs : List Nat) (h : enc' = enc.write bs) :
    FillKeeps enc d bound (enc', d, e) := by
  subst h
  exact fillKeeps_leaf _ _ _ _ _ (write_continues _ _) rfl

theorem aligned_write_eq (enc : Encoder) (W : Nat) (f : Encoder → List Nat) :
    (enc.ensureAlignment W).write (f (enc.ensureAlignment W))
      = enc.write (List.replicate ((W - enc.w.length % W) % W) 0
          ++ f (enc.ensureAlignment W)) := by
  rw [ensureAlignment_eq_write]
  simp [Encoder.write]

mutual
theorem fill_keeps : ∀ (s : Value) (enc : Encoder) (tag : Tag) (d : List DeferedPtr),
    FillKeeps enc d (rank s tag) (fill enc s tag d)
  | .struct name sw fields, enc, tag, d => by
    cases hp : tag.pointer
    · simp only [fill, isPointer_false _ _ _ _ hp]
      have h := fillFields_keeps fields { enc with current := enc.current ++ [name] } sw none
        "" d
      have hb : nodesFields fields + 1 = rank (.struct name sw fields) tag := by
        simp [rank, hp, Value.nodes]
      rw [hb] at h
      rcases hres : fillFields { enc with current := enc.current ++ [name] } sw none ""
        fields d with ⟨e1, d1, _ | err⟩
      · rw [hres] at h
        exact fillKeeps_setCurrent _ (fillKeeps_current _ h) _
      · rw [hres] at h
        exact fillKeeps_current _ h
    · exact fill_pointer_keeps _ _ _ _ hp
  | .bool b, enc, tag, d => by
    cases hp : tag.pointer
    · simp only [fill, isPointer_false _ _ _ _ hp]
      exact leaf_keeps _ _ _ _ _ _ rfl
    · exact fill_pointer_keeps _ _ _ _ hp
  | .uint8 n, enc, tag, d => by
    cases hp : tag.pointer
    · simp only [fill, isPointer_false _ _ _ _ hp]
      exact leaf_keeps _ _ _ _ _ _ rfl
    · exact fill_pointer_keeps _ _ _ _ hp
  | .uint16 n, enc, tag, d => by
    cases hp : tag.pointer
    · simp only [fill, isPointer_false _ _ _ _ hp]
      exact leaf_keeps _ _ _ _ _ _
        (aligned_write_eq enc _ (fun e => putUint e.ch.Endianness 2 (n % 2 ^ 16)))
    · exact fill_pointer_keeps _ _ _ _ hp
  | .uint32 n, enc, tag, d => by
    cases hp : tag.pointer
    · simp only [fill, isPointer_false _ _ _ _ hp]
      exact leaf_keeps _ _ _ _ _ _
        (aligned_write_eq enc _ (fun e => putUint e.ch.Endianness 4 (n % 2 ^ 32)))
    · exact fill_pointer_keeps _ _ _ _ hp
  | .uint64 n, enc, tag, d => by
    cases hp : tag.pointer
    · simp only [fill, isPointer_false _ _ _ _ hp]
      exact leaf_keeps _ _ _ _ _ _
        (aligned_write_eq enc _ (fun e => putUint e.ch.Endianness 8 (n % 2 ^ 64)))
    · exact fill_pointer_keeps _ _ _ _ hp
  | .int8 i, enc, tag, d => by
    cases hp : tag.pointer
    · simp only [fill, isPointer_false _ _ _ _ hp]
      exact leaf_keeps _ _ _ _ _ _ rfl
    · exact fill_pointer_keeps _ _ _ _ hp
  | .int16 i, enc, tag, d => by
    cases hp : tag.pointer
    · simp only [fill, isPointer_false _ _ _ _ hp]
      exact leaf_keeps _ _ _ _ _ _
        (aligned_write_eq enc SizeUint16
          (fun e => putUint e.ch.Endianness 2 (Int.toNat (i % 2 ^ 16))))
    · exact fill_pointer_keeps _ _ _ _ hp
  | .int32 i, enc, tag, d => by
    cases hp : tag.pointer
    · simp only [fill, isPointer_false _ _ _ _ hp]
      exact leaf_keeps _ _ _ _ _ _
        (aligned_write_eq enc SizeUint32
          (fun e => putUint e.ch.Endianness 4 (Int.toNat (i % 2 ^ 32))))
    · exact fill_pointer_keeps _ _ _ _ hp
  | .int64 i, enc, tag, d => by
    cases hp : tag.pointer
    · simp only [fill, isPointer_false _ _ _ _ hp]
      exact leaf_keeps _ _ _ _ _ _
        (aligned_write_eq enc SizeUint64
          (fun e => putUint e.ch.Endianness 8 (Int.toNat (i % 2 ^ 64))))
    · exact fill_pointer_keeps _ _ _ _ hp
  | .float32 bits, enc, tag, d => by
    cases hp : tag.pointer
    · simp only [fill, isPointer_false _ _ _ _ hp]
      exact leaf_keeps _ _ _ _ _ _
        (aligned_write_eq enc _ (fun e => putUint e.ch.Endianness 4 (float32RoundTrip (bits % 2 ^ 32))))
    · exact fill_pointer_keeps _ _ _ _ hp
  | .float64 bits, enc, tag, d => by
    cases hp : tag.pointer
    · simp only [fill, isPointer_false _ _ _ _ hp]
      exact leaf_keeps _ _ _ _ _ _
        (aligned_write_eq enc _ (fun e => putUint e.ch.Endianness 8 (bits % 2 ^ 64)))
    · exact fill_pointer_keeps _ _ _ _ hp
  | .string str, enc, tag, d => by
    cases hp : tag.pointer
    · simp only [fill, isPointer_false _ _ _ _ hp]
      split_ifs
      · exact fillKeeps_leaf _ _ _ _ _ (writeConformantVaryingString_continues _ _)
          (writeConformantVaryingString_conformantMax _ _)
      · exact fillKeeps_leaf _ _ _ _ _ (Encoder.Continues.refl _) rfl
    · exact fill_pointer_keeps _ _ _ _ hp
  | .array elems, enc, tag, d => by
    cases hp : tag.pointer
    · simp only [fill, isPointer_false _ _ _ _ hp]
      have h := fillElems_keeps elems enc tag.elemTag d
      have hb : nodesElems elems + 1 = rank (.array elems) tag := by
        simp [rank, hp, Value.nodes]
      rw [hb] at h
      exact h
    · exact fill_pointer_keeps _ _ _ _ hp
  | .slice elem isNil elems, enc, tag, d => by
    cases hp : tag.pointer
    · simp only [fill, isPointer_false _ _ _ _ hp]
      have hb : nodesElems elems + 1 = rank (.slice elem isNil elems) tag := by
        simp [rank, hp, Value.nodes]
      have hk : FillKeeps enc d (rank (.slice elem isNil elems) tag)
          (writeArrayCounts enc elems.length, d, none) :=
        fillKeeps_leaf _ _ _ _ _ (writeArrayCounts_continues _ _)
          (writeArrayCounts_conformantMax _ _)
      have h1 := fillElems_keeps elems (writeArrayCounts enc elems.length) tag.elemTag d
      have h2 := fillElems_keeps elems enc tag.elemTag d
      rw [hb] at h1 h2
      split_ifs
      · exact fillKeeps_trans hk h1 le_rfl le_rfl
      · exact fillKeeps_trans hk h1 le_rfl le_rfl
      · exact h2
    · exact fill_pointer_keeps _ _ _ _ hp
  | .ptr target, enc, tag, d => by
    cases hp : tag.pointer
    · simp only [fill, isPointer_false _ _ _ _ hp]
      exact fillKeeps_leaf _ _ _ _ _ (Encoder.Continues.refl _) rfl
    · exact fill_pointer_keeps _ _ _ _ hp
  | .nilPtr, enc, tag, d => by
    cases hp : tag.pointer
    · simp only [fill, isPointer_false _ _ _ _ hp]
      exact fillKeeps_leaf _ _ _ _ _ (Encoder.Continues.refl _) rfl
    · exact fill_pointer_keeps _ _ _ _ hp
  | .other z, enc, tag, d => by
    cases hp : tag.pointer
    · simp only [fill, isPointer_false _ _ _ _ hp]
      exact fillKeeps_leaf _ _ _ _ _ (Encoder.Continues.refl _) rfl
    · exact fill_pointer_keeps _ _ _ _ hp
  | .readOnly v, enc, tag, d => by
    cases hp : tag.pointer
    · rw [fill_unexported _ _ _ _ hp]
      exact fillKeeps_trans (fillKeeps_leaf enc enc d 0 none (Encoder.Continues.refl _) rfl)
        (fill_keeps v enc tag d) (Nat.zero_le _) (by simp only [rank, Value.nodes]; omega)
    · exact fill_pointer_keeps _ _ _ _ hp
theorem fillFields_keeps : ∀ (fields : List (String × Tag × Value)) (enc : Encoder)
    (sw : List (Int × String)) (unionTag : Option Value) (unionField : String)
    (d : List DeferedPtr),
    FillKeeps enc d (nodesFields fields + 1) (fillFields enc sw unionTag unionField fields d)
  | [], enc, sw, ut, uf, d => by
    simp only [fillFields]
    exact fillKeeps_leaf _ _ _ _ _ (Encoder.Continues.refl _) rfl
  | (fname, ftag, fv) :: rest, enc, sw, ut, uf, d => by
    have hstep : ∀ (uf' : String) (ut' : Option Value),
        FillKeeps enc d (nodesFields ((fname, ftag, fv) :: rest) + 1)
          (match fill { enc with current := enc.current ++ [fname] } fv ftag d with
            | (enc, localDef, some err) => (enc, localDef, some err)
            | (enc, localDef, none) =>
              fillFields { enc with current := enc.current.dropLast } sw ut' uf' rest
                localDef) := by
      intro uf' ut'
      have h1 := fill_keeps fv { enc with current := enc.current ++ [fname] } ftag d
      have hr : rank fv ftag ≤ nodesFields ((fname, ftag, fv) :: rest) + 1 := by
        simp only [rank, nodesFields]; split_ifs <;> omega
      rcases hres : fill { enc with current := enc.current ++ [fname] } fv ftag d
        with ⟨e1, d1, _ | err⟩
      · rw [hres] at h1
        simp only []
        have h2 := fillFields_keeps rest { e1 with current := e1.current.dropLast } sw ut' uf'
          d1
        have h1' : FillKeeps enc d (rank fv ftag)
            ({ e1 with current := e1.current.dropLast }, d1, none) :=
          fillKeeps_setCurrent _ (fillKeeps_current _ h1) _
        exact fillKeeps_trans h1' h2 hr (by simp only [nodesFields]; omega)
      · rw [hres] at h1
        simp only []
        exact fillKeeps_trans (fillKeeps_leaf enc enc d 0 none (Encoder.Continues.refl _) rfl)
          (fillKeeps_current _ h1) (Nat.zero_le _) hr
    cases ut with
    | none =>
      simp only [fillFields]
      exact hstep uf none
    | some u =>
      simp only [fillFields]
      rcases hsel : (if uf = "" then unionSelectedField sw u else Except.ok uf)
        with err | sel
      · simp only []
        exact fillKeeps_leaf _ _ _ _ _ ⟨⟨[], by simp⟩, rfl, rfl⟩ rfl
      · simp only []
        split_ifs
        · exact fillKeeps_trans
            (fillKeeps_leaf enc { enc with current := (enc.current ++ [fname]).dropLast } d 0
              none ⟨⟨[], by simp⟩, rfl, rfl⟩ rfl)
            (fillFields_keeps rest _ sw (some u) sel d) (Nat.zero_le _)
            (by simp only [nodesFields]; omega)
        · exact hstep sel (some u)
theorem fillElems_keeps : ∀ (elems : List Value) (enc : Encoder) (tag : Tag)
    (d : List DeferedPtr),
    FillKeeps enc d (nodesElems elems + 1) (fillElems enc elems tag d)
  | [], enc, tag, d => by
    simp only [fillElems]
    exact fillKeeps_leaf _ _ _ _ _ (Encoder.Continues.refl _) rfl
  | e :: rest, enc, tag, d => by
    simp only [fillElems]
    have h1 := fill_keeps e enc tag d
    have hr : rank e tag ≤ nodesElems (e :: rest) + 1 := by
      simp only [rank, nodesElems]; split_ifs <;> omega
    rcases hres : fill enc e tag d with ⟨e1, d1, _ | err⟩
    · rw [hres] at h1
      simp only []
      exact fillKeeps_trans h1 (fillElems_keeps rest e1 tag d1) hr
        (by simp only [nodesElems]; omega)
    · rw [hres] at h1
      simp only []
      exact fillKeeps_trans (fillKeeps_leaf enc enc d 0 none (Encoder.Continues.refl _) rfl) h1
        (Nat.zero_le _) hr
end



/-! ## The conformant scan -/

theorem conformantScanSlice_eq (enc : Encoder) (tag : Tag) (elem : Ty) (len : Nat) :
    conformantScanSlice enc tag elem len
      = { enc with conformantMax := enc.conformantMax ++ scanMaxesSlice tag elem len } := by
  unfold conformantScanSlice scanMaxesSlice
  by_cases hc : tag.conformant = true
  · by_cases ht : (sliceDimensions (.slice elem)).2 = .string
    · simp [hc, ht]
    · simp [hc, ht]
  · simp [hc]

mutual
theorem conformantScan_eq : ∀ (s : Value) (enc : Encoder) (tag : Tag),
    conformantScan enc s tag
      = { enc with conformantMax := enc.conformantMax ++ scanMaxes s tag }
  | .struct name sw fields, enc, tag => by
    unfold conformantScan scanMaxes
    by_cases hp : tag.pointer = true
    · simp [hp]
    · rw [if_neg hp, if_neg hp]
      exact conformantScanFields_eq fields enc
  | .string str, enc, tag => by
    unfold conformantScan scanMaxes
    split_ifs <;> simp
  | .slice elem isNil elems, enc, tag => by
    unfold conformantScan scanMaxes
    by_cases hp : tag.pointer = true
    · simp [hp]
    · rw [if_neg hp, if_neg hp]
      exact conformantScanSlice_eq enc tag elem elems.length
  | .bool _, enc, tag => by unfold conformantScan scanMaxes; split_ifs <;> simp
  | .uint8 _, enc, tag => by unfold conformantScan scanMaxes; split_ifs <;> simp
  | .uint16 _, enc, tag => by unfold conformantScan scanMaxes; split_ifs <;> simp
  | .uint32 _, enc, tag => by unfold conformantScan scanMaxes; split_ifs <;> simp
  | .uint64 _, enc, tag => by unfold conformantScan scanMaxes; split_ifs <;> simp
  | .int8 _, enc, tag => by unfold conformantScan scanMaxes; split_ifs <;> simp
  | .int16 _, enc, tag => by unfold conformantScan scanMaxes; split_ifs <;> simp
  | .int32 _, enc, tag => by unfold conformantScan scanMaxes; split_ifs <;> simp
  | .int64 _, enc, tag => by unfold conformantScan scanMaxes; split_ifs <;> simp
  | .float32 _, enc, tag => by unfold conformantScan scanMaxes; split_ifs <;> simp
  | .float64 _, enc, tag => by unfold conformantScan scanMaxes; split_ifs <;> simp
  | .array _, enc, tag => by unfold conformantScan scanMaxes; split_ifs <;> simp
  | .ptr _, enc, tag => by unfold conformantScan scanMaxes; split_ifs <;> simp
  | .nilPtr, enc, tag => by unfold conformantScan scanMaxes; split_ifs <;> simp
  | .other _, enc, tag => by unfold conformantScan scanMaxes; split_ifs <;> simp
  | .readOnly v, enc, tag => by
    unfold conformantScan scanMaxes
    by_cases hp : tag.pointer = true
    · simp [hp]
    · rw [if_neg hp, if_neg hp]
      exact conformantScan_eq v enc tag
theorem conformantScanFields_eq : ∀ (fields : List (String × Tag × Value)) (enc : Encoder),
    conformantScanFields enc fields
      = { enc with conformantMax := enc.conformantMax ++ scanMaxesFields fields }
  | [], enc => by simp [conformantScanFields, scanMaxesFields]
  | (_, tag, v) :: rest, enc => by
    simp only [conformantScanFields, scanMaxesFields]
    rw [conformantScan_eq v enc tag, conformantScanFields_eq rest]
    simp [List.append_assoc]
end

theorem writeConformantMax_eq (l : List Nat) : ∀ enc : Encoder,
    writeConformantMax enc l = enc.write (l.flatMap (putUint .littleEndian 4)) := by
  induction l with
  | nil => intro enc; simp [writeConformantMax, write_nil]
  | cons m rest ih =>
    intro enc
    simp only [writeConformantMax, ih, List.flatMap_cons]
    simp [Encoder.write, List.append_assoc]

theorem scanConformantArrays_eq (enc : Encoder) (s : Value) (tag : Tag) :
    scanConformantArrays enc s tag
      = { enc with
          w := enc.w ++ (enc.conformantMax ++ scanMaxes s tag).flatMap
            (putUint .littleEndian 4)
          conformantMax := [] } := by
  unfold scanConformantArrays
  simp only [conformantScan_eq, writeConformantMax_eq]
  rfl

theorem scanConformantArrays_continues (enc : Encoder) (s : Value) (tag : Tag) :
    enc.Continues (scanConformantArrays enc s tag) := by
  rw [scanConformantArrays_eq]
  exact ⟨⟨_, rfl⟩, rfl, rfl⟩



/-! ## Deferred referents: the recursion finishes and only appends -/

theorem processDeferred_spec (f : Encoder → Value → Tag → Option (Encoder × Option EncErr))
    (defs : List DeferedPtr)
    (hf : ∀ (enc : Encoder) (p : DeferedPtr), p ∈ defs →
      ∃ r, f enc p.v p.tag = some r ∧ enc.Continues r.1) :
    ∀ enc : Encoder, ∃ r, processDeferred f enc defs = some r ∧ enc.Continues r.1 := by
  induction defs with
  | nil => intro enc; exact ⟨_, rfl, Encoder.Continues.refl _⟩
  | cons p rest ih =>
    intro enc
    obtain ⟨⟨e1, err⟩, hr, hc⟩ := hf enc p (List.mem_cons_self _ _)
    simp only [processDeferred, hr]
    cases err with
    | some e => exact ⟨_, rfl, hc⟩
    | none =>
      obtain ⟨r2, h2, hc2⟩ := ih (fun enc q hq => hf enc q (List.mem_cons_of_mem _ hq)) e1
      exact ⟨r2, h2, hc.trans hc2⟩

theorem processFuel_spec : ∀ (n : Nat) (enc : Encoder) (s : Value) (tag : Tag),
    rank s tag < n →
    ∃ r, processFuel n enc s tag = some r ∧ enc.Continues r.1 ∧
      (r.2 = none →
        (fill (scanConformantArrays enc s tag) s tag []).2.2 = none ∧
        ∃ rest, r.1.w = (fill (scanConformantArrays enc s tag) s tag []).1.w ++ rest) := by
  intro n
  induction n with
  | zero => intro enc s tag h; omega
  | succ n ih =>
    intro enc s tag h
    have hk := fill_keeps s (scanConformantArrays enc s tag) tag []
    have hsc := scanConformantArrays_continues enc s tag
    rcases hres : fill (scanConformantArrays enc s tag) s tag [] with ⟨e1, d1, _ | err⟩
    · rw [hres] at hk
      obtain ⟨hc1, _, new, hnew, hrank⟩ := hk
      simp only [List.nil_append] at hnew
      have hdef := processDeferred_spec (processFuel n) d1 (by
        intro enc' p hp
        have hp' : rank p.v p.tag < n := by
          have := hrank p (by rw [← hnew]; exact hp)
          omega
        obtain ⟨r, hr, hc, _⟩ := ih enc' p.v p.tag hp'
        exact ⟨r, hr, hc⟩) e1
      obtain ⟨r, hr, hc⟩ := hdef
      refine ⟨r, ?_, (hsc.trans hc1).trans hc, fun _ => ⟨rfl, hc.1⟩⟩
      simp only [processFuel, hres, hr]
    · rw [hres] at hk
      refine ⟨(e1, some err), ?_, hsc.trans hk.1, fun h => by simp at h⟩
      simp only [processFuel, hres]

/-- The depth bound of `process` is never reached: `process` is the result of the bounded
recursion. -/
theorem processFuel_rank (enc : Encoder) (s : Value) (tag : Tag) :
    processFuel (rank s tag + 1) enc s tag = some (process enc s tag) := by
  obtain ⟨r, hr, _⟩ := processFuel_spec (rank s tag + 1) enc s tag (Nat.lt_succ_self _)
  simp only [process, hr]

theorem process_spec (enc : Encoder) (s : Value) (tag : Tag) :
    enc.Continues (process enc s tag).1 ∧
      ((process enc s tag).2 = none →
        (fill (scanConformantArrays enc s tag) s tag []).2.2 = none ∧
        ∃ rest, (process enc s tag).1.w
          = (fill (scanConformantArrays enc s tag) s tag []).1.w ++ rest) := by
  obtain ⟨r, hr, hc⟩ := processFuel_spec (rank s tag + 1) enc s tag (Nat.lt_succ_self _)
  have : process enc s tag = r := by simp only [process, hr]
  rw [this]; exact hc


/-! ## The traversal does not read the framing flag -/

theorem ensureAlignment_withHeaders (enc : Encoder) (W : Nat) (b : Bool) :
    (enc.withHeaders b).ensureAlignment W = (enc.ensureAlignment W).withHeaders b := by
  rw [ensureAlignment_eq_write, ensureAlignment_eq_write]; rfl

theorem aligned_write_withHeaders (enc : Encoder) (W : Nat) (b : Bool)
    (f : Encoder → List Nat) (hf : ∀ e : Encoder, f (e.withHeaders b) = f e) :
    ((enc.withHeaders b).ensureAlignment W).write (f ((enc.withHeaders b).ensureAlignment W))
      = ((enc.ensureAlignment W).write (f (enc.ensureAlignment W))).withHeaders b := by
  rw [ensureAlignment_withHeaders, hf]; rfl

theorem writeUint16_withHeaders (enc : Encoder) (v : Nat) (b : Bool) :
    (enc.withHeaders b).writeUint16 v = (enc.writeUint16 v).withHeaders b :=
  aligned_write_withHeaders enc _ b (fun e => putUint e.ch.Endianness 2 v) (fun _ => rfl)

theorem writeUint32_withHeaders (enc : Encoder) (v : Nat) (b : Bool) :
    (enc.withHeaders b).writeUint32 v = (enc.writeUint32 v).withHeaders b :=
  aligned_write_withHeaders enc _ b (fun e => putUint e.ch.Endianness 4 v) (fun _ => rfl)

theorem writeUint64_withHeaders (enc : Encoder) (v : Nat) (b : Bool) :
    (enc.withHeaders b).writeUint64 v = (enc.writeUint64 v).withHeaders b :=
  aligned_write_withHeaders enc _ b (fun e => putUint e.ch.Endianness 8 v) (fun _ => rfl)

theorem writeInt16_withHeaders (enc : Encoder) (v : Int) (b : Bool) :
    (enc.withHeaders b).writeInt16 v = (enc.writeInt16 v).withHeaders b :=
  aligned_write_withHeaders enc SizeUint16 b
    (fun e => putUint e.ch.Endianness 2 (Int.toNat (v % 2 ^ 16))) (fun _ => rfl)

theorem writeInt32_withHeaders (enc : Encoder) (v : Int) (b : Bool) :
    (enc.withHeaders b).writeInt32 v = (enc.writeInt32 v).withHeaders b :=
  aligned_write_withHeaders enc SizeUint32 b
    (fun e => putUint e.ch.Endianness 4 (Int.toNat (v % 2 ^ 32))) (fun _ => rfl)

theorem writeInt64_withHeaders (enc : Encoder) (v : Int) (b : Bool) :
    (enc.withHeaders b).writeInt64 v = (enc.writeInt64 v).withHeaders b :=
  aligned_write_withHeaders enc SizeUint64 b
    (fun e => putUint e.ch.Endianness 8 (Int.toNat (v % 2 ^ 64))) (fun _ => rfl)

theorem writeFloat32_withHeaders (enc : Encoder) (v : Nat) (b : Bool) :
    (enc.withHeaders b).writeFloat32 v = (enc.writeFloat32 v).withHeaders b :=
  aligned_write_withHeaders enc _ b (fun e => putUint e.ch.Endianness 4 v) (fun _ => rfl)

theorem writeFloat64_withHeaders (enc : Encoder) (v : Nat) (b : Bool) :
    (enc.withHeaders b).writeFloat64 v = (enc.writeFloat64 v).withHeaders b :=
  aligned_write_withHeaders enc _ b (fun e => putUint e.ch.Endianness 8 v) (fun _ => rfl)

theorem writePointer_withHeaders (enc : Encoder) (b : Bool) :
    (enc.withHeaders b).writePointer = enc.writePointer.withHeaders b := by
  unfold Encoder.writePointer
  rw [ensureAlignment_withHeaders]; rfl

theorem writeConformantVaryingString_withHeaders (enc : Encoder) (s : List Nat) (b : Bool) :
    (enc.withHeaders b).writeConformantVaryingString s
      = (enc.writeConformantVaryingString s).withHeaders b := by
  unfold Encoder.writeConformantVaryingString
  simp only [ensureAlignment_withHeaders]
  have h : ∀ (e : Encoder) (bs : List Nat),
      (e.withHeaders b).write bs = (e.write bs).withHeaders b := fun _ _ => rfl
  have hc : ∀ e : Encoder, (e.withHeaders b).ch = e.ch := fun _ => rfl
  have hu : (enc.withHeaders b).ToUnicode s = enc.ToUnicode s := rfl
  simp only [h, hc, hu, ensureAlignment_withHeaders]

theorem writeArrayCounts_withHeaders (enc : Encoder) (n : Nat) (b : Bool) :
    writeArrayCounts (enc.withHeaders b) n = (writeArrayCounts enc n).withHeaders b := by
  unfold writeArrayCounts
  rw [writeUint32_withHeaders, writeUint32_withHeaders]

theorem isPointer_withHeaders (enc : Encoder) (v : Value) (tag : Tag) (d : List DeferedPtr)
    (b : Bool) :
    isPointer (enc.withHeaders b) v tag d
      = ((isPointer enc v tag d).1.withHeaders b, (isPointer enc v tag d).2) := by
  unfold isPointer
  simp only [writePointer_withHeaders]
  split_ifs <;> rfl

mutual
theorem fill_withHeaders : ∀ (s : Value) (enc : Encoder) (tag : Tag) (d : List DeferedPtr)
    (b : Bool),
    fill (enc.withHeaders b) s tag d
      = ((fill enc s tag d).1.withHeaders b, (fill enc s tag d).2)
  | .struct name sw fields, enc, tag, d, b => by
    simp only [fill, isPointer_withHeaders]
    rcases isPointer enc (.struct name sw fields) tag d with ⟨e, d', _ | _, _ | err⟩
    · simp only []
      have h := fillFields_withHeaders fields { e with current := e.current ++ [name] } sw
        none "" d' b
      have he : ({ e.withHeaders b with current := (e.withHeaders b).current ++ [name] }
          : Encoder) = Encoder.withHeaders { e with current := e.current ++ [name] } b := rfl
      rw [he, h]
      rcases fillFields { e with current := e.current ++ [name] } sw none "" fields d'
        with ⟨e1, d1, _ | err⟩ <;> rfl
    · rfl
    · rfl
    · rfl
  | .bool v, enc, tag, d, b => by
    simp only [fill, isPointer_withHeaders]
    rcases isPointer enc (.bool v) tag d with ⟨e, d', _ | _, _ | err⟩
    · simp only [writeUint16_withHeaders, writeUint32_withHeaders, writeUint64_withHeaders,
        writeInt16_withHeaders, writeInt32_withHeaders, writeInt64_withHeaders,
        writeFloat32_withHeaders, writeFloat64_withHeaders]
      try rfl
    · rfl
    · rfl
    · rfl
  | .uint8 n, enc, tag, d, b => by
    simp only [fill, isPointer_withHeaders]
    rcases isPointer enc (.uint8 n) tag d with ⟨e, d', _ | _, _ | err⟩
    · simp only [writeUint16_withHeaders, writeUint32_withHeaders, writeUint64_withHeaders,
        writeInt16_withHeaders, writeInt32_withHeaders, writeInt64_withHeaders,
        writeFloat32_withHeaders, writeFloat64_withHeaders]
      try rfl
    · rfl
    · rfl
    · rfl
  | .uint16 n, enc, tag, d, b => by
    simp only [fill, isPointer_withHeaders]
    rcases isPointer enc (.uint16 n) tag d with ⟨e, d', _ | _, _ | err⟩
    · simp only [writeUint16_withHeaders, writeUint32_withHeaders, writeUint64_withHeaders,
        writeInt16_withHeaders, writeInt32_withHeaders, writeInt64_withHeaders,
        writeFloat32_withHeaders, writeFloat64_withHeaders]
      try rfl
    · rfl
    · rfl
    · rfl
  | .uint32 n, enc, tag, d, b => by
    simp only [fill, isPointer_withHeaders]
    rcases isPointer enc (.uint32 n) tag d with ⟨e, d', _ | _, _ | err⟩
    · simp only [writeUint16_withHeaders, writeUint32_withHeaders, writeUint64_withHeaders,
        writeInt16_withHeaders, writeInt32_withHeaders, writeInt64_withHeaders,
        writeFloat32_withHeaders, writeFloat64_withHeaders]
      try rfl
    · rfl
    · rfl
    · rfl
  | .uint64 n, enc, tag, d, b => by
    simp only [fill, isPointer_withHeaders]
    rcases isPointer enc (.uint64 n) tag d with ⟨e, d', _ | _, _ | err⟩
    · simp only [writeUint16_withHeaders, writeUint32_withHeaders, writeUint64_withHeaders,
        writeInt16_withHeaders, writeInt32_withHeaders, writeInt64_withHeaders,
        writeFloat32_withHeaders, writeFloat64_withHeaders]
      try rfl
    · rfl
    · rfl
    · rfl
  | .int8 i, enc, tag, d, b => by
    simp only [fill, isPointer_withHeaders]
    rcases isPointer enc (.int8 i) tag d with ⟨e, d', _ | _, _ | err⟩
    · simp only [writeUint16_withHeaders, writeUint32_withHeaders, writeUint64_withHeaders,
        writeInt16_withHeaders, writeInt32_withHeaders, writeInt64_withHeaders,
        writeFloat32_withHeaders, writeFloat64_withHeaders]
      try rfl
    · rfl
    · rfl
    · rfl
  | .int16 i, enc, tag, d, b => by
    simp only [fill, isPointer_withHeaders]
    rcases isPointer enc (.int16 i) tag d with ⟨e, d', _ | _, _ | err⟩
    · simp only [writeUint16_withHeaders, writeUint32_withHeaders, writeUint64_withHeaders,
        writeInt16_withHeaders, writeInt32_withHeaders, writeInt64_withHeaders,
        writeFloat32_withHeaders, writeFloat64_withHeaders]
      try rfl
    · rfl
    · rfl
    · rfl
  | .int32 i, enc, tag, d, b => by
    simp only [fill, isPointer_withHeaders]
    rcases isPointer enc (.int32 i) tag d with ⟨e, d', _ | _, _ | err⟩
    · simp only [writeUint16_withHeaders, writeUint32_withHeaders, writeUint64_withHeaders,
        writeInt16_withHeaders, writeInt32_withHeaders, writeInt64_withHeaders,
        writeFloat32_withHeaders, writeFloat64_withHeaders]
      try rfl
    · rfl
    · rfl
    · rfl
  | .int64 i, enc, tag, d, b => by
    simp only [fill, isPointer_withHeaders]
    rcases isPointer enc (.int64 i) tag d with ⟨e, d', _ | _, _ | err⟩
    · simp only [writeUint16_withHeaders, writeUint32_withHeaders, writeUint64_withHeaders,
        writeInt16_withHeaders, writeInt32_withHeaders, writeInt64_withHeaders,
        writeFloat32_withHeaders, writeFloat64_withHeaders]
      try rfl
    · rfl
    · rfl
    · rfl
  | .float32 bits, enc, tag, d, b => by
    simp only [fill, isPointer_withHeaders]
    rcases isPointer enc (.float32 bits) tag d with ⟨e, d', _ | _, _ | err⟩
    · simp only [writeUint16_withHeaders, writeUint32_withHeaders, writeUint64_withHeaders,
        writeInt16_withHeaders, writeInt32_withHeaders, writeInt64_withHeaders,
        writeFloat32_withHeaders, writeFloat64_withHeaders]
      try rfl
    · rfl
    · rfl
    · rfl
  | .float64 bits, enc, tag, d, b => by
    simp only [fill, isPointer_withHeaders]
    rcases isPointer enc (.float64 bits) tag d with ⟨e, d', _ | _, _ | err⟩
    · simp only [writeUint16_withHeaders, writeUint32_withHeaders, writeUint64_withHeaders,
        writeInt16_withHeaders, writeInt32_withHeaders, writeInt64_withHeaders,
        writeFloat32_withHeaders, writeFloat64_withHeaders]
      try rfl
    · rfl
    · rfl
    · rfl
  | .ptr target, enc, tag, d, b => by
    simp only [fill, isPointer_withHeaders]
    rcases isPointer enc (.ptr target) tag d with ⟨e, d', _ | _, _ | err⟩
    · simp only [writeUint16_withHeaders, writeUint32_withHeaders, writeUint64_withHeaders,
        writeInt16_withHeaders, writeInt32_withHeaders, writeInt64_withHeaders,
        writeFloat32_withHeaders, writeFloat64_withHeaders]
      try rfl
    · rfl
    · rfl
    · rfl
  | .nilPtr, enc, tag, d, b => by
    simp only [fill, isPointer_withHeaders]
    rcases isPointer enc (.nilPtr) tag d with ⟨e, d', _ | _, _ | err⟩
    · simp only [writeUint16_withHeaders, writeUint32_withHeaders, writeUint64_withHeaders,
        writeInt16_withHeaders, writeInt32_withHeaders, writeInt64_withHeaders,
        writeFloat32_withHeaders, writeFloat64_withHeaders]
      try rfl
    · rfl
    · rfl
    · rfl
  | .other z, enc, tag, d, b => by
    simp only [fill, isPointer_withHeaders]
    rcases isPointer enc (.other z) tag d with ⟨e, d', _ | _, _ | err⟩
    · simp only [writeUint16_withHeaders, writeUint32_withHeaders, writeUint64_withHeaders,
        writeInt16_withHeaders, writeInt32_withHeaders, writeInt64_withHeaders,
        writeFloat32_withHeaders, writeFloat64_withHeaders]
      try rfl
    · rfl
    · rfl
    · rfl
  | .string str, enc, tag, d, b => by
    simp only [fill, isPointer_withHeaders]
    rcases isPointer enc (.string str) tag d with ⟨e, d', _ | _, _ | err⟩
    · simp only [writeConformantVaryingString_withHeaders]
      split_ifs <;> rfl
    · rfl
    · rfl
    · rfl
  | .array elems, enc, tag, d, b => by
    simp only [fill, isPointer_withHeaders]
    rcases isPointer enc (.array elems) tag d with ⟨e, d', _ | _, _ | err⟩
    · simp only []
      exact fillElems_withHeaders elems e tag.elemTag d' b
    · rfl
    · rfl
    · rfl
  | .slice elem isNil elems, enc, tag, d, b => by
    simp only [fill, isPointer_withHeaders]
    rcases isPointer enc (.slice elem isNil elems) tag d with ⟨e, d', _ | _, _ | err⟩
    · simp only []
      have h1 := fillElems_withHeaders elems (writeArrayCounts e elems.length) tag.elemTag d' b
      have h2 := fillElems_withHeaders elems e tag.elemTag d' b
      simp only [writeArrayCounts_withHeaders]
      split_ifs
      · exact h1
      · exact h1
      · exact h2
    · rfl
    · rfl
    · rfl
  | .readOnly v, enc, tag, d, b => by
    cases hp : tag.pointer
    · rw [fill_unexported _ _ _ _ hp, fill_unexported _ _ _ _ hp]
      exact fill_withHeaders v enc tag d b
    · rw [fill_pointer_eq _ _ _ _ hp, fill_pointer_eq _ _ _ _ hp, isPointer_withHeaders]
theorem fillFields_withHeaders : ∀ (fields : List (String × Tag × Value)) (enc : Encoder)
    (sw : List (Int × String)) (unionTag : Option Value) (unionField : String)
    (d : List DeferedPtr) (b : Bool),
    fillFields (enc.withHeaders b) sw unionTag unionField fields d
      = ((fillFields enc sw unionTag unionField fields d).1.withHeaders b,
         (fillFields enc sw unionTag unionField fields d).2)
  | [], enc, sw, ut, uf, d, b => by
    simp only [fillFields]
  | (fname, ftag, fv) :: rest, enc, sw, ut, uf, d, b => by
    have he : ({ enc.withHeaders b with current := (enc.withHeaders b).current ++ [fname] }
        : Encoder) = Encoder.withHeaders { enc with current := enc.current ++ [fname] } b := rfl
    have hstep : ∀ (uf' : String) (ut' : Option Value),
        (match fill (Encoder.withHeaders { enc with current := enc.current ++ [fname] } b)
            fv ftag d with
          | (enc, localDef, some err) => (enc, localDef, some err)
          | (enc, localDef, none) =>
            fillFields { enc with current := enc.current.dropLast } sw ut' uf' rest localDef)
        = (((match fill { enc with current := enc.current ++ [fname] } fv ftag d with
            | (enc, localDef, some err) => (enc, localDef, some err)
            | (enc, localDef, none) =>
              fillFields { enc with current := enc.current.dropLast } sw ut' uf' rest
                localDef) : Encoder × List DeferedPtr × Option EncErr).1.withHeaders b,
           ((match fill { enc with current := enc.current ++ [fname] } fv ftag d with
            | (enc, localDef, some err) => (enc, localDef, some err)
            | (enc, localDef, none) =>
              fillFields { enc with current := enc.current.dropLast } sw ut' uf' rest
                localDef) : Encoder × List DeferedPtr × Option EncErr).2) := by
      intro uf' ut'
      rw [fill_withHeaders fv]
      rcases fill { enc with current := enc.current ++ [fname] } fv ftag d
        with ⟨e1, d1, _ | err⟩
      · simp only []
        exact fillFields_withHeaders rest { e1 with current := e1.current.dropLast } sw ut'
          uf' d1 b
      · rfl
    cases ut with
    | none =>
      simp only [fillFields, he]
      exact hstep uf none
    | some u =>
      simp only [fillFields, he]
      rcases (if uf = "" then unionSelectedField sw u else Except.ok uf) with err | sel
      · rfl
      · simp only []
        split_ifs
        · exact fillFields_withHeaders rest
            { enc with current := (enc.current ++ [fname]).dropLast } sw (some u) sel d b
        · exact hstep sel (some u)
theorem fillElems_withHeaders : ∀ (elems : List Value) (enc : Encoder) (tag : Tag)
    (d : List DeferedPtr) (b : Bool),
    fillElems (enc.withHeaders b) elems tag d
      = ((fillElems enc elems tag d).1.withHeaders b, (fillElems enc elems tag d).2)
  | [], enc, tag, d, b => by
    simp only [fillElems]
  | e :: rest, enc, tag, d, b => by
    simp only [fillElems]
    rw [fill_withHeaders e]
    rcases fill enc e tag d with ⟨e1, d1, _ | err⟩
    · simp only []
      exact fillElems_withHeaders rest e1 tag d1 b
    · rfl
end

theorem scanConformantArrays_withHeaders (enc : Encoder) (s : Value) (tag : Tag) (b : Bool) :
    scanConformantArrays (enc.withHeaders b) s tag
      = (scanConformantArrays enc s tag).withHeaders b := by
  rw [scanConformantArrays_eq, scanConformantArrays_eq]
  rfl

theorem processDeferred_withHeaders
    (f : Encoder → Value → Tag → Option (Encoder × Option EncErr)) (b : Bool)
    (defs : List DeferedPtr)
    (hf : ∀ (enc : Encoder) (s : Value) (tag : Tag),
      f (enc.withHeaders b) s tag = (f enc s tag).map (fun r => (r.1.withHeaders b, r.2))) :
    ∀ enc : Encoder, processDeferred f (enc.withHeaders b) defs
      = (processDeferred f enc defs).map (fun r => (r.1.withHeaders b, r.2)) := by
  induction defs with
  | nil => intro enc; rfl
  | cons p rest ih =>
    intro enc
    simp only [processDeferred, hf]
    rcases f enc p.v p.tag with _ | ⟨e1, _ | err⟩
    · rfl
    · simp only [Option.map_some']
      exact ih e1
    · rfl

theorem processFuel_withHeaders (b : Bool) : ∀ (n : Nat) (enc : Encoder) (s : Value)
    (tag : Tag),
    processFuel n (enc.withHeaders b) s tag
      = (processFuel n enc s tag).map (fun r => (r.1.withHeaders b, r.2)) := by
  intro n
  induction n with
  | zero => intro enc s tag; rfl
  | succ n ih =>
    intro enc s tag
    simp only [processFuel, scanConformantArrays_withHeaders, fill_withHeaders]
    rcases fill (scanConformantArrays enc s tag) s tag [] with ⟨e1, d1, _ | err⟩
    · simp only []
      exact processDeferred_withHeaders (processFuel n) b d1 ih e1
    · rfl

theorem process_withHeaders (enc : Encoder) (s : Value) (tag : Tag) (b : Bool) :
    process (enc.withHeaders b) s tag
      = ((process enc s tag).1.withHeaders b, (process enc s tag).2) := by
  have h1 := processFuel_rank (enc.withHeaders b) s tag
  have h2 := processFuel_rank enc s tag
  rw [processFuel_withHeaders, h2] at h1
  simp only [Option.map_some', Option.some.injEq] at h1
  exact h1.symm



/-! ## The layout of the output of `Encode` -/

theorem encode_ok_iff (enc : Encoder) (s : Value) (b : Bool) :
    Encode (enc.withHeaders b) s
      = (match ((process (enc.write (putUint .littleEndian 4 0xFFFFFFFF)) s {}).1.withHeaders b,
            (process (enc.write (putUint .littleEndian 4 0xFFFFFFFF)) s {}).2) with
        | (enc, some err) => (enc, .error err)
        | (enc, none) =>
          if enc.includeHeaders then
            ((enc.writePrivateHeader (writeCommonHeader [])).1,
              .ok ((enc.writePrivateHeader (writeCommonHeader [])).2
                ++ (enc.writePrivateHeader (writeCommonHeader [])).1.w))
          else (enc, .ok enc.w)) := by
  unfold Encode
  have h : (enc.withHeaders b).write (putUint .littleEndian 4 0xFFFFFFFF)
      = (enc.write (putUint .littleEndian 4 0xFFFFFFFF)).withHeaders b := rfl
  simp only [h, process_withHeaders]

theorem encode_unframed (enc : Encoder) (s : Value) (B : List Nat)
    (h : (Encode (enc.withHeaders false) s).2 = .ok B) :
    (process (enc.write (putUint .littleEndian 4 0xFFFFFFFF)) s {}).2 = none ∧
    (process (enc.write (putUint .littleEndian 4 0xFFFFFFFF)) s {}).1.w = B := by
  rw [encode_ok_iff] at h
  rcases hP : process (enc.write (putUint .littleEndian 4 0xFFFFFFFF)) s {} with ⟨e, _ | err⟩
  · rw [hP] at h
    simp only [Encoder.withHeaders] at h
    simp at h
    exact ⟨rfl, h⟩
  · rw [hP] at h
    simp at h

theorem privateHeader_arith (L : Nat) :
    ((((L % 2 ^ 32 + 7) % 2 ^ 32) / 8 * 8) % 2 ^ 32 + 2 ^ 32 - L % 2 ^ 32) % 2 ^ 32
        = (8 - L % 8) % 8 ∧
    (((L % 2 ^ 32 + 7) % 2 ^ 32) / 8 * 8) % 2 ^ 32 = (L + (8 - L % 8) % 8) % 2 ^ 32 := by
  have h : (2 : Nat) ^ 32 = 4294967296 := by norm_num
  rw [h]
  constructor <;> omega

/-- C6, amended. When `Encode` without framing succeeds on a fresh encoder (empty buffer,
either byte order), the output is the sentinel `FF FF FF FF` at offsets 0 to 3, then the `k`
maximum counts that `conformantScan` records for the root, as little-endian `uint32` words at
offsets 4 to `4 * k + 3`, then the bytes `fill` writes for the root, then the deferred
referents. The struct with one conformant string field "Hi" encodes to
`FF FF FF FF 02 00 00 00 00 00 00 00 02 00 00 00 48 00 69 00`. -/
theorem encode_sentinel_then_hoisted_maxes (order : ByteOrder) (s : Value) (out : List Nat)
    (h : (Encode ((NewEncoder [] false).SetEndianness order) s).2 = .ok out) :
    (∃ body rest,
      out = [0xFF, 0xFF, 0xFF, 0xFF]
        ++ ((conformantScan ((NewEncoder [] false).SetEndianness order) s {}).conformantMax
            ).flatMap (putUint .littleEndian 4)
        ++ body ++ rest ∧
      (fill (scanConformantArrays (((NewEncoder [] false).SetEndianness order).write
          (putUint .littleEndian 4 0xFFFFFFFF)) s {}) s {} []).1.w
        = [0xFF, 0xFF, 0xFF, 0xFF]
          ++ ((conformantScan ((NewEncoder [] false).SetEndianness order) s {}).conformantMax
              ).flatMap (putUint .littleEndian 4)
          ++ body) ∧
    (((conformantScan ((NewEncoder [] false).SetEndianness order) s {}).conformantMax
        ).flatMap (putUint .littleEndian 4)).length
      = 4 * (conformantScan ((NewEncoder [] false).SetEndianness order) s {}
          ).conformantMax.length ∧
    (Encode (NewEncoder [] false) (conformantString "Hi")).2
      = .ok [0xFF, 0xFF, 0xFF, 0xFF, 0x02, 0x00, 0x00, 0x00, 0x00, 0x00, 0x00, 0x00,
             0x02, 0x00, 0x00, 0x00, 0x48, 0x00, 0x69, 0x00] := by
  refine ⟨?_, ?_, by decide⟩
  · have hE : (NewEncoder [] false).SetEndianness order
        = ((NewEncoder [] false).SetEndianness order).withHeaders false := rfl
    rw [hE] at h
    obtain ⟨hnone, hw⟩ := encode_unframed _ s out h
    obtain ⟨_, hspec⟩ := process_spec
      (((NewEncoder [] false).SetEndianness order).write (putUint .littleEndian 4 0xFFFFFFFF))
      s {}
    obtain ⟨_, rest, hrest⟩ := hspec hnone
    have hk := fill_keeps s (scanConformantArrays
      (((NewEncoder [] false).SetEndianness order).write (putUint .littleEndian 4 0xFFFFFFFF))
      s {}) {} []
    obtain ⟨⟨⟨body, hbody⟩, _, _⟩, _, _⟩ := hk
    have hscan : (scanConformantArrays (((NewEncoder [] false).SetEndianness order).write
        (putUint .littleEndian 4 0xFFFFFFFF)) s {}).w
        = [0xFF, 0xFF, 0xFF, 0xFF]
          ++ ((conformantScan ((NewEncoder [] false).SetEndianness order) s {}).conformantMax
              ).flatMap (putUint .littleEndian 4) := by
      rw [scanConformantArrays_eq, conformantScan_eq]
      rfl
    refine ⟨body, rest, ?_, ?_⟩
    · rw [← hw, hrest, hbody, hscan]
    · rw [hbody, hscan]
  · induction (conformantScan ((NewEncoder [] false).SetEndianness order) s {}).conformantMax
      with
    | nil => rfl
    | cons m ms ih =>
      simp only [List.flatMap_cons, List.length_append, putUint_length, ih, List.length_cons]
      omega

/-- C6, amended, at a concrete input. -/
theorem encode_sentinel_then_hoisted_maxes_witness :
    (Encode ((NewEncoder [] false).SetEndianness .littleEndian) (conformantString "Hi")).2
        = .ok [0xFF, 0xFF, 0xFF, 0xFF, 0x02, 0x00, 0x00, 0x00, 0x00, 0x00, 0x00, 0x00,
               0x02, 0x00, 0x00, 0x00, 0x48, 0x00, 0x69, 0x00] ∧
    (conformantScan ((NewEncoder [] false).SetEndianness .littleEndian)
        (conformantString "Hi") {}).conformantMax = [2] ∧
    (((conformantScan ((NewEncoder [] false).SetEndianness .littleEndian)
        (conformantString "Hi") {}).conformantMax).flatMap (putUint .littleEndian 4)).length
      = 4 * (conformantScan ((NewEncoder [] false).SetEndianness .littleEndian)
          (conformantString "Hi") {}).conformantMax.length :=
  ⟨by decide, by decide,
   (encode_sentinel_then_hoisted_maxes .littleEndian (conformantString "Hi")
      [0xFF, 0xFF, 0xFF, 0xFF, 0x02, 0x00, 0x00, 0x00, 0x00, 0x00, 0x00, 0x00,
       0x02, 0x00, 0x00, 0x00, 0x48, 0x00, 0x69, 0x00] (by decide)).2.1⟩

/-- C9. When `Encode` without framing returns `B` for a value, `Encode` with framing, from
the same encoder state and in either byte order, returns the 16 header bytes
`01 10 08 00 CC CC CC CC`, the padded length as a little-endian `uint32` and `00 00 00 00`,
followed by `B` and the zero bytes `Z`, where `Z` is the shortest padding that makes
`len(B) + len(Z)` a multiple of 8. The `uint32` at bytes 8 to 11 is that padded length
(reduced modulo `2 ^ 32`, as a `uint32` is) and is divisible by 8. The empty struct gives the
header followed by `FF FF FF FF 00 00 00 00`, with bytes 8 to 11 equal to `08 00 00 00`. -/
theorem encode_framed (enc : Encoder) (s : Value) (B : List Nat)
    (h : (Encode (enc.withHeaders false) s).2 = .ok B) :
    ∃ Z out : List Nat,
      (Encode (enc.withHeaders true) s).2 = .ok out ∧
      Z = List.replicate ((8 - B.length % 8) % 8) 0 ∧
      out = [0x01, 0x10, 0x08, 0x00, 0xCC, 0xCC, 0xCC, 0xCC]
        ++ putUint .littleEndian 4 (B.length + Z.length) ++ [0x00, 0x00, 0x00, 0x00]
        ++ B ++ Z ∧
      (B.length + Z.length) % 8 = 0 ∧
      (∀ n, (B.length + n) % 8 = 0 → Z.length ≤ n) ∧
      getUint .littleEndian ((out.drop 8).take 4) = (B.length + Z.length) % 2 ^ 32 ∧
      getUint .littleEndian ((out.drop 8).take 4) % 8 = 0 ∧
      (B.length + Z.length < 2 ^ 32 →
        getUint .littleEndian ((out.drop 8).take 4) = B.length + Z.length) ∧
      (Encode (NewEncoder [] true) (.struct "S" [] [])).2
        = .ok [0x01, 0x10, 0x08, 0x00, 0xCC, 0xCC, 0xCC, 0xCC, 0x08, 0x00, 0x00, 0x00,
               0x00, 0x00, 0x00, 0x00, 0xFF, 0xFF, 0xFF, 0xFF, 0x00, 0x00, 0x00, 0x00] := by
  obtain ⟨hnone, hw⟩ := encode_unframed enc s B h
  obtain ⟨harith1, harith2⟩ := privateHeader_arith B.length
  have hput : ∀ n : Nat, putUint .littleEndian 4 (n % 2 ^ 32) = putUint .littleEndian 4 n := by
    intro n
    simp [putUint, leBytes]
    omega
  have hout : (Encode (enc.withHeaders true) s).2
      = .ok ([0x01, 0x10, 0x08, 0x00, 0xCC, 0xCC, 0xCC, 0xCC]
        ++ putUint .littleEndian 4 (B.length + (List.replicate ((8 - B.length % 8) % 8) 0).length)
        ++ [0x00, 0x00, 0x00, 0x00] ++ B ++ List.replicate ((8 - B.length % 8) % 8) 0) := by
    rw [encode_ok_iff]
    rcases hP : process (enc.write (putUint .littleEndian 4 0xFFFFFFFF)) s {} with ⟨e, err⟩
    rw [hP] at hnone hw
    simp only at hnone hw
    subst hnone
    subst hw
    have hc : writeCommonHeader [] = [0x01, 0x10, 0x08, 0x00, 0xCC, 0xCC, 0xCC, 0xCC] := by
      decide
    have hz : putUint .littleEndian 4 0 = [0x00, 0x00, 0x00, 0x00] := by decide
    simp only [Encoder.withHeaders, if_true, Encoder.writePrivateHeader, Encoder.write,
      List.length_replicate]
    rw [harith1, harith2, hput, hc, hz]
    simp only [List.append_assoc]
  have hd : getUint .littleEndian ((([0x01, 0x10, 0x08, 0x00, 0xCC, 0xCC, 0xCC, 0xCC]
      ++ putUint .littleEndian 4 (B.length + (List.replicate ((8 - B.length % 8) % 8) 0).length)
      ++ [0x00, 0x00, 0x00, 0x00] ++ B ++ List.replicate ((8 - B.length % 8) % 8) 0).drop 8
      ).take 4)
      = (B.length + (List.replicate ((8 - B.length % 8) % 8) 0).length) % 2 ^ 32 := by
    have hd' : (([0x01, 0x10, 0x08, 0x00, 0xCC, 0xCC, 0xCC, 0xCC]
        ++ putUint .littleEndian 4
          (B.length + (List.replicate ((8 - B.length % 8) % 8) 0).length)
        ++ [0x00, 0x00, 0x00, 0x00] ++ B ++ List.replicate ((8 - B.length % 8) % 8) 0).drop 8
        ).take 4
        = putUint .littleEndian 4
            (B.length + (List.replicate ((8 - B.length % 8) % 8) 0).length) := by
      simp [putUint, leBytes]
    rw [hd', getUint_putUint]
    norm_num
  have h32 : (2 : Nat) ^ 32 = 4294967296 := by norm_num
  refine ⟨_, _, hout, rfl, rfl, ?_, ?_, hd, ?_, ?_, by decide⟩
  · simp only [List.length_replicate]; omega
  · intro n hn
    simp only [List.length_replicate]; omega
  · rw [hd, h32]
    simp only [List.length_replicate]; omega
  · intro hlt
    rw [hd]
    exact Nat.mod_eq_of_lt hlt

/-- C9 at a concrete input: the empty struct on a fresh encoder. -/
theorem encode_framed_witness :
    (Encode ((NewEncoder [] false).withHeaders false) (.struct "S" [] [])).2
        = .ok [0xFF, 0xFF, 0xFF, 0xFF] ∧
    ∃ Z out : List Nat,
      (Encode ((NewEncoder [] false).withHeaders true) (.struct "S" [] [])).2 = .ok out ∧
      Z = List.replicate ((8 - [0xFF, 0xFF, 0xFF, 0xFF].length % 8) % 8) 0 ∧
      out = [0x01, 0x10, 0x08, 0x00, 0xCC, 0xCC, 0xCC, 0xCC]
        ++ putUint .littleEndian 4 ([0xFF, 0xFF, 0xFF, 0xFF].length + Z.length)
        ++ [0x00, 0x00, 0x00, 0x00] ++ [0xFF, 0xFF, 0xFF, 0xFF] ++ Z :=
  ⟨by decide,
   match encode_framed (NewEncoder [] false) (.struct "S" [] []) [0xFF, 0xFF, 0xFF, 0xFF]
      (by decide) with
   | ⟨Z, out, h1, h2, h3, _⟩ => ⟨Z, out, h1, h2, h3⟩⟩

/-! ## Conformant varying strings -/

theorem flatMap_putUint_length (order : ByteOrder) (W : Nat) (l : List Nat) :
    (l.flatMap (putUint order W)).length = W * l.length := by
  induction l with
  | nil => rfl
  | cons m ms ih =>
    simp only [List.flatMap_cons, List.length_append, putUint_length, ih, List.length_cons]
    rw [Nat.mul_succ]; omega

theorem putUint_mod (order : ByteOrder) (W n : Nat) :
    putUint order W (n % 2 ^ (8 * W)) = putUint order W n := by
  have h : ∀ (W n : Nat), leBytes W (n % 2 ^ (8 * W)) = leBytes W n := by
    intro W
    induction W with
    | zero => intro n; rfl
    | succ k ih =>
      intro n
      have hp : 2 ^ (8 * (k + 1)) = 256 * 2 ^ (8 * k) := by
        rw [show 8 * (k + 1) = 8 + 8 * k by ring, pow_add]; norm_num
      simp only [leBytes]
      rw [hp, Nat.mod_mul_right_mod n 256 (2 ^ (8 * k)), ← ih (n % (256 * 2 ^ (8 * k)) / 256),
        ← ih (n / 256), Nat.mod_mul_right_div_self]
      simp
  cases order <;> simp [putUint, h]

/-- C11. `writeConformantVaryingString` keeps the buffer and appends, in this order, the
zero padding to a 4-byte boundary, the `uint32` 0 (offset), the `uint32` `n` (actual count,
the number of UTF-16 code units), the `2 * n` bytes of the code units, each in the configured
byte order, and the zero padding to a 4-byte boundary. No maximum count is among these bytes
and none is recorded; the string case of `fill` returns no error when the string carries the
conformant attribute; the buffer length ends a multiple of 4. -/
theorem writeConformantVaryingString_layout (enc : Encoder) (s : List Nat) :
    (enc.writeConformantVaryingString s).w
        = enc.w ++ List.replicate ((4 - enc.w.length % 4) % 4) 0
          ++ putUint enc.ch.Endianness 4 0
          ++ putUint enc.ch.Endianness 4 (utf16Encode (runes s)).length
          ++ (utf16Encode (runes s)).flatMap (putUint enc.ch.Endianness 2)
          ++ List.replicate ((4 - (2 * (utf16Encode (runes s)).length) % 4) % 4) 0 ∧
    (enc.w.length + (4 - enc.w.length % 4) % 4) % 4 = 0 ∧
    ((utf16Encode (runes s)).flatMap (putUint enc.ch.Endianness 2)).length
        = 2 * (utf16Encode (runes s)).length ∧
    (enc.writeConformantVaryingString s).w.length % 4 = 0 ∧
    (enc.writeConformantVaryingString s).conformantMax = enc.conformantMax ∧
    (∀ (tag : Tag) (d : List DeferedPtr), tag.conformant = true →
      (fill enc (.string s) tag d).2.2 = none) := by
  have hlen := flatMap_putUint_length enc.ch.Endianness 2 (utf16Encode (runes s))
  have hw : (enc.writeConformantVaryingString s).w
        = enc.w ++ List.replicate ((4 - enc.w.length % 4) % 4) 0
          ++ putUint enc.ch.Endianness 4 0
          ++ putUint enc.ch.Endianness 4 (utf16Encode (runes s)).length
          ++ (utf16Encode (runes s)).flatMap (putUint enc.ch.Endianness 2)
          ++ List.replicate ((4 - (2 * (utf16Encode (runes s)).length) % 4) % 4) 0 := by
    unfold Encoder.writeConformantVaryingString Encoder.ToUnicode
    simp only [SizeUint32, ensureAlignment_eq_write, Encoder.write, List.length_append,
      List.length_replicate, putUint_length, hlen]
    have hdiv : 2 * (utf16Encode (runes s)).length / 2 = (utf16Encode (runes s)).length := by omega
    have hpad : (4 - (enc.w.length + (4 - enc.w.length % 4) % 4 + 4 + 4
        + 2 * (utf16Encode (runes s)).length) % 4) % 4
        = (4 - (2 * (utf16Encode (runes s)).length) % 4) % 4 := by omega
    rw [hdiv, hpad]
    have hm := putUint_mod enc.ch.Endianness 4 (utf16Encode (runes s)).length
    simp only [show 8 * 4 = 32 by norm_num] at hm
    rw [hm]
  refine ⟨hw, by omega, hlen, ?_, writeConformantVaryingString_conformantMax enc s, ?_⟩
  · rw [hw]
    simp only [List.length_append, List.length_replicate, putUint_length, hlen]
    omega
  · intro tag d hc
    cases hp : tag.pointer
    · simp [fill, isPointer_false _ _ _ _ hp, hc]
    · rw [fill_pointer_eq _ _ _ _ hp]
      unfold isPointer
      simp only [hp, if_true, Value.isNonNilPointer, Value.canInterface]
      split_ifs <;> first | rfl | simp_all

/-! ## The recursion equation of `process` -/

theorem processDeferred_congr (f g : Encoder → Value → Tag → Option (Encoder × Option EncErr))
    (defs : List DeferedPtr)
    (h : ∀ p ∈ defs, ∀ enc : Encoder, f enc p.v p.tag = g enc p.v p.tag) :
    ∀ enc : Encoder, processDeferred f enc defs = processDeferred g enc defs := by
  induction defs with
  | nil => intro enc; rfl
  | cons p rest ih =>
    intro enc
    simp only [processDeferred, h p (List.mem_cons_self _ _) enc]
    rcases g enc p.v p.tag with _ | ⟨e1, _ | err⟩
    · rfl
    · exact ih (fun q hq => h q (List.mem_cons_of_mem _ hq)) e1
    · rfl

theorem processFuel_mono : ∀ (n m : Nat) (enc : Encoder) (s : Value) (tag : Tag),
    rank s tag < n → rank s tag < m → processFuel n enc s tag = processFuel m enc s tag := by
  intro n
  induction n with
  | zero => intro m enc s tag h; omega
  | succ n ih =>
    intro m enc s tag hn hm
    cases m with
    | zero => omega
    | succ m =>
      simp only [processFuel]
      have hk := fill_keeps s (scanConformantArrays enc s tag) tag []
      rcases hres : fill (scanConformantArrays enc s tag) s tag [] with ⟨e1, d1, _ | err⟩
      · rw [hres] at hk
        obtain ⟨_, _, new, hnew, hrank⟩ := hk
        simp only [List.nil_append] at hnew
        simp only []
        apply processDeferred_congr
        intro p hp enc'
        have := hrank p (by rw [← hnew]; exact hp)
        exact ih m enc' p.v p.tag (by omega) (by omega)
      · rfl

theorem processFuel_eq_process (n : Nat) (enc : Encoder) (s : Value) (tag : Tag)
    (h : rank s tag < n) : processFuel n enc s tag = some (process enc s tag) := by
  rw [processFuel_mono n (rank s tag + 1) enc s tag h (Nat.lt_succ_self _)]
  exact processFuel_rank enc s tag

theorem processDeferred_eq_referents (n : Nat) (defs : List DeferedPtr)
    (h : ∀ p ∈ defs, rank p.v p.tag < n) :
    ∀ enc : Encoder,
      processDeferred (processFuel n) enc defs = some (processReferents enc defs) := by
  induction defs with
  | nil => intro enc; rfl
  | cons p rest ih =>
    intro enc
    simp only [processDeferred, processReferents,
      processFuel_eq_process n enc p.v p.tag (h p (List.mem_cons_self _ _))]
    rcases process enc p.v p.tag with ⟨e1, _ | err⟩
    · exact ih (fun q hq => h q (List.mem_cons_of_mem _ hq)) e1
    · rfl

theorem process_unfold (enc : Encoder) (s : Value) (tag : Tag) :
    process enc s tag
      = (match fill (scanConformantArrays enc s tag) s tag [] with
        | (enc, _, some err) => (enc, some err)
        | (enc, localDef, none) => processReferents enc localDef) := by
  have h := processFuel_rank enc s tag
  simp only [processFuel] at h
  have hk := fill_keeps s (scanConformantArrays enc s tag) tag []
  rcases hres : fill (scanConformantArrays enc s tag) s tag [] with ⟨e1, d1, _ | err⟩
  · rw [hres] at h hk
    obtain ⟨_, _, new, hnew, hrank⟩ := hk
    simp only [List.nil_append] at hnew
    simp only [] at h ⊢
    rw [processDeferred_eq_referents (rank s tag) d1 (by
      intro p hp
      exact hrank p (by rw [← hnew]; exact hp))] at h
    exact (Option.some.inj h).symm
  · rw [hres] at h
    simp only [] at h ⊢
    exact (Option.some.inj h).symm

theorem processReferents_continues (defs : List DeferedPtr) :
    ∀ enc : Encoder, enc.Continues (processReferents enc defs).1 := by
  induction defs with
  | nil => intro enc; exact Encoder.Continues.refl _
  | cons p rest ih =>
    intro enc
    simp only [processReferents]
    have h1 := (process_spec enc p.v p.tag).1
    rcases hres : process enc p.v p.tag with ⟨e1, _ | err⟩
    · rw [hres] at h1
      exact h1.trans (ih e1)
    · rw [hres] at h1
      exact h1

theorem process_continues_fill (enc : Encoder) (s : Value) (tag : Tag) :
    (fill (scanConformantArrays enc s tag) s tag []).1.Continues (process enc s tag).1 := by
  rw [process_unfold]
  rcases hres : fill (scanConformantArrays enc s tag) s tag [] with ⟨e1, d1, _ | err⟩
  · exact processReferents_continues d1 e1
  · exact Encoder.Continues.refl _

theorem process_continues_scan (enc : Encoder) (s : Value) (tag : Tag) :
    (scanConformantArrays enc s tag).Continues (process enc s tag).1 :=
  (fill_keeps s (scanConformantArrays enc s tag) tag []).1.trans
    (process_continues_fill enc s tag)

theorem scanConformantArrays_conformantMax (enc : Encoder) (s : Value) (tag : Tag) :
    (scanConformantArrays enc s tag).conformantMax = [] := by
  rw [scanConformantArrays_eq]

theorem process_conformantMax_aux : ∀ (n : Nat) (enc : Encoder) (s : Value) (tag : Tag),
    rank s tag < n → (process enc s tag).1.conformantMax = [] := by
  intro n
  induction n with
  | zero => intro enc s tag h; omega
  | succ n ih =>
    intro enc s tag hn
    rw [process_unfold]
    have hk := fill_keeps s (scanConformantArrays enc s tag) tag []
    rcases hres : fill (scanConformantArrays enc s tag) s tag [] with ⟨e1, d1, _ | err⟩
    · rw [hres] at hk
      obtain ⟨_, hcm, new, hnew, hrank⟩ := hk
      simp only [List.nil_append] at hnew
      simp only [] at hcm ⊢
      rw [scanConformantArrays_conformantMax] at hcm
      have hloop : ∀ (defs : List DeferedPtr), (∀ p ∈ defs, rank p.v p.tag < n) →
          ∀ e : Encoder, e.conformantMax = [] →
            (processReferents e defs).1.conformantMax = [] := by
        intro defs
        induction defs with
        | nil => intro _ e he; exact he
        | cons p rest ihl =>
          intro hr e he
          simp only [processReferents]
          have hp := ih e p.v p.tag (hr p (List.mem_cons_self _ _))
          rcases hres' : process e p.v p.tag with ⟨e2, _ | err⟩
          · rw [hres'] at hp
            exact ihl (fun q hq => hr q (List.mem_cons_of_mem _ hq)) e2 hp
          · rw [hres'] at hp
            exact hp
      exact hloop d1 (by
        intro p hp
        have := hrank p (by rw [← hnew]; exact hp)
        omega) e1 hcm
    · rw [hres] at hk
      simp only []
      rw [hk.2.1, scanConformantArrays_conformantMax]

theorem process_conformantMax (enc : Encoder) (s : Value) (tag : Tag) :
    (process enc s tag).1.conformantMax = [] :=
  process_conformantMax_aux (rank s tag + 1) enc s tag (Nat.lt_succ_self _)

/-! ## Hoisted maximum counts of deferred referents -/

theorem conformantScan_pointer (enc : Encoder) (v : Value) (tag : Tag)
    (h : tag.pointer = true) : conformantScan enc v tag = enc := by
  rw [conformantScan_eq]
  have : scanMaxes v tag = [] := by
    unfold scanMaxes
    simp [h]
  simp [this]

theorem scanConformantArrays_w (enc : Encoder) (s : Value) (tag : Tag) :
    (scanConformantArrays enc s tag).w
      = enc.w ++ ((conformantScan enc s tag).conformantMax).flatMap
          (putUint .littleEndian 4) := by
  rw [scanConformantArrays_eq, conformantScan_eq]

/-- C12. A field tagged both pointer and conformant adds no maximum count to the scan of
the enclosing structure: `conformantScan` returns at the pointer tag whatever the value is,
so the field is skipped by the scan of the struct. When the deferred referent (the value with
the pointer flag removed) is processed with an empty accumulator, the counts its own scan
records are written first and the bytes of the referent follow them directly; for a
conformant string that count is the one of the string. The struct with one pointer and
conformant string field "Hi" encodes to
`FF FF FF FF 00 00 02 00 02 00 00 00 00 00 00 00 02 00 00 00 48 00 69 00`. -/
theorem pointer_conformant_max_with_referent :
    (∀ (enc : Encoder) (v : Value) (tag : Tag), tag.pointer = true →
      conformantScan enc v tag = enc) ∧
    (∀ (enc : Encoder) (name : String) (tag : Tag) (v : Value)
        (rest : List (String × Tag × Value)), tag.pointer = true →
      conformantScanFields enc ((name, tag, v) :: rest) = conformantScanFields enc rest) ∧
    (∀ (enc : Encoder) (v : Value) (tag : Tag), enc.conformantMax = [] →
      (scanConformantArrays enc v tag.deletePointer).w
          = enc.w ++ ((conformantScan enc v tag.deletePointer).conformantMax).flatMap
              (putUint .littleEndian 4) ∧
        (∃ body, (fill (scanConformantArrays enc v tag.deletePointer) v tag.deletePointer
            []).1.w
          = enc.w ++ ((conformantScan enc v tag.deletePointer).conformantMax).flatMap
              (putUint .littleEndian 4) ++ body) ∧
        ∃ body, (process enc v tag.deletePointer).1.w
          = enc.w ++ ((conformantScan enc v tag.deletePointer).conformantMax).flatMap
              (putUint .littleEndian 4) ++ body) ∧
    (∀ (enc : Encoder) (str : List Nat) (tag : Tag), tag.conformant = true →
      enc.conformantMax = [] →
      (conformantScan enc (.string str) tag.deletePointer).conformantMax
        = [str.length % 2 ^ 32]) ∧
    (Encode (NewEncoder [] false) (pointerConformantString "Hi")).2
      = .ok [0xFF, 0xFF, 0xFF, 0xFF, 0x00, 0x00, 0x02, 0x00, 0x02, 0x00, 0x00, 0x00,
             0x00, 0x00, 0x00, 0x00, 0x02, 0x00, 0x00, 0x00, 0x48, 0x00, 0x69, 0x00] := by
  refine ⟨conformantScan_pointer, ?_, ?_, ?_, by decide⟩
  · intro enc name tag v rest h
    simp only [conformantScanFields, conformantScan_pointer enc v tag h]
  · intro enc v tag _
    refine ⟨scanConformantArrays_w enc v _, ?_, ?_⟩
    · obtain ⟨⟨body, hb⟩, _⟩ :=
        (fill_keeps v (scanConformantArrays enc v tag.deletePointer) tag.deletePointer []).1
      exact ⟨body, by rw [hb, scanConformantArrays_w]⟩
    · obtain ⟨⟨body, hb⟩, _⟩ := process_continues_scan enc v tag.deletePointer
      exact ⟨body, by rw [hb, scanConformantArrays_w]⟩
  · intro enc str tag hc hcm
    rw [conformantScan_eq]
    simp [scanMaxes, Tag.deletePointer, hc, hcm]

/-- C13, the failing input: in the struct whose pointer and conformant string field "Hi" is
followed by a `uint8` field, the referent is processed when the buffer holds 9 bytes, and
its maximum count `02 00 00 00` is written at offset 9: `scanConformantArrays` appends the
counts to the buffer as it stands, without `ensureAlignment`, whatever the buffer length. -/
theorem hoisted_block_unaligned :
    (Encode (NewEncoder [] false) pointerStringThenByte).2
      = .ok [0xFF, 0xFF, 0xFF, 0xFF, 0x00, 0x00, 0x02, 0x00, 0x01,
             0x02, 0x00, 0x00, 0x00,
             0x00, 0x00, 0x00, 0x00, 0x00, 0x00, 0x00, 0x02, 0x00, 0x00, 0x00,
             0x48, 0x00, 0x69, 0x00] ∧
    (∀ (enc : Encoder) (s : Value) (tag : Tag),
      (scanConformantArrays enc s tag).w
        = enc.w ++ ((conformantScan enc s tag).conformantMax).flatMap
            (putUint .littleEndian 4)) := by
  exact ⟨by decide, scanConformantArrays_w⟩

/-- C14, counterexample: in the struct with the pointer-tagged fields `P1` (a struct with a
pointer-tagged field `Q` of its own) and `P2`, the referent ids are written in the order
`P1` (`0x00020000`), `P2` (`0x00020004`), `Q` (`0x00020008`), yet the referent of `Q`
(`05 00 00 00`) is written before the referent of `P2` (`07 00 00 00`). -/
theorem nested_referent_before_earlier_id :
    (Encode (NewEncoder [] false) nestedPointers).2
      = .ok [0xFF, 0xFF, 0xFF, 0xFF, 0x00, 0x00, 0x02, 0x00, 0x04, 0x00, 0x02, 0x00,
             0x08, 0x00, 0x02, 0x00, 0x05, 0x00, 0x00, 0x00, 0x07, 0x00, 0x00, 0x00] := by
  simp [Encode, nestedPointers, process_unfold, processReferents, fill, fillFields, isPointer,
    scanConformantArrays_eq, scanMaxes, scanMaxesFields, isZero, isZeroFields,
    Value.isNonNilPointer, Value.isString, Encoder.writePointer, Encoder.writeUint32,
    ensureAlignment_eq_write, Encoder.write, NewEncoder, putUint, leBytes, Tag.deletePointer,
    SizePtr, SizeUint32]

/-- C19. After `scanConformantArrays` the accumulator `conformantMax` is empty; `fill` does
not touch it and `process` leaves it empty, so the first deferred referent of a frame and
every later one start their scan with an empty accumulator; and a scan that starts with an
empty accumulator writes the counts found in the value it scans and no others. -/
theorem accumulator_empty_after_scan :
    (∀ (enc : Encoder) (s : Value) (tag : Tag),
      (scanConformantArrays enc s tag).conformantMax = []) ∧
    (∀ (enc : Encoder) (s : Value) (tag : Tag) (d : List DeferedPtr),
      (fill enc s tag d).1.conformantMax = enc.conformantMax) ∧
    (∀ (enc : Encoder) (s : Value) (tag : Tag),
      (fill (scanConformantArrays enc s tag) s tag []).1.conformantMax = []) ∧
    (∀ (enc : Encoder) (s : Value) (tag : Tag), (process enc s tag).1.conformantMax = []) ∧
    (∀ (enc : Encoder) (s : Value) (tag : Tag), enc.conformantMax = [] →
      (conformantScan enc s tag).conformantMax = scanMaxes s tag ∧
      (scanConformantArrays enc s tag).w
        = enc.w ++ (scanMaxes s tag).flatMap (putUint .littleEndian 4)) := by
  refine ⟨scanConformantArrays_conformantMax, fun enc s tag d => (fill_keeps s enc tag d).2.1,
    ?_, process_conformantMax, ?_⟩
  · intro enc s tag
    rw [(fill_keeps s _ tag []).2.1, scanConformantArrays_conformantMax]
  · intro enc s tag h
    constructor
    · rw [conformantScan_eq]; simp [h]
    · rw [scanConformantArrays_eq]; simp [h]

/-- C20. For a slice that is not under a pointer tag, `conformantScan` appends to the
accumulator, when the slice carries the conformant attribute, the outer length `n` (as a
`uint32`) once per dimension of the slice type, followed by one 0 exactly when the innermost
element type is string; a slice without the conformant attribute and a string without it
append nothing. The dimensionality is at least 1, 1 for a flat slice and one more for each
level of slice-of-slice. -/
theorem conformantScan_slice_counts (enc : Encoder) (elem : Ty) (isNil : Bool)
    (elems : List Value) (tag : Tag) (hp : tag.pointer = false) :
    (tag.conformant = true →
      (conformantScan enc (.slice elem isNil elems) tag).conformantMax
        = enc.conformantMax
          ++ List.replicate (sliceDimensions (.slice elem)).1 (elems.length % 2 ^ 32)
          ++ (if (sliceDimensions (.slice elem)).2 = .string then [0] else [])) ∧
    (elems.length < 2 ^ 32 → elems.length % 2 ^ 32 = elems.length) ∧
    (tag.conformant = false → conformantScan enc (.slice elem isNil elems) tag = enc) ∧
    (∀ str : List Nat, tag.conformant = false → conformantScan enc (.string str) tag = enc) ∧
    (sliceDimensions (.slice elem)).1 = (sliceDimensions elem).1 + 1 ∧
    (sliceDimensions (.slice elem)).2 = (sliceDimensions elem).2 ∧
    ((∀ e : Ty, elem ≠ .slice e) → sliceDimensions (.slice elem) = (1, elem)) := by
  refine ⟨?_, Nat.mod_eq_of_lt, ?_, ?_, rfl, rfl, ?_⟩
  · intro hc
    rw [conformantScan_eq]
    simp [scanMaxes, scanMaxesSlice, hp, hc, List.append_assoc]
  · intro hc
    rw [conformantScan_eq]
    simp [scanMaxes, scanMaxesSlice, hp, hc]
  · intro str hc
    rw [conformantScan_eq]
    simp [scanMaxes, hp, hc]
  · intro h
    cases elem with
    | slice e => exact absurd rfl (h e)
    | _ => rfl

/-- C20 at a concrete input: a conformant slice of slices of strings with two elements. -/
theorem conformantScan_slice_counts_witness :
    ({ conformant := true } : Tag).pointer = false ∧
    (conformantScan (NewEncoder [] false)
        (.slice (.slice .string) false [.slice .string false [], .slice .string false []])
        { conformant := true }).conformantMax = [2, 2, 0] :=
  ⟨rfl,
   (conformantScan_slice_counts (NewEncoder [] false) (.slice .string) false
      [.slice .string false [], .slice .string false []] { conformant := true } rfl).1 rfl⟩

/-! ## Referent ids and deferred entries -/

theorem writeConformantVaryingString_nextReferentID (enc : Encoder) (s : List Nat) :
    (enc.writeConformantVaryingString s).nextReferentID = enc.nextReferentID := by
  simp [Encoder.writeConformantVaryingString, ensureAlignment_eq_write, Encoder.write]

theorem writeArrayCounts_nextReferentID (enc : Encoder) (n : Nat) :
    (writeArrayCounts enc n).nextReferentID = enc.nextReferentID := by
  simp [writeArrayCounts, Encoder.writeUint32, ensureAlignment_eq_write, Encoder.write]

/-! ## Referent ids in the bytes of `fill`, referents after them -/

theorem idsAt_congr (w : List Nat) (order : ByteOrder) :
    ∀ (n lo hi id id' : Nat), id % 2 ^ 32 = id' % 2 ^ 32 →
      IdsAt w order lo hi id n → IdsAt w order lo hi id' n
  | 0, _, _, _, _, _, _ => trivial
  | n + 1, lo, hi, id, id', h, ⟨o, h1, h2, h3, h4⟩ => by
    refine ⟨o, h1, h2, ?_, ?_⟩
    · rw [h3, ← putUint_mod order 4 id, ← putUint_mod order 4 id']
      norm_num at h ⊢
      rw [h]
    · have : (id + 4) % 2 ^ 32 = (id' + 4) % 2 ^ 32 := by
        rw [Nat.add_mod, h, ← Nat.add_mod]
      rw [← this]
      exact h4

theorem idsAt_mono (w : List Nat) (order : ByteOrder) :
    ∀ (n lo lo' hi hi' id : Nat), lo' ≤ lo → hi ≤ hi' →
      IdsAt w order lo hi id n → IdsAt w order lo' hi' id n
  | 0, _, _, _, _, _, _, _, _ => trivial
  | n + 1, _, _, hi, hi', _, hl, hh, ⟨o, h1, h2, h3, h4⟩ =>
    ⟨o, le_trans hl h1, le_trans h2 hh, h3,
      idsAt_mono w order n (o + 4) (o + 4) hi hi' _ le_rfl hh h4⟩

theorem idsAt_append (w x : List Nat) (order : ByteOrder) :
    ∀ (n lo hi id : Nat), hi ≤ w.length →
      IdsAt w order lo hi id n → IdsAt (w ++ x) order lo hi id n
  | 0, _, _, _, _, _ => trivial
  | n + 1, lo, hi, id, hh, ⟨o, h1, h2, h3, h4⟩ => by
    refine ⟨o, h1, h2, ?_, idsAt_append w x order n (o + 4) hi _ hh h4⟩
    rw [← h3, List.drop_append_of_le_length (by omega), List.take_append_of_le_length]
    rw [List.length_drop]
    omega

theorem idsAt_concat (w : List Nat) (order : ByteOrder) :
    ∀ (n1 n2 lo mid hi id : Nat), lo ≤ mid → mid ≤ hi →
      IdsAt w order lo mid id n1 → IdsAt w order mid hi (id + 4 * n1) n2 →
      IdsAt w order lo hi id (n1 + n2)
  | 0, n2, lo, mid, hi, id, hl, _, _, h2 => by
    rw [Nat.zero_add]
    exact idsAt_mono w order n2 mid lo hi hi id hl le_rfl (by simpa using h2)
  | n1 + 1, n2, lo, mid, hi, id, hl, hh, ⟨o, h1, h2, h3, h4⟩, h5 => by
    rw [Nat.add_right_comm]
    refine ⟨o, h1, le_trans h2 hh, h3, ?_⟩
    refine idsAt_concat w order n1 n2 (o + 4) mid hi _ h2 hh h4 ?_
    refine idsAt_congr w order n2 mid hi _ _ ?_ h5
    have h32 : (2 : Nat) ^ 32 = 4294967296 := by norm_num
    rw [h32]
    omega

theorem fillOrder_same (enc enc' : Encoder) (d : List DeferedPtr) (e : Option EncErr)
    (hc : enc.Continues enc') (h : enc'.nextReferentID = enc.nextReferentID) :
    FillOrder enc d (enc', d, e) :=
  ⟨hc, [], by simp, trivial, by simp [h]⟩

theorem fillOrder_write (enc enc' : Encoder) (d : List DeferedPtr) (e : Option EncErr)
    (bs : List Nat) (h : enc' = enc.write bs) : FillOrder enc d (enc', d, e) := by
  subst h; exact fillOrder_same _ _ _ _ (write_continues _ _) rfl

theorem fillOrder_trans {enc : Encoder} {d : List DeferedPtr}
    {r1 r2 : Encoder × List DeferedPtr × Option EncErr}
    (h1 : FillOrder enc d r1) (h2 : FillOrder r1.1 r1.2.1 r2) : FillOrder enc d r2 := by
  obtain ⟨c1, n1, e1, i1, k1⟩ := h1
  obtain ⟨c2, n2, e2, i2, k2⟩ := h2
  obtain ⟨x, hx⟩ := c2.1
  obtain ⟨y, hy⟩ := c1.1
  have hl1 : enc.w.length ≤ r1.1.w.length := by rw [hy, List.length_append]; omega
  have hl2 : r1.1.w.length ≤ r2.1.w.length := by rw [hx, List.length_append]; omega
  refine ⟨c1.trans c2, n1 ++ n2, by rw [e2, e1, List.append_assoc], ?_, ?_⟩
  · rw [List.length_append]
    refine idsAt_concat r2.1.w enc.ch.Endianness n1.length n2.length enc.w.length
      r1.1.w.length r2.1.w.length enc.nextReferentID hl1 hl2 ?_ ?_
    · rw [hx]
      exact idsAt_append _ _ _ _ _ _ _ le_rfl i1
    · rw [c1.2.1] at i2
      exact idsAt_congr _ _ _ _ _ _ _ k1 i2
  · rw [List.length_append]
    have h32 : (2 : Nat) ^ 32 = 4294967296 := by norm_num
    rw [h32] at *
    omega

theorem fillOrder_current {enc : Encoder} {d : List DeferedPtr}
    {r : Encoder × List DeferedPtr × Option EncErr} (cur : List String)
    (h : FillOrder { enc with current := cur } d r) : FillOrder enc d r := h

theorem fillOrder_setCurrent {enc : Encoder} {d : List DeferedPtr}
    {e : Encoder} {d' : List DeferedPtr} {err : Option EncErr} (cur : List String)
    (h : FillOrder enc d (e, d', err)) (err' : Option EncErr) :
    FillOrder enc d ({ e with current := cur }, d', err') := h

theorem fillOrder_writePointer (enc : Encoder) (d : List DeferedPtr) (p : DeferedPtr)
    (e : Option EncErr) : FillOrder enc d (enc.writePointer, d ++ [p], e) := by
  refine ⟨writePointer_continues enc, [p], rfl, ?_, ?_⟩
  · refine ⟨enc.w.length + (4 - enc.w.length % 4) % 4, by omega, ?_, ?_, trivial⟩
    · simp only [writePointer_w, List.length_append, List.length_replicate, putUint_length]
      omega
    · rw [writePointer_w, List.drop_left' (by simp), List.take_of_length_le]
      rw [putUint_length]
  · simp [writePointer_nextReferentID]

theorem isPointer_order (enc : Encoder) (v : Value) (tag : Tag) (d : List DeferedPtr)
    (e : Option EncErr) :
    FillOrder enc d ((isPointer enc v tag d).1, (isPointer enc v tag d).2.1, e) := by
  unfold isPointer
  split_ifs
  · exact fillOrder_writePointer _ _ _ _
  · exact fillOrder_same _ _ _ _ (Encoder.Continues.refl _) rfl
  · exact fillOrder_writePointer _ _ _ _
  · exact fillOrder_writePointer _ _ _ _
  · exact fillOrder_write _ _ _ _ _ rfl
  · exact fillOrder_same _ _ _ _ (Encoder.Continues.refl _) rfl

theorem fill_pointer_order (enc : Encoder) (s : Value) (tag : Tag) (d : List DeferedPtr)
    (hp : tag.pointer = true) : FillOrder enc d (fill enc s tag d) := by
  rw [fill_pointer_eq _ _ _ _ hp]
  exact isPointer_order enc s tag d _

mutual
theorem fill_order : ∀ (s : Value) (enc : Encoder) (tag : Tag) (d : List DeferedPtr),
    FillOrder enc d (fill enc s tag d)
  | .struct name sw fields, enc, tag, d => by
    cases hp : tag.pointer
    · simp only [fill, isPointer_false _ _ _ _ hp]
      have h := fillFields_order fields { enc with current := enc.current ++ [name] } sw none
        "" d
      rcases hres : fillFields { enc with current := enc.current ++ [name] } sw none ""
        fields d with ⟨e1, d1, _ | err⟩
      · rw [hres] at h
        exact fillOrder_setCurrent _ (fillOrder_current _ h) _
      · rw [hres] at h
        exact fillOrder_current _ h
    · exact fill_pointer_order _ _ _ _ hp
  | .bool v, enc, tag, d => by
    cases hp : tag.pointer
    · simp only [fill, isPointer_false _ _ _ _ hp]
      exact fillOrder_write _ _ _ _ _
        rfl
    · exact fill_pointer_order _ _ _ _ hp
  | .uint8 n, enc, tag, d => by
    cases hp : tag.pointer
    · simp only [fill, isPointer_false _ _ _ _ hp]
      exact fillOrder_write _ _ _ _ _
        rfl
    · exact fill_pointer_order _ _ _ _ hp
  | .uint16 n, enc, tag, d => by
    cases hp : tag.pointer
    · simp only [fill, isPointer_false _ _ _ _ hp]
      exact fillOrder_write _ _ _ _ _
        (aligned_write_eq enc _ (fun e => putUint e.ch.Endianness 2 (n % 2 ^ 16)))
    · exact fill_pointer_order _ _ _ _ hp
  | .uint32 n, enc, tag, d => by
    cases hp : tag.pointer
    · simp only [fill, isPointer_false _ _ _ _ hp]
      exact fillOrder_write _ _ _ _ _
        (aligned_write_eq enc _ (fun e => putUint e.ch.Endianness 4 (n % 2 ^ 32)))
    · exact fill_pointer_order _ _ _ _ hp
  | .uint64 n, enc, tag, d => by
    cases hp : tag.pointer
    · simp only [fill, isPointer_false _ _ _ _ hp]
      exact fillOrder_write _ _ _ _ _
        (aligned_write_eq enc _ (fun e => putUint e.ch.Endianness 8 (n % 2 ^ 64)))
    · exact fill_pointer_order _ _ _ _ hp
  | .int8 i, enc, tag, d => by
    cases hp : tag.pointer
    · simp only [fill, isPointer_false _ _ _ _ hp]
      exact fillOrder_write _ _ _ _ _
        rfl
    · exact fill_pointer_order _ _ _ _ hp
  | .int16 i, enc, tag, d => by
    cases hp : tag.pointer
    · simp only [fill, isPointer_false _ _ _ _ hp]
      exact fillOrder_write _ _ _ _ _
        (aligned_write_eq enc SizeUint16
          (fun e => putUint e.ch.Endianness 2 (Int.toNat (i % 2 ^ 16))))
    · exact fill_pointer_order _ _ _ _ hp
  | .int32 i, enc, tag, d => by
    cases hp : tag.pointer
    · simp only [fill, isPointer_false _ _ _ _ hp]
      exact fillOrder_write _ _ _ _ _
        (aligned_write_eq enc SizeUint32
          (fun e => putUint e.ch.Endianness 4 (Int.toNat (i % 2 ^ 32))))
    · exact fill_pointer_order _ _ _ _ hp
  | .int64 i, enc, tag, d => by
    cases hp : tag.pointer
    · simp only [fill, isPointer_false _ _ _ _ hp]
      exact fillOrder_write _ _ _ _ _
        (aligned_write_eq enc SizeUint64
          (fun e => putUint e.ch.Endianness 8 (Int.toNat (i % 2 ^ 64))))
    · exact fill_pointer_order _ _ _ _ hp
  | .float32 bits, enc, tag, d => by
    cases hp : tag.pointer
    · simp only [fill, isPointer_false _ _ _ _ hp]
      exact fillOrder_write _ _ _ _ _
        (aligned_write_eq enc _ (fun e => putUint e.ch.Endianness 4 (float32RoundTrip (bits % 2 ^ 32))))
    · exact fill_pointer_order _ _ _ _ hp
  | .float64 bits, enc, tag, d => by
    cases hp : tag.pointer
    · simp only [fill, isPointer_false _ _ _ _ hp]
      exact fillOrder_write _ _ _ _ _
        (aligned_write_eq enc _ (fun e => putUint e.ch.Endianness 8 (bits % 2 ^ 64)))
    · exact fill_pointer_order _ _ _ _ hp
  | .ptr target, enc, tag, d => by
    cases hp : tag.pointer
    · simp only [fill, isPointer_false _ _ _ _ hp]
      exact fillOrder_same _ _ _ _ ⟨⟨[], by simp⟩, rfl, rfl⟩ rfl
    · exact fill_pointer_order _ _ _ _ hp
  | .nilPtr, enc, tag, d => by
    cases hp : tag.pointer
    · simp only [fill, isPointer_false _ _ _ _ hp]
      exact fillOrder_same _ _ _ _ ⟨⟨[], by simp⟩, rfl, rfl⟩ rfl
    · exact fill_pointer_order _ _ _ _ hp
  | .other z, enc, tag, d => by
    cases hp : tag.pointer
    · simp only [fill, isPointer_false _ _ _ _ hp]
      exact fillOrder_same _ _ _ _ ⟨⟨[], by simp⟩, rfl, rfl⟩ rfl
    · exact fill_pointer_order _ _ _ _ hp
  | .string str, enc, tag, d => by
    cases hp : tag.pointer
    · simp only [fill, isPointer_false _ _ _ _ hp]
      split_ifs
      · exact fillOrder_same _ _ _ _ (writeConformantVaryingString_continues _ _)
          (writeConformantVaryingString_nextReferentID _ _)
      · exact fillOrder_same _ _ _ _ ⟨⟨[], by simp⟩, rfl, rfl⟩ rfl
    · exact fill_pointer_order _ _ _ _ hp
  | .array elems, enc, tag, d => by
    cases hp : tag.pointer
    · simp only [fill, isPointer_false _ _ _ _ hp]
      exact fillElems_order elems enc tag.elemTag d
    · exact fill_pointer_order _ _ _ _ hp
  | .slice elem isNil elems, enc, tag, d => by
    cases hp : tag.pointer
    · simp only [fill, isPointer_false _ _ _ _ hp]
      have hk : FillOrder enc d (writeArrayCounts enc elems.length, d, none) :=
        fillOrder_same _ _ _ _ (writeArrayCounts_continues _ _)
          (writeArrayCounts_nextReferentID _ _)
      have h1 := fillElems_order elems (writeArrayCounts enc elems.length) tag.elemTag d
      have h2 := fillElems_order elems enc tag.elemTag d
      split_ifs
      · exact fillOrder_trans hk h1
      · exact fillOrder_trans hk h1
      · exact h2
    · exact fill_pointer_order _ _ _ _ hp
  | .readOnly v, enc, tag, d => by
    cases hp : tag.pointer
    · rw [fill_unexported _ _ _ _ hp]
      exact fill_order v enc tag d
    · exact fill_pointer_order _ _ _ _ hp
theorem fillFields_order : ∀ (fields : List (String × Tag × Value)) (enc : Encoder)
    (sw : List (Int × String)) (unionTag : Option Value) (unionField : String)
    (d : List DeferedPtr),
    FillOrder enc d (fillFields enc sw unionTag unionField fields d)
  | [], enc, sw, ut, uf, d => by
    simp only [fillFields]
    exact fillOrder_same _ _ _ _ ⟨⟨[], by simp⟩, rfl, rfl⟩ rfl
  | (fname, ftag, fv) :: rest, enc, sw, ut, uf, d => by
    have hstep : ∀ (uf' : String) (ut' : Option Value),
        FillOrder enc d
          (match fill { enc with current := enc.current ++ [fname] } fv ftag d with
            | (enc, localDef, some err) => (enc, localDef, some err)
            | (enc, localDef, none) =>
              fillFields { enc with current := enc.current.dropLast } sw ut' uf' rest
                localDef) := by
      intro uf' ut'
      have h1 := fill_order fv { enc with current := enc.current ++ [fname] } ftag d
      rcases hres : fill { enc with current := enc.current ++ [fname] } fv ftag d
        with ⟨e1, d1, _ | err⟩
      · rw [hres] at h1
        simp only []
        have h2 := fillFields_order rest { e1 with current := e1.current.dropLast } sw ut' uf'
          d1
        have h1' : FillOrder enc d ({ e1 with current := e1.current.dropLast }, d1, none) :=
          fillOrder_setCurrent _ (fillOrder_current _ h1) _
        exact fillOrder_trans h1' h2
      · rw [hres] at h1
        simp only []
        exact fillOrder_current _ h1
    cases ut with
    | none =>
      simp only [fillFields]
      exact hstep uf none
    | some u =>
      simp only [fillFields]
      rcases hsel : (if uf = "" then unionSelectedField sw u else Except.ok uf)
        with err | sel
      · simp only []
        exact fillOrder_same _ _ _ _ ⟨⟨[], by simp⟩, rfl, rfl⟩ rfl
      · simp only []
        split_ifs
        · exact fillOrder_trans
            (fillOrder_same enc { enc with current := (enc.current ++ [fname]).dropLast } d
              none ⟨⟨[], by simp⟩, rfl, rfl⟩ rfl)
            (fillFields_order rest _ sw (some u) sel d)
        · exact hstep sel (some u)
theorem fillElems_order : ∀ (elems : List Value) (enc : Encoder) (tag : Tag)
    (d : List DeferedPtr), FillOrder enc d (fillElems enc elems tag d)
  | [], enc, tag, d => by
    simp only [fillElems]
    exact fillOrder_same _ _ _ _ ⟨⟨[], by simp⟩, rfl, rfl⟩ rfl
  | e :: rest, enc, tag, d => by
    simp only [fillElems]
    have h1 := fill_order e enc tag d
    rcases hres : fill enc e tag d with ⟨e1, d1, _ | err⟩
    · rw [hres] at h1
      simp only []
      exact fillOrder_trans h1 (fillElems_order rest e1 tag d1)
    · rw [hres] at h1
      simp only []
      exact h1
end

theorem processReferents_runs (defs : List DeferedPtr) :
    ∀ enc : Encoder, (processReferents enc defs).2 = none →
      (processReferents enc defs).1.w = enc.w ++ (referentRuns enc defs).flatten ∧
      (referentRuns enc defs).length = defs.length := by
  induction defs with
  | nil => intro enc _; simp [processReferents, referentRuns]
  | cons p rest ih =>
    intro enc h
    obtain ⟨⟨bs, hbs⟩, -⟩ := (process_spec enc p.v p.tag).1
    simp only [processReferents] at h ⊢
    rcases hres : process enc p.v p.tag with ⟨e1, _ | err⟩
    · rw [hres] at h hbs
      simp only at h hbs ⊢
      obtain ⟨h1, h2⟩ := ih e1 h
      simp only [referentRuns, hres, List.flatten_cons, List.length_cons, h2, and_true]
      rw [h1, hbs, List.drop_left, List.append_assoc]
    · rw [hres] at h
      simp at h

theorem scanConformantArrays_nextReferentID (enc : Encoder) (s : Value) (tag : Tag) :
    (scanConformantArrays enc s tag).nextReferentID = enc.nextReferentID := by
  rw [scanConformantArrays_eq]

/-- C14, amended. In every call of `process` that ends without error, the referent ids of
the entries its `fill` enqueues stand in the bytes that `fill` writes, one id per entry, as
consecutive ids in increasing order of offset; the referents follow the bytes of `fill` in
the output, one run of bytes per entry in the order of the entries, which is the order of
their ids; and the run of an entry is everything `process` writes for it, its own `fill`
and then the runs of the entries that `fill` enqueues, so that the referents a referent
defers come before the next referent of the enclosing call although their ids were written
later. On a pointer-tagged value `isPointer` either writes the next id and appends one
entry at the end of the deferred list, or does neither, and every call of `fill`, so the one
for each field and element, appends as many entries as it writes ids: the k-th entry of the
list is the one enqueued with the k-th id. For the struct with the pointer-tagged fields
`P1` (a struct with a pointer-tagged field `Q` of its own) and `P2` the output holds the ids
of `P1`, `P2` and `Q`, then the referent of `P1`, the referent of `Q` and last the referent
of `P2`. -/
theorem referents_in_frame_order (enc : Encoder) (s : Value) (tag : Tag)
    (h : (process enc s tag).2 = none) :
    (fill (scanConformantArrays enc s tag) s tag []).2.2 = none ∧
    IdsAt (process enc s tag).1.w enc.ch.Endianness
      (scanConformantArrays enc s tag).w.length
      (fill (scanConformantArrays enc s tag) s tag []).1.w.length
      enc.nextReferentID
      (fill (scanConformantArrays enc s tag) s tag []).2.1.length ∧
    (process enc s tag).1.w
      = (fill (scanConformantArrays enc s tag) s tag []).1.w
        ++ (referentRuns (fill (scanConformantArrays enc s tag) s tag []).1
            (fill (scanConformantArrays enc s tag) s tag []).2.1).flatten ∧
    (referentRuns (fill (scanConformantArrays enc s tag) s tag []).1
        (fill (scanConformantArrays enc s tag) s tag []).2.1).length
      = (fill (scanConformantArrays enc s tag) s tag []).2.1.length ∧
    (∀ (e : Encoder) (p : DeferedPtr) (rest : List DeferedPtr),
      referentRuns e (p :: rest)
        = (process e p.v p.tag).1.w.drop e.w.length
          :: referentRuns (process e p.v p.tag).1 rest) ∧
    (∀ (e : Encoder) (p : DeferedPtr),
      (process e p.v p.tag).1.w
        = e.w ++ (process e p.v p.tag).1.w.drop e.w.length) ∧
    (∀ (e : Encoder) (v : Value) (t : Tag) (d : List DeferedPtr), t.pointer = true →
      ((isPointer e v t d).1 = e.writePointer ∧
          (isPointer e v t d).2.1 = d ++ [{ v := v, tag := t.deletePointer }]) ∨
        ((isPointer e v t d).1.nextReferentID = e.nextReferentID ∧
          (isPointer e v t d).2.1 = d)) ∧
    (∀ (e : Encoder) (v : Value) (t : Tag) (d : List DeferedPtr),
      FillOrder e d (fill e v t d)) ∧
    (Encode (NewEncoder [] false) nestedPointers).2
      = .ok [0xFF, 0xFF, 0xFF, 0xFF, 0x00, 0x00, 0x02, 0x00, 0x04, 0x00, 0x02, 0x00,
             0x08, 0x00, 0x02, 0x00, 0x05, 0x00, 0x00, 0x00, 0x07, 0x00, 0x00, 0x00] := by
  have ho := fill_order s (scanConformantArrays enc s tag) tag []
  rw [process_unfold] at h ⊢
  rcases hres : fill (scanConformantArrays enc s tag) s tag [] with ⟨e1, d1, _ | err⟩
  · rw [hres] at h ho
    simp only at h ⊢
    obtain ⟨h1, h2⟩ := processReferents_runs d1 e1 h
    obtain ⟨-, new, hnew, hids, -⟩ := ho
    simp only [List.nil_append] at hnew
    subst hnew
    refine ⟨trivial, ?_, h1, h2, fun _ _ _ => rfl, ?_, ?_,
      fun e v t d => fill_order v e t d, ?_⟩
    · rw [h1, ← (scanConformantArrays_continues enc s tag).2.1,
        ← scanConformantArrays_nextReferentID enc s tag]
      exact idsAt_append _ _ _ _ _ _ _ le_rfl hids
    · intro e p
      obtain ⟨⟨bs, hbs⟩, -⟩ := (process_spec e p.v p.tag).1
      rw [hbs, List.drop_left]
    · intro e v t d ht
      unfold isPointer
      simp only [ht, if_true]
      split_ifs
      · exact Or.inl ⟨rfl, rfl⟩
      · exact Or.inr ⟨rfl, rfl⟩
      · exact Or.inl ⟨rfl, rfl⟩
      · exact Or.inl ⟨rfl, rfl⟩
      · exact Or.inr ⟨rfl, rfl⟩
    · simp [Encode, nestedPointers, process_unfold, processReferents, fill, fillFields,
        isPointer, scanConformantArrays_eq, scanMaxes, scanMaxesFields, isZero, isZeroFields,
        Value.isNonNilPointer, Value.isString, Value.canInterface, Encoder.writePointer,
        Encoder.writeUint32, ensureAlignment_eq_write, Encoder.write, NewEncoder, putUint,
        leBytes, Tag.deletePointer, SizePtr, SizeUint32]
  · rw [hres] at h
    simp at h

/-- C14, amended, at a concrete input: the struct with the pointer-tagged fields `P1` (a
struct with a pointer-tagged field `Q` of its own) and `P2`. Its `fill` writes the ids of
`P1` and `P2`, the run of `P1` holds the id of `Q`, the value-less struct and then the
referent of `Q`, and the run of `P2` comes last. -/
theorem referents_in_frame_order_witness :
    (process ((NewEncoder [] false).write [0xFF, 0xFF, 0xFF, 0xFF]) nestedPointers {}).2
      = none ∧
    (process ((NewEncoder [] false).write [0xFF, 0xFF, 0xFF, 0xFF]) nestedPointers {}).1.w
      = [0xFF, 0xFF, 0xFF, 0xFF, 0x00, 0x00, 0x02, 0x00, 0x04, 0x00, 0x02, 0x00,
         0x08, 0x00, 0x02, 0x00, 0x05, 0x00, 0x00, 0x00, 0x07, 0x00, 0x00, 0x00] ∧
    (fill (scanConformantArrays ((NewEncoder [] false).write [0xFF, 0xFF, 0xFF, 0xFF])
        nestedPointers {}) nestedPointers {} []).1.w
      = [0xFF, 0xFF, 0xFF, 0xFF, 0x00, 0x00, 0x02, 0x00, 0x04, 0x00, 0x02, 0x00] ∧
    referentRuns (fill (scanConformantArrays ((NewEncoder [] false).write
        [0xFF, 0xFF, 0xFF, 0xFF]) nestedPointers {}) nestedPointers {} []).1
      (fill (scanConformantArrays ((NewEncoder [] false).write [0xFF, 0xFF, 0xFF, 0xFF])
        nestedPointers {}) nestedPointers {} []).2.1
      = [[0x08, 0x00, 0x02, 0x00, 0x05, 0x00, 0x00, 0x00], [0x07, 0x00, 0x00, 0x00]] ∧
    (process ((NewEncoder [] false).write [0xFF, 0xFF, 0xFF, 0xFF]) nestedPointers {}).1.w
      = (fill (scanConformantArrays ((NewEncoder [] false).write [0xFF, 0xFF, 0xFF, 0xFF])
          nestedPointers {}) nestedPointers {} []).1.w
        ++ (referentRuns (fill (scanConformantArrays ((NewEncoder [] false).write
              [0xFF, 0xFF, 0xFF, 0xFF]) nestedPointers {}) nestedPointers {} []).1
            (fill (scanConformantArrays ((NewEncoder [] false).write
              [0xFF, 0xFF, 0xFF, 0xFF]) nestedPointers {}) nestedPointers {} []).2.1).flatten :=
  have hp : (process ((NewEncoder [] false).write [0xFF, 0xFF, 0xFF, 0xFF]) nestedPointers
      {}).2 = none := by
    simp [nestedPointers, process_unfold, processReferents, fill, fillFields,
      isPointer, scanConformantArrays_eq, scanMaxes, scanMaxesFields, isZero, isZeroFields,
      Value.isNonNilPointer, Value.isString, Value.canInterface, Encoder.writePointer,
      Encoder.writeUint32, ensureAlignment_eq_write, Encoder.write, NewEncoder, putUint,
      leBytes, Tag.deletePointer, SizePtr, SizeUint32]
  ⟨hp,
   by simp [nestedPointers, process_unfold, processReferents, fill, fillFields,
      isPointer, scanConformantArrays_eq, scanMaxes, scanMaxesFields, isZero, isZeroFields,
      Value.isNonNilPointer, Value.isString, Value.canInterface, Encoder.writePointer,
      Encoder.writeUint32, ensureAlignment_eq_write, Encoder.write, NewEncoder, putUint,
      leBytes, Tag.deletePointer, SizePtr, SizeUint32],
   by simp [nestedPointers, fill, fillFields,
      isPointer, scanConformantArrays_eq, scanMaxes, scanMaxesFields, isZero, isZeroFields,
      Value.isNonNilPointer, Value.isString, Value.canInterface, Encoder.writePointer,
      Encoder.writeUint32, ensureAlignment_eq_write, Encoder.write, NewEncoder, putUint,
      leBytes, Tag.deletePointer, SizePtr, SizeUint32],
   by simp [nestedPointers, referentRuns, process_unfold, processReferents, fill, fillFields,
      isPointer, scanConformantArrays_eq, scanMaxes, scanMaxesFields, isZero, isZeroFields,
      Value.isNonNilPointer, Value.isString, Value.canInterface, Encoder.writePointer,
      Encoder.writeUint32, ensureAlignment_eq_write, Encoder.write, NewEncoder, putUint,
      leBytes, Tag.deletePointer, SizePtr, SizeUint32],
   (referents_in_frame_order ((NewEncoder [] false).write [0xFF, 0xFF, 0xFF, 0xFF])
      nestedPointers {} hp).2.2.1⟩

/-! ## The first primitive of the root -/

theorem aligned_write_w (enc : Encoder) (W n : Nat) :
    ((enc.ensureAlignment W).write (putUint (enc.ensureAlignment W).ch.Endianness W n)).w
      = enc.w ++ List.replicate ((W - enc.w.length % W) % W) 0
          ++ putUint enc.ch.Endianness W n := by
  rw [ensureAlignment_ch, ensureAlignment_eq_write]
  simp [Encoder.write]

theorem pow256 (W : Nat) : (256 : Nat) ^ W = 2 ^ (8 * W) := by
  rw [show (256 : Nat) = 2 ^ 8 by norm_num, ← pow_mul]

theorem getUint_putUint_nat (order : ByteOrder) (W n : Nat) :
    (getUint order (putUint order W (n % 2 ^ (8 * W))) : Int) = (n : Int) % 2 ^ (8 * W) := by
  rw [getUint_putUint, pow256, Nat.mod_mod]
  push_cast
  rfl

theorem getUint_putUint_int (order : ByteOrder) (W : Nat) (i : Int) :
    (getUint order (putUint order W (i % 2 ^ (8 * W)).toNat) : Int) = i % 2 ^ (8 * W) := by
  have hnn : 0 ≤ i % 2 ^ (8 * W) := Int.emod_nonneg _ (by positivity)
  rw [getUint_putUint, pow256]
  push_cast
  rw [Int.toNat_of_nonneg hnn, Int.emod_emod_of_dvd _ (dvd_refl _)]

theorem intWidth_mem : ∀ (v : Value) (W : Nat), v.intWidth = some W →
    W = 1 ∨ W = 2 ∨ W = 4 ∨ W = 8
  | .readOnly u, W, h => intWidth_mem u W h
  | .uint8 _, W, h => by simp only [Value.intWidth, Option.some.injEq] at h; omega
  | .int8 _, W, h => by simp only [Value.intWidth, Option.some.injEq] at h; omega
  | .uint16 _, W, h => by simp only [Value.intWidth, Option.some.injEq] at h; omega
  | .int16 _, W, h => by simp only [Value.intWidth, Option.some.injEq] at h; omega
  | .uint32 _, W, h => by simp only [Value.intWidth, Option.some.injEq] at h; omega
  | .int32 _, W, h => by simp only [Value.intWidth, Option.some.injEq] at h; omega
  | .uint64 _, W, h => by simp only [Value.intWidth, Option.some.injEq] at h; omega
  | .int64 _, W, h => by simp only [Value.intWidth, Option.some.injEq] at h; omega
  | .struct _ _ _, _, h => by simp [Value.intWidth] at h
  | .bool _, _, h => by simp [Value.intWidth] at h
  | .float32 _, _, h => by simp [Value.intWidth] at h
  | .float64 _, _, h => by simp [Value.intWidth] at h
  | .string _, _, h => by simp [Value.intWidth] at h
  | .array _, _, h => by simp [Value.intWidth] at h
  | .slice _ _ _, _, h => by simp [Value.intWidth] at h
  | .ptr _, _, h => by simp [Value.intWidth] at h
  | .nilPtr, _, h => by simp [Value.intWidth] at h
  | .other _, _, h => by simp [Value.intWidth] at h

theorem fill_int_aux : ∀ (v : Value) (enc : Encoder) (tag : Tag) (d : List DeferedPtr)
    (W : Nat), tag.pointer = false → v.intWidth = some W →
    ∃ (e : Encoder) (bytes : List Nat),
      fill enc v tag d = (e, d, none) ∧
      e.w = enc.w ++ List.replicate ((W - enc.w.length % W) % W) 0 ++ bytes ∧
      bytes.length = W ∧
      (getUint enc.ch.Endianness bytes : Int) = v.intValue % 2 ^ (8 * W)
  | .readOnly u, enc, tag, d, W, hp, hW => by
    rw [fill_unexported _ _ _ _ hp]
    exact fill_int_aux u enc tag d W hp hW
  | .uint8 n, enc, tag, d, W, hp, hW => by
    simp only [Value.intWidth, Option.some.injEq] at hW
    subst hW
    refine ⟨enc.writeUint8 (n % 2 ^ 8), putUint enc.ch.Endianness 1 (n % 2 ^ 8), by
      simp only [fill, isPointer_false _ _ _ _ hp], ?_, putUint_length _ _ _,
      getUint_putUint_nat _ 1 n⟩
    simp [Encoder.writeUint8, Encoder.write, Nat.mod_one]
  | .int8 i, enc, tag, d, W, hp, hW => by
    simp only [Value.intWidth, Option.some.injEq] at hW
    subst hW
    refine ⟨enc.writeInt8 i, putUint enc.ch.Endianness 1 (i % 2 ^ 8).toNat, by
      simp only [fill, isPointer_false _ _ _ _ hp], ?_, putUint_length _ _ _,
      getUint_putUint_int _ 1 i⟩
    simp [Encoder.writeInt8, Encoder.write, Nat.mod_one]
  | .uint16 n, enc, tag, d, W, hp, hW => by
    simp only [Value.intWidth, Option.some.injEq] at hW
    subst hW
    exact ⟨_, putUint enc.ch.Endianness 2 (n % 2 ^ 16), by
      simp only [fill, isPointer_false _ _ _ _ hp]; rfl, aligned_write_w enc 2 _,
      putUint_length _ _ _, getUint_putUint_nat _ 2 n⟩
  | .int16 i, enc, tag, d, W, hp, hW => by
    simp only [Value.intWidth, Option.some.injEq] at hW
    subst hW
    exact ⟨_, putUint enc.ch.Endianness 2 (i % 2 ^ 16).toNat, by
      simp only [fill, isPointer_false _ _ _ _ hp]; rfl, aligned_write_w enc 2 _,
      putUint_length _ _ _, getUint_putUint_int _ 2 i⟩
  | .uint32 n, enc, tag, d, W, hp, hW => by
    simp only [Value.intWidth, Option.some.injEq] at hW
    subst hW
    exact ⟨_, putUint enc.ch.Endianness 4 (n % 2 ^ 32), by
      simp only [fill, isPointer_false _ _ _ _ hp]; rfl, aligned_write_w enc 4 _,
      putUint_length _ _ _, getUint_putUint_nat _ 4 n⟩
  | .int32 i, enc, tag, d, W, hp, hW => by
    simp only [Value.intWidth, Option.some.injEq] at hW
    subst hW
    exact ⟨_, putUint enc.ch.Endianness 4 (i % 2 ^ 32).toNat, by
      simp only [fill, isPointer_false _ _ _ _ hp]; rfl, aligned_write_w enc 4 _,
      putUint_length _ _ _, getUint_putUint_int _ 4 i⟩
  | .uint64 n, enc, tag, d, W, hp, hW => by
    simp only [Value.intWidth, Option.some.injEq] at hW
    subst hW
    exact ⟨_, putUint enc.ch.Endianness 8 (n % 2 ^ 64), by
      simp only [fill, isPointer_false _ _ _ _ hp]; rfl, aligned_write_w enc 8 _,
      putUint_length _ _ _, getUint_putUint_nat _ 8 n⟩
  | .int64 i, enc, tag, d, W, hp, hW => by
    simp only [Value.intWidth, Option.some.injEq] at hW
    subst hW
    exact ⟨_, putUint enc.ch.Endianness 8 (i % 2 ^ 64).toNat, by
      simp only [fill, isPointer_false _ _ _ _ hp]; rfl, aligned_write_w enc 8 _,
      putUint_length _ _ _, getUint_putUint_int _ 8 i⟩
  | .struct _ _ _, _, _, _, _, _, hW => by simp [Value.intWidth] at hW
  | .bool _, _, _, _, _, _, hW => by simp [Value.intWidth] at hW
  | .float32 _, _, _, _, _, _, hW => by simp [Value.intWidth] at hW
  | .float64 _, _, _, _, _, _, hW => by simp [Value.intWidth] at hW
  | .string _, _, _, _, _, _, hW => by simp [Value.intWidth] at hW
  | .array _, _, _, _, _, _, hW => by simp [Value.intWidth] at hW
  | .slice _ _ _, _, _, _, _, _, hW => by simp [Value.intWidth] at hW
  | .ptr _, _, _, _, _, _, hW => by simp [Value.intWidth] at hW
  | .nilPtr, _, _, _, _, _, hW => by simp [Value.intWidth] at hW
  | .other _, _, _, _, _, _, hW => by simp [Value.intWidth] at hW

theorem fill_int (enc : Encoder) (v : Value) (tag : Tag) (d : List DeferedPtr) (W : Nat)
    (hp : tag.pointer = false) (hW : v.intWidth = some W) :
    ∃ (e : Encoder) (bytes : List Nat),
      fill enc v tag d = (e, d, none) ∧
      e.w = enc.w ++ List.replicate ((W - enc.w.length % W) % W) 0 ++ bytes ∧
      bytes.length = W ∧
      (getUint enc.ch.Endianness bytes : Int) = v.intValue % 2 ^ (8 * W) :=
  fill_int_aux v enc tag d W hp hW

theorem fill_struct_first_field (enc : Encoder) (name : String) (sw : List (Int × String))
    (fname : String) (ftag : Tag) (v : Value) (rest : List (String × Tag × Value))
    (tag : Tag) (d : List DeferedPtr) (e1 : Encoder) (hp : tag.pointer = false)
    (h1 : fill { enc with current := enc.current ++ [name] ++ [fname] } v ftag d
      = (e1, d, none)) :
    ∃ bs, (fill enc (.struct name sw ((fname, ftag, v) :: rest)) tag d).1.w = e1.w ++ bs := by
  have hk := fillFields_keeps rest { e1 with current := e1.current.dropLast } sw none "" d
  simp only [fill, isPointer_false _ _ _ _ hp, fillFields, h1]
  rcases hres : fillFields { e1 with current := e1.current.dropLast } sw none "" rest d
    with ⟨e2, d2, _ | err⟩
  · rw [hres] at hk
    exact hk.1.1
  · rw [hres] at hk
    exact hk.1.1

/-- C15, amended. When the first field of the root struct is an integer of width `W` (not
pointer-tagged) and the root has `k` hoisted maximum counts, a successful encoding without
framing into an empty buffer is the sentinel, the `k` counts, `(W - (4k+4) mod W) mod W`
zero bytes of padding and then the `W` bytes of the integer: the integer starts at the least
multiple of `W` that is at least `4k + 4`. For `W` in {1, 2, 4} there is no padding and the
integer starts at offset `4k + 4`. The struct with the single field `x: uint32 = 0x01020304`
encodes to `FF FF FF FF 04 03 02 01`. -/
theorem first_integer_offset (order : ByteOrder) (name : String) (sw : List (Int × String))
    (fname : String) (ftag : Tag) (v : Value) (rest : List (String × Tag × Value))
    (W : Nat) (out : List Nat) (hp : ftag.pointer = false) (hW : v.intWidth = some W)
    (h : (Encode ((NewEncoder [] false).SetEndianness order)
      (.struct name sw ((fname, ftag, v) :: rest))).2 = .ok out) :
    (∃ bytes tail : List Nat,
      out = [0xFF, 0xFF, 0xFF, 0xFF]
        ++ ((conformantScan ((NewEncoder [] false).SetEndianness order)
              (.struct name sw ((fname, ftag, v) :: rest)) {}).conformantMax).flatMap
            (putUint .littleEndian 4)
        ++ List.replicate ((W - (4 * (conformantScan ((NewEncoder [] false).SetEndianness order)
              (.struct name sw ((fname, ftag, v) :: rest)) {}).conformantMax.length + 4) % W)
            % W) 0
        ++ bytes ++ tail ∧
      bytes.length = W ∧
      (getUint order bytes : Int) = v.intValue % 2 ^ (8 * W)) ∧
    (4 * (conformantScan ((NewEncoder [] false).SetEndianness order)
          (.struct name sw ((fname, ftag, v) :: rest)) {}).conformantMax.length + 4
      + (W - (4 * (conformantScan ((NewEncoder [] false).SetEndianness order)
          (.struct name sw ((fname, ftag, v) :: rest)) {}).conformantMax.length + 4) % W) % W)
      % W = 0 ∧
    (W = 1 ∨ W = 2 ∨ W = 4 →
      (W - (4 * (conformantScan ((NewEncoder [] false).SetEndianness order)
          (.struct name sw ((fname, ftag, v) :: rest)) {}).conformantMax.length + 4) % W) % W
        = 0) ∧
    (Encode (NewEncoder [] false) (singleField (.uint32 0x01020304))).2
      = .ok [0xFF, 0xFF, 0xFF, 0xFF, 0x04, 0x03, 0x02, 0x01] := by
  have hWpos : W = 1 ∨ W = 2 ∨ W = 4 ∨ W = 8 := intWidth_mem v W hW
  refine ⟨?_, ?_, ?_, by decide⟩
  · have hE : (NewEncoder [] false).SetEndianness order
        = ((NewEncoder [] false).SetEndianness order).withHeaders false := rfl
    rw [hE] at h
    obtain ⟨hnone, hw⟩ := encode_unframed _ _ out h
    obtain ⟨⟨tail1, htail1⟩, _⟩ := process_continues_fill
      (((NewEncoder [] false).SetEndianness order).write (putUint .littleEndian 4 0xFFFFFFFF))
      (.struct name sw ((fname, ftag, v) :: rest)) {}
    have hscan := scanConformantArrays_w
      (((NewEncoder [] false).SetEndianness order).write (putUint .littleEndian 4 0xFFFFFFFF))
      (.struct name sw ((fname, ftag, v) :: rest)) {}
    have hcs : (conformantScan (((NewEncoder [] false).SetEndianness order).write
        (putUint .littleEndian 4 0xFFFFFFFF)) (.struct name sw ((fname, ftag, v) :: rest))
        {}).conformantMax
        = (conformantScan ((NewEncoder [] false).SetEndianness order)
            (.struct name sw ((fname, ftag, v) :: rest)) {}).conformantMax := by
      rw [conformantScan_eq, conformantScan_eq]; rfl
    rw [hcs] at hscan
    obtain ⟨e1, bytes, hfill, he1, hlen, hval⟩ := fill_int
      { scanConformantArrays (((NewEncoder [] false).SetEndianness order).write
          (putUint .littleEndian 4 0xFFFFFFFF)) (.struct name sw ((fname, ftag, v) :: rest)) {}
        with current := (scanConformantArrays (((NewEncoder [] false).SetEndianness order).write
          (putUint .littleEndian 4 0xFFFFFFFF)) (.struct name sw ((fname, ftag, v) :: rest))
          {}).current ++ [name] ++ [fname] } v ftag [] W hp hW
    obtain ⟨tail2, htail2⟩ := fill_struct_first_field _ name sw fname ftag v rest {} [] e1 rfl
      hfill
    have hch : (scanConformantArrays (((NewEncoder [] false).SetEndianness order).write
        (putUint .littleEndian 4 0xFFFFFFFF)) (.struct name sw ((fname, ftag, v) :: rest))
        {}).ch.Endianness = order := by
      rw [(scanConformantArrays_continues _ _ _).2.1]; rfl
    simp only [hscan, hch] at he1 hval
    refine ⟨bytes, tail2 ++ tail1, ?_, hlen, hval⟩
    rw [← hw, htail1, htail2, he1]
    have hl4 : (((NewEncoder [] false).SetEndianness order).write
        (putUint .littleEndian 4 0xFFFFFFFF)).w.length = 4 := rfl
    simp only [List.length_append, flatMap_putUint_length, List.length_cons, List.length_nil,
      List.append_assoc, hl4, Nat.add_comm 4]
    rfl
  · rcases hWpos with h | h | h | h <;> subst h <;> omega
  · intro h
    rcases h with h | h | h <;> subst h <;> omega

/-- C15, amended, at a concrete input: a single `uint64` field of value 1. -/
theorem first_integer_offset_witness :
    ({} : Tag).pointer = false ∧ (Value.uint64 1).intWidth = some 8 ∧
    (Encode ((NewEncoder [] false).SetEndianness .littleEndian)
        (.struct "S" [] [("X", {}, .uint64 1)])).2
      = .ok [0xFF, 0xFF, 0xFF, 0xFF, 0x00, 0x00, 0x00, 0x00,
             0x01, 0x00, 0x00, 0x00, 0x00, 0x00, 0x00, 0x00] ∧
    (4 * (conformantScan ((NewEncoder [] false).SetEndianness .littleEndian)
          (.struct "S" [] [("X", {}, .uint64 1)]) {}).conformantMax.length + 4
      + (8 - (4 * (conformantScan ((NewEncoder [] false).SetEndianness .littleEndian)
          (.struct "S" [] [("X", {}, .uint64 1)]) {}).conformantMax.length + 4) % 8) % 8)
      % 8 = 0 :=
  ⟨rfl, rfl, by decide,
   (first_integer_offset .littleEndian "S" [] "X" {} (.uint64 1) [] 8
      [0xFF, 0xFF, 0xFF, 0xFF, 0x00, 0x00, 0x00, 0x00,
       0x01, 0x00, 0x00, 0x00, 0x00, 0x00, 0x00, 0x00] rfl rfl (by decide)).2.1⟩

/-- C15, counterexample: a struct whose only field is a `uint64` has no hoisted count, yet
its field does not start at offset 4, which is no multiple of 8: the bytes at offsets 4 to 7
are padding and the field occupies offsets 8 to 15. -/
theorem uint64_first_field_starts_at_8 :
    (Encode (NewEncoder [] false) (singleField (.uint64 1))).2
      = .ok [0xFF, 0xFF, 0xFF, 0xFF, 0x00, 0x00, 0x00, 0x00,
             0x01, 0x00, 0x00, 0x00, 0x00, 0x00, 0x00, 0x00] ∧
    (conformantScan (NewEncoder [] false) (singleField (.uint64 1)) {}).conformantMax = [] ∧
    (4 * 0 + 4) % 8 ≠ 0 := by
  decide

/-! ## Strings without the conformant attribute -/

theorem Meets.orElse_nothing (m : Meets) : m.orElse .nothing = m := by
  cases m <;> rfl

theorem Meets.orElse_assoc (a b c : Meets) :
    (a.orElse b).orElse c = a.orElse (b.orElse c) := by
  cases a <;> rfl

theorem Meets.orElse_eq_plainString {a b : Meets} (h : a.orElse b = .plainString) :
    a = .plainString ∨ (a = .nothing ∧ b = .plainString) := by
  cases a
  · exact Or.inr ⟨rfl, h⟩
  · exact Or.inl rfl
  · simp [Meets.orElse] at h

theorem Meets.orElse_eq_panic {a b : Meets} (h : a.orElse b = .panic) :
    a = .panic ∨ (a = .nothing ∧ b = .panic) := by
  cases a
  · exact Or.inr ⟨rfl, h⟩
  · simp [Meets.orElse] at h
  · exact Or.inl rfl

theorem Meets.orElse_eq_nothing {a b : Meets} (h : a.orElse b = .nothing) :
    a = .nothing ∧ b = .nothing := by
  cases a
  · exact ⟨rfl, h⟩
  · simp [Meets.orElse] at h
  · simp [Meets.orElse] at h

theorem listMeets_append (xs ys : List DeferedPtr) :
    listMeets (xs ++ ys) = (listMeets xs).orElse (listMeets ys) := by
  induction xs with
  | nil => rfl
  | cons p rest ih =>
    show (processMeets p.v p.tag).orElse (listMeets (rest ++ ys)) = _
    rw [ih, ← Meets.orElse_assoc]
    rfl

theorem fillSim_leaf (enc : Encoder) (d : List DeferedPtr) :
    FillSim .nothing .nothing d (enc, d, none) :=
  ⟨fun h => absurd h (by decide), fun h => absurd h (by decide),
   fun _ => Or.inr ⟨rfl, [], by simp, rfl, by simp⟩⟩

theorem fillSim_error (m refs : Meets) (enc : Encoder) (d d' : List DeferedPtr)
    (err : EncErr) (h : err ≠ .interfacePanic) (hm : m = .plainString ∨ err ≠ .varyingString) :
    FillSim m refs d (enc, d', some err) :=
  ⟨fun _ => ⟨err, rfl, h⟩,
   fun hp => ⟨err, rfl, hm.resolve_left (by rw [hp]; decide)⟩,
   fun hn => Or.inl ⟨err, rfl, h, hm.resolve_left (by rw [hn]; decide)⟩⟩

/-- Two parts of the traversal one after the other: the second runs from the deferred list
the first leaves, and only when the first ends without error. -/
theorem fillSim_seq {m1 r1 m2 r2 : Meets} {d : List DeferedPtr}
    {res1 res : Encoder × List DeferedPtr × Option EncErr}
    (h1 : FillSim m1 r1 d res1)
    (herr : ∀ err, res1.2.2 = some err → res.2.2 = some err)
    (hok : res1.2.2 = none → FillSim m2 r2 res1.2.1 res) :
    FillSim (m1.orElse m2) (r1.orElse r2) d res := by
  obtain ⟨ha, hc, hb⟩ := h1
  refine ⟨?_, ?_, ?_⟩
  · intro hm
    rcases Meets.orElse_eq_plainString hm with h | ⟨h, h2⟩
    · obtain ⟨e, he, hr⟩ := ha h
      exact ⟨e, herr e he, hr⟩
    · rcases hb h with ⟨e, he, hr, -⟩ | ⟨hn, -⟩
      · exact ⟨e, herr e he, hr⟩
      · exact (hok hn).1 h2
  · intro hm
    rcases Meets.orElse_eq_panic hm with h | ⟨h, h2⟩
    · obtain ⟨e, he, hr⟩ := hc h
      exact ⟨e, herr e he, hr⟩
    · rcases hb h with ⟨e, he, -, hr⟩ | ⟨hn, -⟩
      · exact ⟨e, herr e he, hr⟩
      · exact (hok hn).2.1 h2
  · intro hm
    obtain ⟨h, h2⟩ := Meets.orElse_eq_nothing hm
    rcases hb h with ⟨e, he, hr⟩ | ⟨hn, new1, hnew1, hl1, hp1⟩
    · exact Or.inl ⟨e, herr e he, hr⟩
    · rcases (hok hn).2.2 h2 with ⟨e, he, hr⟩ | ⟨hn2, new2, hnew2, hl2, hp2⟩
      · exact Or.inl ⟨e, he, hr⟩
      · refine Or.inr ⟨hn2, new1 ++ new2, ?_, ?_, ?_⟩
        · rw [hnew2, hnew1, List.append_assoc]
        · rw [listMeets_append, hl1, hl2]
        · intro p hp
          rcases List.mem_append.1 hp with hp | hp
          · exact hp1 p hp
          · exact hp2 p hp

theorem fill_pointer_sim (enc : Encoder) (s : Value) (tag : Tag) (d : List DeferedPtr)
    (hp : tag.pointer = true) :
    FillSim (fillMeets s tag) (deferredMeets s tag) d (fill enc s tag d) := by
  have hm : fillMeets s tag
      = if !s.isNonNilPointer && !s.canInterface then .panic else .nothing := by
    unfold fillMeets
    simp only [hp, if_true]
  have hd : deferredMeets s tag
      = if s.isDeferred then processMeets s tag.deletePointer else .nothing := by
    simp only [deferredMeets, hp, if_true]
  rw [fill_pointer_eq enc s tag d hp, hm, hd]
  cases h1 : s.isNonNilPointer <;> cases h2 : s.canInterface <;> cases h3 : isZero s <;>
    cases h4 : s.isString <;>
    simp [FillSim, isPointer, hp, h1, h2, h3, h4, Value.isDeferred, listMeets,
      Meets.orElse_nothing, Tag.deletePointer, EncErr.isReturned]

mutual
theorem fill_sim : ∀ (s : Value) (enc : Encoder) (tag : Tag) (d : List DeferedPtr),
    FillSim (fillMeets s tag) (deferredMeets s tag) d (fill enc s tag d)
  | .struct name sw fields, enc, tag, d => by
    cases hp : tag.pointer
    · have h1 : fillMeets (.struct name sw fields) tag = fillMeetsFields fields := by
        simp [fillMeets, hp]
      have h2 : deferredMeets (.struct name sw fields) tag = referentsMeetFields fields := by
        simp [deferredMeets, hp, referentsMeet]
      have hf := fillFields_sim fields { enc with current := enc.current ++ [name] } sw "" d
      rw [h1, h2]
      simp only [fill, isPointer_false _ _ _ _ hp]
      rcases hres : fillFields { enc with current := enc.current ++ [name] } sw none ""
        fields d with ⟨e1, d1, _ | err⟩
      · rw [hres] at hf
        exact hf
      · rw [hres] at hf
        exact hf
    · exact fill_pointer_sim _ _ _ _ hp
  | .string str, enc, tag, d => by
    cases hp : tag.pointer
    · have h2 : deferredMeets (.string str) tag = .nothing := by
        simp [deferredMeets, hp, referentsMeet]
      cases hc : tag.conformant
      · have h1 : fillMeets (.string str) tag = .plainString := by
          simp [fillMeets, hp, hc]
        rw [h1, h2]
        simp only [fill, isPointer_false _ _ _ _ hp, hc, Bool.false_eq_true, if_false]
        exact fillSim_error _ _ _ _ _ _ (by decide) (Or.inl rfl)
      · have h1 : fillMeets (.string str) tag = .nothing := by
          simp [fillMeets, hp, hc]
        rw [h1, h2]
        simp only [fill, isPointer_false _ _ _ _ hp, hc, if_true]
        exact fillSim_leaf _ _
    · exact fill_pointer_sim _ _ _ _ hp
  | .array elems, enc, tag, d => by
    cases hp : tag.pointer
    · have h1 : fillMeets (.array elems) tag = fillMeetsElems elems tag.elemTag := by
        simp [fillMeets, hp]
      have h2 : deferredMeets (.array elems) tag = referentsMeetElems elems tag.elemTag := by
        simp [deferredMeets, hp, referentsMeet]
      rw [h1, h2]
      simp only [fill, isPointer_false _ _ _ _ hp]
      exact fillElems_sim elems enc tag.elemTag d
    · exact fill_pointer_sim _ _ _ _ hp
  | .slice elem isNil elems, enc, tag, d => by
    cases hp : tag.pointer
    · have h1 : fillMeets (.slice elem isNil elems) tag
          = fillMeetsElems elems tag.elemTag := by
        simp [fillMeets, hp]
      have h2 : deferredMeets (.slice elem isNil elems) tag
          = referentsMeetElems elems tag.elemTag := by
        simp [deferredMeets, hp, referentsMeet]
      rw [h1, h2]
      simp only [fill, isPointer_false _ _ _ _ hp]
      split_ifs
      · exact fillElems_sim elems _ tag.elemTag d
      · exact fillElems_sim elems _ tag.elemTag d
      · exact fillElems_sim elems _ tag.elemTag d
    · exact fill_pointer_sim _ _ _ _ hp
  | .readOnly v, enc, tag, d => by
    cases hp : tag.pointer
    · have h1 : fillMeets (.readOnly v) tag = fillMeets v tag := by
        conv_lhs => unfold fillMeets
        simp [hp]
      have h2 : deferredMeets (.readOnly v) tag = deferredMeets v tag := by
        simp [deferredMeets, hp, referentsMeet]
      rw [h1, h2, fill_unexported _ _ _ _ hp]
      exact fill_sim v enc tag d
    · exact fill_pointer_sim _ _ _ _ hp
  | .bool b, enc, tag, d => by
    cases hp : tag.pointer
    · have h1 : fillMeets (.bool b) tag = .nothing := by
        simp [fillMeets, hp]
      have h2 : deferredMeets (.bool b) tag = .nothing := by
        simp [deferredMeets, hp, referentsMeet]
      rw [h1, h2]
      simp only [fill, isPointer_false _ _ _ _ hp]
      exact fillSim_leaf _ _
    · exact fill_pointer_sim _ _ _ _ hp
  | .uint8 n, enc, tag, d => by
    cases hp : tag.pointer
    · have h1 : fillMeets (.uint8 n) tag = .nothing := by
        simp [fillMeets, hp]
      have h2 : deferredMeets (.uint8 n) tag = .nothing := by
        simp [deferredMeets, hp, referentsMeet]
      rw [h1, h2]
      simp only [fill, isPointer_false _ _ _ _ hp]
      exact fillSim_leaf _ _
    · exact fill_pointer_sim _ _ _ _ hp
  | .uint16 n, enc, tag, d => by
    cases hp : tag.pointer
    · have h1 : fillMeets (.uint16 n) tag = .nothing := by
        simp [fillMeets, hp]
      have h2 : deferredMeets (.uint16 n) tag = .nothing := by
        simp [deferredMeets, hp, referentsMeet]
      rw [h1, h2]
      simp only [fill, isPointer_false _ _ _ _ hp]
      exact fillSim_leaf _ _
    · exact fill_pointer_sim _ _ _ _ hp
  | .uint32 n, enc, tag, d => by
    cases hp : tag.pointer
    · have h1 : fillMeets (.uint32 n) tag = .nothing := by
        simp [fillMeets, hp]
      have h2 : deferredMeets (.uint32 n) tag = .nothing := by
        simp [deferredMeets, hp, referentsMeet]
      rw [h1, h2]
      simp only [fill, isPointer_false _ _ _ _ hp]
      exact fillSim_leaf _ _
    · exact fill_pointer_sim _ _ _ _ hp
  | .uint64 n, enc, tag, d => by
    cases hp : tag.pointer
    · have h1 : fillMeets (.uint64 n) tag = .nothing := by
        simp [fillMeets, hp]
      have h2 : deferredMeets (.uint64 n) tag = .nothing := by
        simp [deferredMeets, hp, referentsMeet]
      rw [h1, h2]
      simp only [fill, isPointer_false _ _ _ _ hp]
      exact fillSim_leaf _ _
    · exact fill_pointer_sim _ _ _ _ hp
  | .int8 i, enc, tag, d => by
    cases hp : tag.pointer
    · have h1 : fillMeets (.int8 i) tag = .nothing := by
        simp [fillMeets, hp]
      have h2 : deferredMeets (.int8 i) tag = .nothing := by
        simp [deferredMeets, hp, referentsMeet]
      rw [h1, h2]
      simp only [fill, isPointer_false _ _ _ _ hp]
      exact fillSim_leaf _ _
    · exact fill_pointer_sim _ _ _ _ hp
  | .int16 i, enc, tag, d => by
    cases hp : tag.pointer
    · have h1 : fillMeets (.int16 i) tag = .nothing := by
        simp [fillMeets, hp]
      have h2 : deferredMeets (.int16 i) tag = .nothing := by
        simp [deferredMeets, hp, referentsMeet]
      rw [h1, h2]
      simp only [fill, isPointer_false _ _ _ _ hp]
      exact fillSim_leaf _ _
    · exact fill_pointer_sim _ _ _ _ hp
  | .int32 i, enc, tag, d => by
    cases hp : tag.pointer
    · have h1 : fillMeets (.int32 i) tag = .nothing := by
        simp [fillMeets, hp]
      have h2 : deferredMeets (.int32 i) tag = .nothing := by
        simp [deferredMeets, hp, referentsMeet]
      rw [h1, h2]
      simp only [fill, isPointer_false _ _ _ _ hp]
      exact fillSim_leaf _ _
    · exact fill_pointer_sim _ _ _ _ hp
  | .int64 i, enc, tag, d => by
    cases hp : tag.pointer
    · have h1 : fillMeets (.int64 i) tag = .nothing := by
        simp [fillMeets, hp]
      have h2 : deferredMeets (.int64 i) tag = .nothing := by
        simp [deferredMeets, hp, referentsMeet]
      rw [h1, h2]
      simp only [fill, isPointer_false _ _ _ _ hp]
      exact fillSim_leaf _ _
    · exact fill_pointer_sim _ _ _ _ hp
  | .float32 bits, enc, tag, d => by
    cases hp : tag.pointer
    · have h1 : fillMeets (.float32 bits) tag = .nothing := by
        simp [fillMeets, hp]
      have h2 : deferredMeets (.float32 bits) tag = .nothing := by
        simp [deferredMeets, hp, referentsMeet]
      rw [h1, h2]
      simp only [fill, isPointer_false _ _ _ _ hp]
      exact fillSim_leaf _ _
    · exact fill_pointer_sim _ _ _ _ hp
  | .float64 bits, enc, tag, d => by
    cases hp : tag.pointer
    · have h1 : fillMeets (.float64 bits) tag = .nothing := by
        simp [fillMeets, hp]
      have h2 : deferredMeets (.float64 bits) tag = .nothing := by
        simp [deferredMeets, hp, referentsMeet]
      rw [h1, h2]
      simp only [fill, isPointer_false _ _ _ _ hp]
      exact fillSim_leaf _ _
    · exact fill_pointer_sim _ _ _ _ hp
  | .ptr v, enc, tag, d => by
    cases hp : tag.pointer
    · simp only [fill, isPointer_false _ _ _ _ hp]
      exact fillSim_error _ _ _ _ _ _ (by decide) (Or.inr (by decide))
    · exact fill_pointer_sim _ _ _ _ hp
  | .nilPtr, enc, tag, d => by
    cases hp : tag.pointer
    · simp only [fill, isPointer_false _ _ _ _ hp]
      exact fillSim_error _ _ _ _ _ _ (by decide) (Or.inr (by decide))
    · exact fill_pointer_sim _ _ _ _ hp
  | .other k, enc, tag, d => by
    cases hp : tag.pointer
    · simp only [fill, isPointer_false _ _ _ _ hp]
      exact fillSim_error _ _ _ _ _ _ (by decide) (Or.inr (by decide))
    · exact fill_pointer_sim _ _ _ _ hp
theorem fillFields_sim : ∀ (fields : List (String × Tag × Value)) (enc : Encoder)
    (sw : List (Int × String)) (unionField : String) (d : List DeferedPtr),
    FillSim (fillMeetsFields fields) (referentsMeetFields fields) d
      (fillFields enc sw none unionField fields d)
  | [], enc, sw, uf, d => by
    simp only [fillMeetsFields, referentsMeetFields, fillFields]
    exact fillSim_leaf _ _
  | (fname, ftag, fv) :: rest, enc, sw, uf, d => by
    have hr : referentsMeetFields ((fname, ftag, fv) :: rest)
        = (deferredMeets fv ftag).orElse (referentsMeetFields rest) := by
      simp only [referentsMeetFields, deferredMeets, processMeets]
    rw [hr]
    simp only [fillMeetsFields, fillFields]
    refine fillSim_seq
      (fill_sim fv { enc with current := enc.current ++ [fname] } ftag d) ?_ ?_
    · intro err herr
      rcases hres : fill { enc with current := enc.current ++ [fname] } fv ftag d
        with ⟨e1, d1, _ | err1⟩
      · rw [hres] at herr; simp at herr
      · rw [hres] at herr; simpa using herr
    · intro hok
      rcases hres : fill { enc with current := enc.current ++ [fname] } fv ftag d
        with ⟨e1, d1, _ | err1⟩
      · simp only []
        exact fillFields_sim rest _ sw uf d1
      · rw [hres] at hok; simp at hok
theorem fillElems_sim : ∀ (elems : List Value) (enc : Encoder) (tag : Tag)
    (d : List DeferedPtr),
    FillSim (fillMeetsElems elems tag) (referentsMeetElems elems tag) d
      (fillElems enc elems tag d)
  | [], enc, tag, d => by
    simp only [fillMeetsElems, referentsMeetElems, fillElems]
    exact fillSim_leaf _ _
  | e :: rest, enc, tag, d => by
    have hr : referentsMeetElems (e :: rest) tag
        = (deferredMeets e tag).orElse (referentsMeetElems rest tag) := by
      simp only [referentsMeetElems, deferredMeets, processMeets]
    rw [hr]
    simp only [fillMeetsElems, fillElems]
    refine fillSim_seq (fill_sim e enc tag d) ?_ ?_
    · intro err herr
      rcases hres : fill enc e tag d with ⟨e1, d1, _ | err1⟩
      · rw [hres] at herr; simp at herr
      · rw [hres] at herr; simpa using herr
    · intro hok
      rcases hres : fill enc e tag d with ⟨e1, d1, _ | err1⟩
      · simp only []
        exact fillElems_sim rest _ tag d1
      · rw [hres] at hok; simp at hok
end

theorem processSim_error {m : Meets} {err : EncErr} (enc : Encoder)
    (hp : m = .plainString → err.isReturned)
    (hc : m = .panic → err ≠ .varyingString)
    (hn : m = .nothing → err.isReturned ∧ err ≠ .varyingString) (m2 : Meets) :
    ProcessSim (m.orElse m2) (enc, some err) := by
  refine ⟨?_, ?_, ?_⟩
  · intro hm
    rcases Meets.orElse_eq_plainString hm with h | ⟨h, -⟩
    · exact ⟨err, rfl, hp h⟩
    · exact ⟨err, rfl, (hn h).1⟩
  · intro hm
    rcases Meets.orElse_eq_panic hm with h | ⟨h, -⟩
    · exact ⟨err, rfl, hc h⟩
    · exact ⟨err, rfl, (hn h).2⟩
  · intro hm
    exact Or.inr ⟨err, rfl, hn (Meets.orElse_eq_nothing hm).1⟩

theorem processSim_seq {m m2 : Meets} {r : Encoder × Option EncErr}
    (hp : m ≠ .plainString) (hc : m ≠ .panic) (h : m = .nothing → ProcessSim m2 r) :
    ProcessSim (m.orElse m2) r := by
  have hm : m = .nothing := by
    cases m
    · rfl
    · exact absurd rfl hp
    · exact absurd rfl hc
  subst hm
  exact h rfl

theorem processReferents_sim (n : Nat)
    (ih : ∀ (enc : Encoder) (s : Value) (tag : Tag), rank s tag < n → tag.pointer = false →
      ProcessSim (processMeets s tag) (process enc s tag))
    (defs : List DeferedPtr) :
    (∀ p ∈ defs, rank p.v p.tag < n ∧ p.tag.pointer = false) →
    ∀ enc : Encoder, ProcessSim (listMeets defs) (processReferents enc defs) := by
  induction defs with
  | nil =>
    intro _ enc
    exact ⟨fun h => by simp [listMeets] at h, fun h => by simp [listMeets] at h,
      fun _ => Or.inl rfl⟩
  | cons p rest ihl =>
    intro hd enc
    obtain ⟨hr, hp⟩ := hd p (List.mem_cons_self _ _)
    obtain ⟨ha, hc, hb⟩ := ih enc p.v p.tag hr hp
    have hrest := ihl (fun q hq => hd q (List.mem_cons_of_mem _ hq))
    simp only [listMeets, processReferents]
    rcases hres : process enc p.v p.tag with ⟨e1, _ | err⟩
    · rw [hres] at ha hc hb
      simp only [] at ha hc hb ⊢
      refine processSim_seq ?_ ?_ (fun _ => hrest e1)
      · intro h
        obtain ⟨e, he, -⟩ := ha h
        simp at he
      · intro h
        obtain ⟨e, he, -⟩ := hc h
        simp at he
    · rw [hres] at ha hc hb
      simp only [] at ha hc hb ⊢
      refine processSim_error e1 ?_ ?_ ?_ _
      · intro h
        obtain ⟨e, he, hr⟩ := ha h
        simp only [Option.some.injEq] at he
        subst he; exact hr
      · intro h
        obtain ⟨e, he, hr⟩ := hc h
        simp only [Option.some.injEq] at he
        subst he; exact hr
      · intro h
        rcases hb h with h | ⟨e, he, hr⟩
        · simp at h
        · simp only [Option.some.injEq] at he
          subst he; exact hr

theorem process_sim : ∀ (n : Nat) (enc : Encoder) (s : Value) (tag : Tag),
    rank s tag < n → tag.pointer = false →
    ProcessSim (processMeets s tag) (process enc s tag) := by
  intro n
  induction n with
  | zero => intro enc s tag h; omega
  | succ n ih =>
    intro enc s tag hn hp
    rw [process_unfold]
    have hk := fill_keeps s (scanConformantArrays enc s tag) tag []
    have hs := fill_sim s (scanConformantArrays enc s tag) tag []
    have hd : deferredMeets s tag = referentsMeet s tag := by
      simp [deferredMeets, hp]
    rw [hd] at hs
    obtain ⟨ha, hc, hb⟩ := hs
    simp only [processMeets]
    rcases hres : fill (scanConformantArrays enc s tag) s tag [] with ⟨e1, d1, _ | err⟩
    · rw [hres] at hk ha hc hb
      simp only [] at ha hc hb ⊢
      obtain ⟨-, -, new, hnew, hrank⟩ := hk
      simp only [List.nil_append] at hnew
      subst hnew
      refine processSim_seq ?_ ?_ ?_
      · intro h
        obtain ⟨e, he, -⟩ := ha h
        simp at he
      · intro h
        obtain ⟨e, he, -⟩ := hc h
        simp at he
      · intro h
        rcases hb h with ⟨e, he, -⟩ | ⟨-, new, hnew, hl, hpt⟩
        · simp at he
        · simp only [List.nil_append] at hnew
          subst hnew
          rw [← hl]
          exact processReferents_sim n ih d1
            (fun p hp => ⟨by have := hrank p hp; omega, hpt p hp⟩) e1
    · rw [hres] at ha hc hb
      simp only [] at ha hc hb ⊢
      refine processSim_error e1 ?_ ?_ ?_ _
      · intro h
        obtain ⟨e, he, hr⟩ := ha h
        simp only [Option.some.injEq] at he
        subst he; exact hr
      · intro h
        obtain ⟨e, he, hr⟩ := hc h
        simp only [Option.some.injEq] at he
        subst he; exact hr
      · intro h
        rcases hb h with ⟨e, he, hr⟩ | ⟨h, -⟩
        · simp only [Option.some.injEq] at he
          subst he; exact hr
        · simp at h

theorem fill_conformant_string (enc : Encoder) (str : List Nat) (tag : Tag)
    (d : List DeferedPtr) (hc : tag.conformant = true) :
    (fill enc (.string str) tag d).2.2 = none := by
  cases hp : tag.pointer
  · simp [fill, isPointer_false _ _ _ _ hp, hc]
  · rw [fill_pointer_eq enc _ tag d hp]
    simp [isPointer, hp, Value.isNonNilPointer, Value.canInterface, Value.isString]

/-- C16. When the traversal of the root comes to a string without the conformant attribute,
as a field (or an array element) reached by `fill` or in a referent that a pointer-tagged
field defers, before it comes to a call of `v.Interface()` that panics, `Encode` returns an
error and no bytes: the result is `(nil, err)`, and `err` is an error value, not the panic.
These are all the inputs on which the traversal reaches such a string: whenever the error of
the string case is what `Encode` returns, the string came first. The string case of `fill`
itself fails exactly when the attribute is missing: with it, it returns no error, on a
string reached through an unexported field as well. A pointer-tagged
string in an unexported field is not reached: `isPointer` panics on it before the string
case, and `Encode` returns nothing. -/
theorem plain_string_fails (enc : Encoder) (s : Value)
    (h : processMeets s {} = .plainString) :
    (∃ err, err ≠ .interfacePanic ∧ (Encode enc s).2 = .error err) ∧
    (∀ (e : Encoder) (v : Value),
      (Encode e v).2 = .error .varyingString → processMeets v {} = .plainString) ∧
    (∀ (e : Encoder) (str : List Nat) (tag : Tag) (d : List DeferedPtr),
      tag.pointer = false → tag.conformant = false →
      fill e (.string str) tag d = (e, d, some .varyingString)) ∧
    (∀ (e : Encoder) (str : List Nat) (tag : Tag),
      tag.pointer = true → tag.conformant = false →
      (process e (.string str) tag.deletePointer).2 = some .varyingString) ∧
    (∀ (e : Encoder) (str : List Nat) (tag : Tag) (d : List DeferedPtr),
      tag.conformant = true → (fill e (.string str) tag d).2.2 = none) ∧
    (∀ (e : Encoder) (str : List Nat) (tag : Tag) (d : List DeferedPtr),
      tag.pointer = false →
      fill e (.readOnly (.string str)) tag d = fill e (.string str) tag d) ∧
    processMeets (unexportedString { pointer := true }) {} = .panic ∧
    (Encode (NewEncoder [] false) (unexportedString { pointer := true })).2
      = .error .interfacePanic := by
  refine ⟨?_, ?_, ?_, ?_, fill_conformant_string, ?_, by decide, by decide⟩
  · have hp := (process_sim (rank s {} + 1)
      (enc.write (putUint .littleEndian 4 0xFFFFFFFF)) s {} (Nat.lt_succ_self _) rfl).1 h
    obtain ⟨err, herr, hret⟩ := hp
    refine ⟨err, hret, ?_⟩
    have hE := encode_ok_iff enc s enc.includeHeaders
    have hwh : enc.withHeaders enc.includeHeaders = enc := rfl
    rw [hwh] at hE
    rw [hE, herr]
  · intro e v hv
    have hE := encode_ok_iff e v e.includeHeaders
    have hwh : e.withHeaders e.includeHeaders = e := rfl
    rw [hwh] at hE
    obtain ⟨-, hc, hn⟩ := process_sim (rank v {} + 1)
      (e.write (putUint .littleEndian 4 0xFFFFFFFF)) v {} (Nat.lt_succ_self _) rfl
    rw [hE] at hv
    rcases hres : process (e.write (putUint .littleEndian 4 0xFFFFFFFF)) v {}
      with ⟨e1, _ | err⟩
    · rw [hres] at hv
      simp only [] at hv
      split_ifs at hv
    · rw [hres] at hv hc hn
      simp only [Except.error.injEq] at hv
      subst hv
      cases hm : processMeets v {}
      · rcases hn hm with h | ⟨e2, he, -, hr⟩
        · simp at h
        · simp only [Option.some.injEq] at he
          exact absurd he.symm hr
      · rfl
      · obtain ⟨e2, he, hr⟩ := hc hm
        simp only [Option.some.injEq] at he
        exact absurd he.symm hr
  · intro e str tag d hp hc
    simp [fill, isPointer_false _ _ _ _ hp, hc]
  · intro e str tag hp hc
    rw [process_unfold]
    simp [fill, isPointer, Tag.deletePointer, hc]
  · intro e str tag d hp
    exact fill_unexported e _ tag d hp

/-- C16 at concrete inputs: a struct with one string field without attributes, where `fill`
comes to the string itself, and the same struct with the field tagged as a pointer, where
the string is a deferred referent. -/
theorem plain_string_fails_witness :
    processMeets (taggedString {} "x") {} = .plainString ∧
    (∃ err, err ≠ .interfacePanic ∧
      (Encode (NewEncoder [] false) (taggedString {} "x")).2 = .error err) ∧
    processMeets (taggedString { pointer := true } "x") {} = .plainString ∧
    (∃ err, err ≠ .interfacePanic ∧
      (Encode (NewEncoder [] false) (taggedString { pointer := true } "x")).2 = .error err) :=
  ⟨by decide,
   (plain_string_fails (NewEncoder [] false) (taggedString {} "x") (by decide)).1,
   by decide,
   (plain_string_fails (NewEncoder [] false) (taggedString { pointer := true } "x")
      (by decide)).1⟩

/-! ## The buffer after a failed `Encode` -/

theorem encode_eq_process (enc : Encoder) (s : Value) :
    Encode enc s
      = (match process (enc.write (putUint .littleEndian 4 0xFFFFFFFF)) s {} with
        | (enc, some err) => (enc, .error err)
        | (enc, none) =>
          if enc.includeHeaders then
            ((enc.writePrivateHeader (writeCommonHeader [])).1,
              .ok ((enc.writePrivateHeader (writeCommonHeader [])).2
                ++ (enc.writePrivateHeader (writeCommonHeader [])).1.w))
          else (enc, .ok enc.w)) := rfl

/-- C17, amended. When `Encode` returns an error it returns no bytes with it, but the
encoder's buffer is not restored: `GetBytes` then gives the bytes the buffer held before the
call, followed by the sentinel `FF FF FF FF` and the bytes written before the failure. -/
theorem encode_error_keeps_partial_output (enc : Encoder) (s : Value) (err : EncErr)
    (h : (Encode enc s).2 = .error err) :
    (∀ buf : List Nat, (Encode enc s).2 ≠ .ok buf) ∧
    ∃ part : List Nat,
      (Encode enc s).1.GetBytes = enc.GetBytes ++ [0xFF, 0xFF, 0xFF, 0xFF] ++ part := by
  refine ⟨fun buf hb => by rw [h] at hb; exact absurd hb (by simp), ?_⟩
  have hc := (process_spec (enc.write (putUint .littleEndian 4 0xFFFFFFFF)) s {}).1
  rw [encode_eq_process] at h ⊢
  rcases hres : process (enc.write (putUint .littleEndian 4 0xFFFFFFFF)) s {}
    with ⟨e1, _ | err'⟩
  · rw [hres] at h
    simp only [] at h
    split_ifs at h
  · rw [hres] at hc
    obtain ⟨⟨part, hpart⟩, _⟩ := hc
    exact ⟨part, hpart⟩

/-- C17, amended, at a concrete input: a pointer-tagged string without the conformant
attribute fails when its referent is processed, after the sentinel and the referent id. -/
theorem encode_error_keeps_partial_output_witness :
    (Encode (NewEncoder [] false) (taggedString { pointer := true } "x")).2
        = .error .varyingString ∧
    (Encode (NewEncoder [] false) (taggedString { pointer := true } "x")).1.GetBytes
        = [0xFF, 0xFF, 0xFF, 0xFF, 0x00, 0x00, 0x02, 0x00] ∧
    ∃ part : List Nat,
      (Encode (NewEncoder [] false) (taggedString { pointer := true } "x")).1.GetBytes
        = (NewEncoder [] false).GetBytes ++ [0xFF, 0xFF, 0xFF, 0xFF] ++ part :=
  ⟨by decide, by decide,
   (encode_error_keeps_partial_output (NewEncoder [] false)
      (taggedString { pointer := true } "x") .varyingString (by decide)).2⟩

/-- C17, counterexample: `Encode` fails on a struct with a string field without the
conformant attribute, and the buffer, empty before the call, holds the sentinel after it. -/
theorem failed_encode_changes_buffer :
    (Encode (NewEncoder [] false) (taggedString {} "x")).2 = .error .varyingString ∧
    (NewEncoder [] false).GetBytes = [] ∧
    (Encode (NewEncoder [] false) (taggedString {} "x")).1.GetBytes
      = [0xFF, 0xFF, 0xFF, 0xFF] ∧
    (Encode (NewEncoder [] false) (taggedString {} "x")).1.GetBytes
      ≠ (NewEncoder [] false).GetBytes := by
  decide

/-! ## Strings read back by the decoder -/

theorem decodeRune_not_surrogate (p : List Nat) :
    (decodeRune p).1 < 0xD800 ∨ 0xE000 ≤ (decodeRune p).1 := by
  rcases p with _ | ⟨p0, rest⟩
  · simp [decodeRune]
  · unfold decodeRune
    simp only []
    by_cases h1 : p0 < 0x80
    · rw [if_pos h1]; exact Or.inl (by simp only []; omega)
    · rw [if_neg h1]
      by_cases h2 : p0 < 0xC2 ∨ 0xF4 < p0
      · rw [if_pos h2]; exact Or.inr (by simp)
      · rw [if_neg h2]
        by_cases hs2 : p0 < 0xE0
        · have e1 : ¬ p0 = 0xE0 := by omega
          have e2 : ¬ p0 = 0xF0 := by omega
          have e3 : ¬ p0 = 0xED := by omega
          have e4 : ¬ p0 = 0xF4 := by omega
          simp only [hs2, e1, e2, e3, e4, if_true, if_false, le_refl]
          rcases rest with _ | ⟨b1, rest1⟩
          · simp
          · simp only [List.length_cons]
            split_ifs
            all_goals (try simp only []); omega
        · by_cases hs3 : p0 < 0xF0
          · have e2 : ¬ p0 = 0xF0 := by omega
            have e4 : ¬ p0 = 0xF4 := by omega
            have e5 : ¬ (3 ≤ 2) := by omega
            simp only [hs2, hs3, e2, e4, e5, if_true, if_false, le_refl]
            rcases rest with _ | ⟨b1, _ | ⟨b2, rest2⟩⟩
            · simp
            · simp only [List.length_cons, List.length_nil]
              split_ifs
              all_goals (try simp only []); omega
            · simp only [List.length_cons]
              split_ifs
              all_goals (try simp only []); omega
          · have e1 : ¬ p0 = 0xE0 := by omega
            have e3 : ¬ p0 = 0xED := by omega
            have e5 : ¬ (4 ≤ 2) := by omega
            have e6 : ¬ (4 ≤ 3) := by omega
            simp only [hs2, hs3, e1, e3, e5, e6, if_true, if_false]
            rcases rest with _ | ⟨b1, _ | ⟨b2, _ | ⟨b3, rest3⟩⟩⟩
            · simp
            · simp only [List.length_cons, List.length_nil]
              split_ifs
              all_goals (try simp only []); omega
            · simp only [List.length_cons, List.length_nil]
              split_ifs
              all_goals (try simp only []); omega
            · simp only [List.length_cons]
              split_ifs
              all_goals (try simp only []); omega

theorem runesFrom_not_surrogate : ∀ (s : List Nat) (skip : Nat),
    ∀ r ∈ runesFrom skip s, r < 0xD800 ∨ 0xE000 ≤ r
  | [], skip, r, h => by simp [runesFrom] at h
  | b :: bs, 0, r, h => by
    simp only [runesFrom, List.mem_cons] at h
    rcases h with rfl | h
    · exact decodeRune_not_surrogate _
    · exact runesFrom_not_surrogate bs _ r h
  | b :: bs, skip + 1, r, h => by
    simp only [runesFrom] at h
    exact runesFrom_not_surrogate bs skip r h

theorem utf16Encode_bmp (rs : List Nat)
    (h : ∀ r ∈ rs, (r < 0xD800 ∨ 0xE000 ≤ r) ∧ r < 0x10000) :
    utf16Encode rs = rs := by
  unfold utf16Encode
  induction rs with
  | nil => rfl
  | cons r rest ih =>
    have hr := h r (List.mem_cons_self _ _)
    have h1 : utf16EncodeRune r = [r] := by
      unfold utf16EncodeRune
      rw [if_pos (by omega)]
    simp only [List.flatMap_cons, h1, List.singleton_append]
    rw [ih (fun x hx => h x (List.mem_cons_of_mem _ hx))]

theorem readUint16s_putUint (order : ByteOrder) (l : List Nat) (h : ∀ n ∈ l, n < 2 ^ 16) :
    readUint16s order (l.flatMap (putUint order 2)) = l := by
  induction l with
  | nil => rfl
  | cons n rest ih =>
    have hn := h n (List.mem_cons_self _ _)
    have hg := getUint_putUint order 2 n
    rw [Nat.mod_eq_of_lt (by norm_num at hn ⊢; exact hn)] at hg
    have hp : ∃ b0 b1, putUint order 2 n = [b0, b1] := by
      cases order
      · exact ⟨_, _, rfl⟩
      · exact ⟨_, _, rfl⟩
    obtain ⟨b0, b1, hp⟩ := hp
    rw [hp] at hg
    simp only [List.flatMap_cons, hp, List.cons_append, List.nil_append, readUint16s, hg]
    rw [ih (fun x hx => h x (List.mem_cons_of_mem _ hx))]

/-- C18, amended. For a string that is well-formed UTF-8 (converting it to runes and back,
`string([]rune(s))`, gives the string), whose runes all lie below `U+10000` and which does
not end in the rune `U+0000`, the code units `ToUnicode` emits, read back as `uint16` in the
same byte order and given to `uint16SliceToString`, yield the string itself. -/
theorem string_round_trip (enc : Encoder) (s : List Nat)
    (hvalid : runesToString (runes s) = s)
    (hbmp : ∀ r ∈ runes s, r < 0x10000)
    (hnul : (runes s).getLast? ≠ some 0) :
    uint16SliceToString (readUint16s enc.ch.Endianness (enc.ToUnicode s)) = s := by
  have hu : utf16Encode (runes s) = runes s :=
    utf16Encode_bmp (runes s)
      (fun r hr => ⟨runesFrom_not_surrogate s 0 r hr, hbmp r hr⟩)
  have hlt : ∀ n ∈ runes s, n < 2 ^ 16 := by
    intro n hn
    have := hbmp n hn
    norm_num at this ⊢
    exact this
  unfold Encoder.ToUnicode
  rw [hu, readUint16s_putUint _ _ hlt]
  unfold uint16SliceToString
  simp only [if_neg hnul, ite_self]
  exact hvalid

/-- C18, amended, at a concrete input: a big-endian encoder and a string with a non-ASCII
character, `68 C3 A9 6C 6C 6F`. -/
theorem string_round_trip_witness :
    goString "héllo" = [0x68, 0xC3, 0xA9, 0x6C, 0x6C, 0x6F] ∧
    runesToString (runes (goString "héllo")) = goString "héllo" ∧
    (∀ r ∈ runes (goString "héllo"), r < 0x10000) ∧
    (runes (goString "héllo")).getLast? ≠ some 0 ∧
    uint16SliceToString (readUint16s .bigEndian
      (((NewEncoder [] false).SetEndianness .bigEndian).ToUnicode (goString "héllo")))
      = goString "héllo" :=
  ⟨by decide, by decide, by decide, by decide,
   string_round_trip ((NewEncoder [] false).SetEndianness .bigEndian) (goString "héllo")
     (by decide) (by decide) (by decide)⟩

/-- C18, counterexample: the one-byte string `FF` is no UTF-8, `[]rune` reads it as `U+FFFD`
and the string that comes back has the three bytes `EF BF BD`; a character beyond `U+FFFF`
is emitted as a surrogate pair, which `uint16SliceToString` turns into two replacement
characters; and a trailing `U+0000` is removed. None of the three strings comes back as it
was. -/
theorem string_round_trip_fails :
    uint16SliceToString (readUint16s .littleEndian ((NewEncoder [] false).ToUnicode [0xFF]))
      = [0xEF, 0xBF, 0xBD] ∧
    uint16SliceToString (readUint16s .littleEndian ((NewEncoder [] false).ToUnicode [0xFF]))
      ≠ [0xFF] ∧
    uint16SliceToString (readUint16s .littleEndian
        ((NewEncoder [] false).ToUnicode (goString "😀")))
      = goString "\uFFFD\uFFFD" ∧
    uint16SliceToString (readUint16s .littleEndian
        ((NewEncoder [] false).ToUnicode (goString "😀")))
      ≠ goString "😀" ∧
    uint16SliceToString (readUint16s .littleEndian
        ((NewEncoder [] false).ToUnicode (goString "a\x00")))
      = goString "a" ∧
    uint16SliceToString (readUint16s .littleEndian
        ((NewEncoder [] false).ToUnicode (goString "a\x00")))
      ≠ goString "a\x00" := by
  decide

/-! ## UUID text -/

theorem isHexDigit_iff (c : Char) :
    isHexDigit c = true ↔
      (48 ≤ c.toNat ∧ c.toNat ≤ 57) ∨ (65 ≤ c.toNat ∧ c.toNat ≤ 70)
        ∨ (97 ≤ c.toNat ∧ c.toNat ≤ 102) := by
  simp [isHexDigit, or_assoc]

theorem digitValue_hex (c : Char) (h : isHexDigit c = true) :
    digitValue c = some ((fromHexChar c).getD 0) ∧ (fromHexChar c).getD 0 < 16 := by
  rw [isHexDigit_iff] at h
  unfold digitValue fromHexChar
  split_ifs <;> simp <;> omega

theorem reHex_append (n : Nat) (g t : List Char) (hl : g.length = n)
    (hh : ∀ c ∈ g, isHexDigit c = true) : reHex n (g ++ t) = some (g, t) := by
  unfold reHex
  rw [List.take_left' hl, List.drop_left' hl]
  simp only [hl, List.all_eq_true, true_and]
  rw [if_pos hh]

theorem reHex_some (n : Nat) (s g t : List Char) (h : reHex n s = some (g, t)) :
    s = g ++ t ∧ g.length = n ∧ ∀ c ∈ g, isHexDigit c = true := by
  unfold reHex at h
  split_ifs at h with hc
  simp only [Option.some.injEq, Prod.mk.injEq] at h
  obtain ⟨rfl, rfl⟩ := h
  refine ⟨(List.take_append_drop n s).symm, hc.1, ?_⟩
  simpa [List.all_eq_true] using hc.2

theorem reDash_some (s t : List Char) (h : reDash s = some t) : s = '-' :: t := by
  cases s with
  | nil => simp [reDash] at h
  | cons c rest =>
    simp only [reDash] at h
    split_ifs at h with hc
    simp only [Option.some.injEq] at h
    rw [hc, h]

theorem reMatch_form (g1 g2 g3 g4 g5 g6 t : List Char)
    (h1 : g1.length = 8) (h2 : g2.length = 4) (h3 : g3.length = 4) (h4 : g4.length = 4)
    (h5 : g5.length = 4) (h6 : g6.length = 8)
    (hh : ∀ c ∈ g1 ++ g2 ++ g3 ++ g4 ++ g5 ++ g6, isHexDigit c = true) :
    reMatch (g1 ++ '-' :: (g2 ++ '-' :: (g3 ++ '-' :: (g4 ++ '-' :: (g5 ++ (g6 ++ t))))))
      = some [(g1 ++ '-' :: (g2 ++ '-' :: (g3 ++ '-' :: (g4 ++ '-' :: (g5 ++ (g6 ++ t)))))).take
          36, g1, g2, g3, g4, g5, g6] := by
  have a1 : ∀ c ∈ g1, isHexDigit c = true := fun c hc => hh c (by simp [hc])
  have a2 : ∀ c ∈ g2, isHexDigit c = true := fun c hc => hh c (by simp [hc])
  have a3 : ∀ c ∈ g3, isHexDigit c = true := fun c hc => hh c (by simp [hc])
  have a4 : ∀ c ∈ g4, isHexDigit c = true := fun c hc => hh c (by simp [hc])
  have a5 : ∀ c ∈ g5, isHexDigit c = true := fun c hc => hh c (by simp [hc])
  have a6 : ∀ c ∈ g6, isHexDigit c = true := fun c hc => hh c (by simp [hc])
  unfold reMatch
  simp [reHex_append _ _ _ h1 a1, reHex_append _ _ _ h2 a2, reHex_append _ _ _ h3 a3,
    reHex_append _ _ _ h4 a4, reHex_append _ _ _ h5 a5, reHex_append _ _ _ h6 a6, reDash]

theorem reMatch_some (s : List Char) (m : List (List Char)) (h : reMatch s = some m) :
    ∃ g post, IsUuidText g ∧ s = g ++ post := by
  unfold reMatch at h
  simp only [Option.bind_eq_bind, Option.bind_eq_some, Prod.exists] at h
  obtain ⟨g1, s1, e1, s1', d1, g2, s2, e2, s2', d2, g3, s3, e3, s3', d3, g4, s4, e4, s4', d4,
    g5, s5, e5, g6, s6, e6, -⟩ := h
  obtain ⟨r1, l1, x1⟩ := reHex_some _ _ _ _ e1
  obtain ⟨r2, l2, x2⟩ := reHex_some _ _ _ _ e2
  obtain ⟨r3, l3, x3⟩ := reHex_some _ _ _ _ e3
  obtain ⟨r4, l4, x4⟩ := reHex_some _ _ _ _ e4
  obtain ⟨r5, l5, x5⟩ := reHex_some _ _ _ _ e5
  obtain ⟨r6, l6, x6⟩ := reHex_some _ _ _ _ e6
  have q1 := reDash_some _ _ d1
  have q2 := reDash_some _ _ d2
  have q3 := reDash_some _ _ d3
  have q4 := reDash_some _ _ d4
  refine ⟨g1 ++ '-' :: (g2 ++ '-' :: (g3 ++ '-' :: (g4 ++ '-' :: (g5 ++ g6)))), s6,
    ⟨g1, g2, g3, g4, g5 ++ g6, l1, l2, l3, l4, by simp [l5, l6], ?_, rfl⟩, ?_⟩
  · intro c hc
    simp only [List.mem_append] at hc
    rcases hc with (((hc | hc) | hc) | hc) | hc | hc
    · exact x1 c hc
    · exact x2 c hc
    · exact x3 c hc
    · exact x4 c hc
    · exact x5 c hc
    · exact x6 c hc
  · rw [r1, q1, r2, q2, r3, q3, r4, q4, r5, r6]
    simp

theorem findAll_none (s : List Char)
    (h : ∀ pre suf, s = pre ++ suf → reMatch suf = none) : FindAllStringSubmatch 0 s = [] := by
  induction s with
  | nil => rfl
  | cons c cs ih =>
    have h0 := h [] (c :: cs) rfl
    simp only [FindAllStringSubmatch, h0]
    exact ih (fun pre suf hs => h (c :: pre) suf (by rw [hs]; rfl))

theorem parseUintLoop_hex (bitSize : Nat) (hb : bitSize ≤ 64) :
    ∀ (g : List Char) (n : Nat), (∀ c ∈ g, isHexDigit c = true) →
      (n + 1) * 16 ^ g.length ≤ 2 ^ bitSize →
      parseUintLoop 16 bitSize g n
        = .ok (g.foldl (fun n c => n * 16 + (fromHexChar c).getD 0) n)
  | [], n, _, _ => rfl
  | c :: cs, n, hh, hn => by
    obtain ⟨hd, hlt⟩ := digitValue_hex c (hh c (by simp))
    have h64 : (2 : Nat) ^ bitSize ≤ 2 ^ 64 := Nat.pow_le_pow_right (by norm_num) hb
    have hpos : 0 < 16 ^ cs.length := pow_pos (by norm_num) _
    have hstep : (n * 16 + (fromHexChar c).getD 0 + 1) * 16 ^ cs.length ≤ 2 ^ bitSize := by
      refine le_trans ?_ hn
      rw [List.length_cons, pow_succ', ← Nat.mul_assoc]
      exact Nat.mul_le_mul_right _ (by omega)
    have hle : n * 16 + (fromHexChar c).getD 0 + 1 ≤ 2 ^ bitSize :=
      le_trans (Nat.le_mul_of_pos_right _ hpos) hstep
    have h64' : (2 : Nat) ^ 64 = 18446744073709551616 := by norm_num
    rw [h64'] at h64
    simp only [parseUintLoop, hd, List.foldl_cons]
    rw [if_neg (by omega), if_neg (by omega), if_neg (by omega)]
    exact parseUintLoop_hex bitSize hb cs _ (fun c hc => hh c (by simp [hc])) hstep

theorem hexValue_lt (g : List Char) (hh : ∀ c ∈ g, isHexDigit c = true) :
    ∀ n, g.foldl (fun n c => n * 16 + (fromHexChar c).getD 0) n + 1 ≤ (n + 1) * 16 ^ g.length := by
  induction g with
  | nil => intro n; simp
  | cons c cs ih =>
    intro n
    obtain ⟨-, hlt⟩ := digitValue_hex c (hh c (by simp))
    simp only [List.foldl_cons]
    refine le_trans (ih (fun c hc => hh c (by simp [hc])) (n * 16 + (fromHexChar c).getD 0)) ?_
    rw [List.length_cons, pow_succ', ← Nat.mul_assoc]
    exact Nat.mul_le_mul_right _ (by omega)

theorem parseUint_hex (g : List Char) (k bitSize : Nat) (hb : bitSize ≤ 64)
    (hl : g.length = k + 1) (hk : 16 ^ (k + 1) ≤ 2 ^ bitSize)
    (hh : ∀ c ∈ g, isHexDigit c = true) :
    ParseUint g 16 bitSize = .ok (hexValue g) ∧ hexValue g < 2 ^ bitSize := by
  have hne : g ≠ [] := by
    intro h
    rw [h] at hl
    simp at hl
  constructor
  · unfold ParseUint hexValue
    rw [if_neg hne]
    exact parseUintLoop_hex bitSize hb g 0 hh (by rw [hl]; simpa using hk)
  · have := hexValue_lt g hh 0
    rw [hl] at this
    unfold hexValue
    omega

theorem findAll_head (s : List Char) (m : List (List Char)) (hne : s ≠ [])
    (h : reMatch s = some m) : ∃ rest, FindAllStringSubmatch 0 s = m :: rest := by
  cases s with
  | nil => exact absurd rfl hne
  | cons c cs => exact ⟨FindAllStringSubmatch 35 cs, by simp only [FindAllStringSubmatch, h]⟩

theorem putUint_be2_hexPairs (g : List Char) (hl : g.length = 4)
    (hh : ∀ c ∈ g, isHexDigit c = true) : putUint .bigEndian 2 (hexValue g) = hexPairs g := by
  rcases g with _ | ⟨a, _ | ⟨b, _ | ⟨c, _ | ⟨d, _ | ⟨e, t⟩⟩⟩⟩⟩ <;> simp at hl
  have ha := (digitValue_hex a (hh a (by simp))).2
  have hb := (digitValue_hex b (hh b (by simp))).2
  have hc := (digitValue_hex c (hh c (by simp))).2
  have hd := (digitValue_hex d (hh d (by simp))).2
  simp only [putUint, leBytes, hexValue, hexPairs, List.foldl_cons, List.foldl_nil,
    List.reverse_cons, List.reverse_nil, List.nil_append, List.cons_append, List.cons.injEq,
    and_true]
  constructor <;> omega

theorem putUint_be4_hexPairs (g : List Char) (hl : g.length = 8)
    (hh : ∀ c ∈ g, isHexDigit c = true) : putUint .bigEndian 4 (hexValue g) = hexPairs g := by
  rcases g with _ | ⟨a, _ | ⟨b, _ | ⟨c, _ | ⟨d, _ | ⟨e, _ | ⟨f, _ | ⟨x, _ | ⟨y, _ | ⟨z, t⟩⟩⟩⟩⟩⟩⟩⟩⟩
    <;> simp at hl
  have ha := (digitValue_hex a (hh a (by simp))).2
  have hb := (digitValue_hex b (hh b (by simp))).2
  have hc := (digitValue_hex c (hh c (by simp))).2
  have hd := (digitValue_hex d (hh d (by simp))).2
  have he := (digitValue_hex e (hh e (by simp))).2
  have hf := (digitValue_hex f (hh f (by simp))).2
  have hx := (digitValue_hex x (hh x (by simp))).2
  have hy := (digitValue_hex y (hh y (by simp))).2
  simp only [putUint, leBytes, hexValue, hexPairs, List.foldl_cons, List.foldl_nil,
    List.reverse_cons, List.reverse_nil, List.nil_append, List.cons_append, List.cons.injEq,
    and_true]
  refine ⟨?_, ?_, ?_, ?_⟩ <;> omega

theorem hexPairs_append4 (g t : List Char) (hl : g.length = 4) :
    hexPairs (g ++ t) = hexPairs g ++ hexPairs t := by
  rcases g with _ | ⟨a, _ | ⟨b, _ | ⟨c, _ | ⟨d, _ | ⟨e, t⟩⟩⟩⟩⟩ <;> simp at hl
  simp [hexPairs]

theorem putUint_le_hexPairs (W : Nat) (g : List Char)
    (h : putUint .bigEndian W (hexValue g) = hexPairs g) :
    putUint .littleEndian W (hexValue g) = (hexPairs g).reverse := by
  rw [← h]
  simp [putUint]

theorem uuid_text_bytes (g1 g2 g3 g4 g5 : List Char)
    (h1 : g1.length = 8) (h2 : g2.length = 4) (h3 : g3.length = 4) (h4 : g4.length = 4)
    (h5 : g5.length = 12)
    (hh : ∀ c ∈ g1 ++ g2 ++ g3 ++ g4 ++ g5, isHexDigit c = true) :
    uuid_to_bin (String.mk (g1 ++ '-' :: (g2 ++ '-' :: (g3 ++ '-' :: (g4 ++ '-' :: g5)))))
      = (putUint .littleEndian 4 (hexValue g1) ++ putUint .littleEndian 2 (hexValue g2)
          ++ putUint .littleEndian 2 (hexValue g3) ++ hexPairs g4 ++ hexPairs g5, none) := by
  have a1 : ∀ c ∈ g1, isHexDigit c = true := fun c hc => hh c (by simp [hc])
  have a2 : ∀ c ∈ g2, isHexDigit c = true := fun c hc => hh c (by simp [hc])
  have a3 : ∀ c ∈ g3, isHexDigit c = true := fun c hc => hh c (by simp [hc])
  have a4 : ∀ c ∈ g4, isHexDigit c = true := fun c hc => hh c (by simp [hc])
  have a5 : ∀ c ∈ g5.take 4, isHexDigit c = true :=
    fun c hc => hh c (by simp [List.mem_of_mem_take hc])
  have a6 : ∀ c ∈ g5.drop 4, isHexDigit c = true :=
    fun c hc => hh c (by simp [List.mem_of_mem_drop hc])
  have l5 : (g5.take 4).length = 4 := by simp [h5]
  have l6 : (g5.drop 4).length = 8 := by simp [h5]
  have e5 : g5 = g5.take 4 ++ (g5.drop 4 ++ []) := by simp
  have hm := reMatch_form g1 g2 g3 g4 (g5.take 4) (g5.drop 4) [] h1 h2 h3 h4 l5 l6 (by
    intro c hc
    simp only [List.mem_append] at hc
    rcases hc with ((((hc | hc) | hc) | hc) | hc) | hc
    · exact a1 c hc
    · exact a2 c hc
    · exact a3 c hc
    · exact a4 c hc
    · exact a5 c hc
    · exact a6 c hc)
  rw [← e5] at hm
  obtain ⟨rest, hfa⟩ := findAll_head _ _ (by
    intro h
    have := congrArg List.length h
    simp [h1] at this) hm
  obtain ⟨p1, b1⟩ := parseUint_hex g1 7 32 (by norm_num) h1 (by norm_num) a1
  obtain ⟨p2, b2⟩ := parseUint_hex g2 3 16 (by norm_num) h2 (by norm_num) a2
  obtain ⟨p3, b3⟩ := parseUint_hex g3 3 16 (by norm_num) h3 (by norm_num) a3
  obtain ⟨p4, b4⟩ := parseUint_hex g4 3 16 (by norm_num) h4 (by norm_num) a4
  obtain ⟨p5, b5⟩ := parseUint_hex (g5.take 4) 3 16 (by norm_num) l5 (by norm_num) a5
  obtain ⟨p6, b6⟩ := parseUint_hex (g5.drop 4) 7 32 (by norm_num) l6 (by norm_num) a6
  have hdash : '-' ∈ String.toList
      (String.mk (g1 ++ '-' :: (g2 ++ '-' :: (g3 ++ '-' :: (g4 ++ '-' :: g5))))) := by
    show '-' ∈ g1 ++ '-' :: (g2 ++ '-' :: (g3 ++ '-' :: (g4 ++ '-' :: g5)))
    simp
  have htl : (String.mk (g1 ++ '-' :: (g2 ++ '-' :: (g3 ++ '-' :: (g4 ++ '-' :: g5))))).toList
      = g1 ++ '-' :: (g2 ++ '-' :: (g3 ++ '-' :: (g4 ++ '-' :: g5))) := rfl
  have hg5 : hexPairs g5 = hexPairs (g5.take 4) ++ hexPairs (g5.drop 4) := by
    rw [← hexPairs_append4 _ _ l5, List.take_append_drop]
  unfold uuid_to_bin
  rw [if_neg (not_not.mpr hdash), htl, hfa]
  have c1 : hexValue g1 % 4294967296 = hexValue g1 := Nat.mod_eq_of_lt (by simpa using b1)
  have c2 : hexValue g2 % 65536 = hexValue g2 := Nat.mod_eq_of_lt (by simpa using b2)
  have c3 : hexValue g3 % 65536 = hexValue g3 := Nat.mod_eq_of_lt (by simpa using b3)
  have c4 : hexValue g4 % 65536 = hexValue g4 := Nat.mod_eq_of_lt (by simpa using b4)
  have c5 : hexValue (g5.take 4) % 65536 = hexValue (g5.take 4) :=
    Nat.mod_eq_of_lt (by simpa using b5)
  have c6 : hexValue (g5.drop 4) % 4294967296 = hexValue (g5.drop 4) :=
    Nat.mod_eq_of_lt (by simpa using b6)
  simp [p1, p2, p3, p4, p5, p6, bind, Except.bind, pure, Except.pure, c1, c2, c3, c4, c5, c6,
    putUint_be2_hexPairs g4 h4 a4, putUint_be2_hexPairs _ l5 a5,
    putUint_be4_hexPairs _ l6 a6, hg5]

/-! ## The headers, read back -/

theorem readCommonHeader_v1 (dec : Decoder) (a b c d : Nat) (tail : List Nat) :
    Decoder.readCommonHeader
        { dec with r := 0x01 :: 0x10 :: 0x08 :: 0x00 :: a :: b :: c :: d :: tail }
      = ({ r := tail
           ch := { Version := 1, Endianness := .littleEndian, CharacterEncoding := 1,
                   FloatRepresentation := dec.ch.FloatRepresentation, HeaderLength := 8,
                   Filler := [a, b, c, d] }
           ph := dec.ph }, none) := by
  simp [Decoder.readCommonHeader, Decoder.ReadByte, Decoder.readCommonHeaderV1,
    Decoder.readBytes, getUint, leValue]

theorem readPrivateHeader_v1 (dec : Decoder) (N f0 f1 f2 f3 : Nat) (tail : List Nat)
    (hv : dec.ch.Version = 1) (hN : N % 8 = 0)
    (hr : dec.r = putUint dec.ch.Endianness 4 N ++ f0 :: f1 :: f2 :: f3 :: tail) :
    dec.readPrivateHeader
      = ({ dec with r := tail, ph := { ObjectBufferLength := N % 2 ^ 32,
                                       Filler := [f0, f1, f2, f3] } }, none) := by
  have hl : (putUint dec.ch.Endianness 4 N).length = 4 := putUint_length _ _ _
  have ht : dec.r.take 4 = putUint dec.ch.Endianness 4 N := by
    rw [hr, List.take_left' hl]
  have hd : dec.r.drop 4 = f0 :: f1 :: f2 :: f3 :: tail := by
    rw [hr, List.drop_left' hl]
  have hlen : 4 ≤ dec.r.length := by
    rw [hr, List.length_append, hl]
    omega
  have hg : getUint dec.ch.Endianness (putUint dec.ch.Endianness 4 N) = N % 2 ^ 32 := by
    rw [getUint_putUint]
    norm_num
  have h8 : N % 4294967296 % 8 = 0 := by omega
  unfold Decoder.readPrivateHeader Decoder.readPrivateHeaderV1 Decoder.binaryReadUint32
  simp only [hv, if_true, hlen, ht, hd, hg]
  simp [h8, Decoder.readBytes]

theorem framingHeader_eq (enc : Encoder) :
    enc.framingHeader = [0x01, 0x10, 0x08, 0x00, 0xCC, 0xCC, 0xCC, 0xCC]
      ++ putUint .littleEndian 4 ((enc.writePrivateHeader (writeCommonHeader [])).1.w.length)
      ++ [0x00, 0x00, 0x00, 0x00] ∧
    (enc.writePrivateHeader (writeCommonHeader [])).1.w
      = enc.w ++ List.replicate ((8 - enc.w.length % 8) % 8) 0 := by
  obtain ⟨harith1, harith2⟩ := privateHeader_arith enc.w.length
  have hc : writeCommonHeader [] = [0x01, 0x10, 0x08, 0x00, 0xCC, 0xCC, 0xCC, 0xCC] := by
    decide
  have hz : putUint .littleEndian 4 0 = [0x00, 0x00, 0x00, 0x00] := by decide
  simp only [Encoder.framingHeader, Encoder.writePrivateHeader, Encoder.write,
    List.length_append, List.length_replicate]
  rw [harith1, harith2, putUint_mod, hc, hz]
  exact ⟨rfl, rfl⟩

/-- C21. For every encoder state (every body in its buffer) the 16 bytes that
`writeCommonHeader` and `writePrivateHeader` produce are read back without error by
`readCommonHeader` followed by `readPrivateHeader`, from any decoder state and whatever
follows the header in the stream. The decoder then records version 1, little-endian byte
order, header length 8, and as `ObjectBufferLength` the `uint32` the encoder wrote at bytes
8 to 11, which is the length of the padded body (reduced modulo `2 ^ 32`, as a `uint32` is);
the stream is left at the first byte after the header. -/
theorem header_round_trip (enc : Encoder) (dec : Decoder) (rest : List Nat) :
    enc.framingHeader.length = 16 ∧
    (Decoder.readCommonHeader { dec with r := enc.framingHeader ++ rest }).2 = none ∧
    (Decoder.readHeaders { dec with r := enc.framingHeader ++ rest }).2 = none ∧
    (Decoder.readHeaders { dec with r := enc.framingHeader ++ rest }).1.ch.Version = 1 ∧
    (Decoder.readHeaders { dec with r := enc.framingHeader ++ rest }).1.ch.Endianness
      = .littleEndian ∧
    (Decoder.readHeaders { dec with r := enc.framingHeader ++ rest }).1.ch.HeaderLength = 8 ∧
    (Decoder.readHeaders { dec with r := enc.framingHeader ++ rest }).1.ph.ObjectBufferLength
      = getUint .littleEndian ((enc.framingHeader.drop 8).take 4) ∧
    (Decoder.readHeaders { dec with r := enc.framingHeader ++ rest }).1.ph.ObjectBufferLength
      = (enc.writePrivateHeader (writeCommonHeader [])).1.w.length % 2 ^ 32 ∧
    ((enc.writePrivateHeader (writeCommonHeader [])).1.w.length < 2 ^ 32 →
      (Decoder.readHeaders { dec with r := enc.framingHeader ++ rest }).1.ph.ObjectBufferLength
        = (enc.writePrivateHeader (writeCommonHeader [])).1.w.length) ∧
    (Decoder.readHeaders { dec with r := enc.framingHeader ++ rest }).1.r = rest := by
  obtain ⟨hf, hw⟩ := framingHeader_eq enc
  have hlen : (enc.writePrivateHeader (writeCommonHeader [])).1.w.length % 8 = 0 := by
    rw [hw, List.length_append, List.length_replicate]
    omega
  generalize (enc.writePrivateHeader (writeCommonHeader [])).1.w.length = N at hf hlen ⊢
  have hrc : Decoder.readCommonHeader { dec with r := enc.framingHeader ++ rest }
      = ({ r := putUint .littleEndian 4 N ++ 0x00 :: 0x00 :: 0x00 :: 0x00 :: rest
           ch := { Version := 1, Endianness := .littleEndian, CharacterEncoding := 1,
                   FloatRepresentation := dec.ch.FloatRepresentation, HeaderLength := 8,
                   Filler := [0xCC, 0xCC, 0xCC, 0xCC] }
           ph := dec.ph }, none) := by
    rw [hf]
    exact readCommonHeader_v1 dec 0xCC 0xCC 0xCC 0xCC _
  have hrh : Decoder.readHeaders { dec with r := enc.framingHeader ++ rest }
      = ({ r := rest
           ch := { Version := 1, Endianness := .littleEndian, CharacterEncoding := 1,
                   FloatRepresentation := dec.ch.FloatRepresentation, HeaderLength := 8,
                   Filler := [0xCC, 0xCC, 0xCC, 0xCC] }
           ph := { ObjectBufferLength := N % 2 ^ 32, Filler := [0x00, 0x00, 0x00, 0x00] } },
          none) := by
    unfold Decoder.readHeaders
    rw [hrc]
    exact readPrivateHeader_v1 _ N 0 0 0 0 rest rfl hlen rfl
  have hdrop : (enc.framingHeader.drop 8).take 4 = putUint .littleEndian 4 N := by
    rw [hf]
    simp [putUint, leBytes]
  rw [hrc, hrh, hdrop, getUint_putUint]
  refine ⟨?_, rfl, rfl, rfl, rfl, rfl, by norm_num, rfl, ?_, rfl⟩
  · rw [hf]
    simp [putUint_length]
  · intro hlt
    exact Nat.mod_eq_of_lt hlt

theorem readCommonHeader_v1_cases (dec : Decoder) (eb : Nat) (rest : List Nat) :
    ((Decoder.readCommonHeader { dec with r := 0x01 :: eb :: rest }).2 = none →
      (Decoder.readCommonHeader { dec with r := 0x01 :: eb :: rest }).1.ch.CharacterEncoding = 1 ∧
      ((eb / 2 ^ 4 % 2 ^ 4 = 0 ∧
        (Decoder.readCommonHeader { dec with r := 0x01 :: eb :: rest }).1.ch.Endianness
          = .bigEndian) ∨
      (eb / 2 ^ 4 % 2 ^ 4 = 1 ∧
        (Decoder.readCommonHeader { dec with r := 0x01 :: eb :: rest }).1.ch.Endianness
          = .littleEndian))) ∧
    (Decoder.readCommonHeader { dec with r := 0x01 :: eb :: rest }).2
        ≠ some (.Malformed "common header does not indicate a valid character encoding") := by
  norm_num
  by_cases h0 : eb / 16 % 16 = 0
  · rcases rest with _ | ⟨l0, _ | ⟨l1, _ | ⟨f0, _ | ⟨f1, _ | ⟨f2, _ | ⟨f3, tail⟩⟩⟩⟩⟩⟩ <;>
      simp [Decoder.readCommonHeader, Decoder.ReadByte, Decoder.readCommonHeaderV1,
        Decoder.readBytes, getUint, leValue, h0] <;> split_ifs <;> simp
  · by_cases h1 : eb / 16 % 16 = 1
    · rcases rest with _ | ⟨l0, _ | ⟨l1, _ | ⟨f0, _ | ⟨f1, _ | ⟨f2, _ | ⟨f3, tail⟩⟩⟩⟩⟩⟩ <;>
        simp [Decoder.readCommonHeader, Decoder.ReadByte, Decoder.readCommonHeaderV1,
          Decoder.readBytes, getUint, leValue, h1] <;> split_ifs <;> simp
    · simp [Decoder.readCommonHeader, Decoder.ReadByte, Decoder.readCommonHeaderV1, h0, h1]

/-- C22. The function `readCommonHeaderV1` does not record the low four bits of the second
byte as `CharacterEncoding`: it records the low four bits of the version byte, which is 1 in
a version-1 header. The header `01 10 08 00 CC CC CC CC`, whose second byte has low bits 0
(ASCII), is recorded as encoding 1 (EBCDIC), and the header `01 12 08 00 CC CC CC CC`, whose
second byte has low bits 2, is accepted. Every accepted version-1 header records 1, and the
character-encoding error is never returned. The byte order is taken from the high four bits
of the second byte as claimed: 0 is big-endian, 1 is little-endian, anything else is
rejected. -/
theorem characterEncoding_from_version_byte :
    Decoder.readCommonHeader (decoderOn [0x01, 0x10, 0x08, 0x00, 0xCC, 0xCC, 0xCC, 0xCC])
      = ({ r := []
           ch := { Version := 1, Endianness := .littleEndian, CharacterEncoding := 1,
                   FloatRepresentation := 0, HeaderLength := 8,
                   Filler := [0xCC, 0xCC, 0xCC, 0xCC] }
           ph := { ObjectBufferLength := 0, Filler := [] } }, none) ∧
    Decoder.readCommonHeader (decoderOn [0x01, 0x12, 0x08, 0x00, 0xCC, 0xCC, 0xCC, 0xCC])
      = ({ r := []
           ch := { Version := 1, Endianness := .littleEndian, CharacterEncoding := 1,
                   FloatRepresentation := 0, HeaderLength := 8,
                   Filler := [0xCC, 0xCC, 0xCC, 0xCC] }
           ph := { ObjectBufferLength := 0, Filler := [] } }, none) ∧
    (∀ (dec : Decoder) (eb : Nat) (rest : List Nat),
      (Decoder.readCommonHeader { dec with r := 0x01 :: eb :: rest }).2 = none →
      (Decoder.readCommonHeader { dec with r := 0x01 :: eb :: rest }).1.ch.CharacterEncoding
        = 1) ∧
    (∀ (dec : Decoder) (eb : Nat) (rest : List Nat),
      (Decoder.readCommonHeader { dec with r := 0x01 :: eb :: rest }).2
        ≠ some (.Malformed "common header does not indicate a valid character encoding")) ∧
    (∀ (dec : Decoder) (eb : Nat) (rest : List Nat),
      eb / 2 ^ 4 % 2 ^ 4 ≠ 0 → eb / 2 ^ 4 % 2 ^ 4 ≠ 1 →
      (Decoder.readCommonHeader { dec with r := 0x01 :: eb :: rest }).2
        = some (.Malformed "common header does not indicate a valid endianness")) ∧
    (∀ (dec : Decoder) (eb : Nat) (rest : List Nat),
      (Decoder.readCommonHeader { dec with r := 0x01 :: eb :: rest }).2 = none →
      (eb / 2 ^ 4 % 2 ^ 4 = 0 ∧
        (Decoder.readCommonHeader { dec with r := 0x01 :: eb :: rest }).1.ch.Endianness
          = .bigEndian) ∨
      (eb / 2 ^ 4 % 2 ^ 4 = 1 ∧
        (Decoder.readCommonHeader { dec with r := 0x01 :: eb :: rest }).1.ch.Endianness
          = .littleEndian)) := by
  refine ⟨by decide, by decide, ?_, ?_, ?_, ?_⟩
  · intro dec eb rest h
    exact ((readCommonHeader_v1_cases dec eb rest).1 h).1
  · intro dec eb rest
    exact (readCommonHeader_v1_cases dec eb rest).2
  · intro dec eb rest h0 h1
    norm_num at h0 h1
    simp [Decoder.readCommonHeader, Decoder.ReadByte, Decoder.readCommonHeaderV1, h0, h1]
  · intro dec eb rest h
    exact ((readCommonHeader_v1_cases dec eb rest).1 h).2

/-! ## Version-2 common headers -/

theorem readBytes_length (dec : Decoder) (n : Nat) : (dec.readBytes n).2.1.length = n := by
  unfold Decoder.readBytes
  split_ifs with h
  · simp [h]
  · simp only [List.length_append, List.length_replicate]
    omega

theorem readCommonHeaderV2_fails (dec : Decoder) : (dec.readCommonHeaderV2).2 ≠ none := by
  have hu : uuid_to_bin "8a885d04-1ceb-11c9-9fe8-08002b104860"
      = ([0x04, 0x5D, 0x88, 0x8A, 0xEB, 0x1C, 0xC9, 0x11, 0x9F, 0xE8, 0x08, 0x00, 0x2B, 0x10,
          0x48, 0x60], none) := by decide
  unfold Decoder.readCommonHeaderV2
  rw [hu]
  rcases dec.ReadByte with ⟨d1, _ | eb⟩
  · simp
  · dsimp only
    split_ifs with heb
    · simp
    · rcases Decoder.readBytes _ 2 with ⟨d2, lb, _ | _⟩
      · dsimp only
        split_ifs with hlen
        · simp
        · rcases Decoder.readBytes _ 4 with ⟨d3, b3, _ | _⟩
          · dsimp only
            rcases Decoder.readBytes _ 16 with ⟨d4, b4, _ | _⟩
            · dsimp only
              have hl := readBytes_length d4 20
              revert hl
              rcases Decoder.readBytes d4 20 with ⟨d5, tsb, _ | _⟩
              · intro hl
                dsimp only at hl ⊢
                have hne : tsb ≠ [0x04, 0x5D, 0x88, 0x8A, 0xEB, 0x1C, 0xC9, 0x11, 0x9F, 0xE8,
                    0x08, 0x00, 0x2B, 0x10, 0x48, 0x60] := by
                  intro h
                  rw [h] at hl
                  simp at hl
                simp [hne]
              · intro _
                simp
            · simp
          · simp
      · simp

/-- C23. No version-2 common header is accepted: `readCommonHeaderV2` compares the 20 bytes
of the TransferSyntax field with the 16 bytes `uuid_to_bin` returns, which are never equal.
The 64-byte header with endianness `0x10`, length `0x40` and the NDR transfer syntax
identifier (UUID `8a885d04-1ceb-11c9-9fe8-08002b104860`, version 2.0) is rejected with the
TransferSyntax error, and so is every other stream that begins with the version byte 2. -/
theorem v2_header_never_accepted :
    ndrHeaderV2.length = 64 ∧
    (ndrHeaderV2.drop 24).take 16 = (uuid_to_bin "8a885d04-1ceb-11c9-9fe8-08002b104860").1 ∧
    (Decoder.readCommonHeader (decoderOn ndrHeaderV2)).2
      = some (.Malformed "common header v2 invalid TransferSyntax bytes: %x") ∧
    (∀ dec : Decoder, (dec.readCommonHeaderV2).2 ≠ none) ∧
    (∀ (dec : Decoder) (rest : List Nat),
      (Decoder.readCommonHeader { dec with r := 0x02 :: rest }).2 ≠ none) := by
  refine ⟨by decide, by decide, by decide, readCommonHeaderV2_fails, ?_⟩
  intro dec rest
  simp only [Decoder.readCommonHeader, Decoder.ReadByte]
  exact readCommonHeaderV2_fails _

/-! ## The encoder after a framed `Encode` -/

/-- C25. When `Encode` with framing succeeds, from any encoder state and so from a fresh
encoder, the encoder's own buffer afterwards is the buffer the same call leaves without
framing followed by the shortest run of zero bytes that brings it to a multiple of 8, and
nothing else; the returned bytes are the 16 header bytes followed by that buffer; and the
framing step changes neither `nextReferentID` nor the byte order, which is the one that was
configured before the call. -/
theorem encode_framed_buffer (enc : Encoder) (s : Value) (out : List Nat)
    (h : (Encode (enc.withHeaders true) s).2 = .ok out) :
    ∃ B : List Nat,
      (Encode (enc.withHeaders false) s).2 = .ok B ∧
      (Encode (enc.withHeaders false) s).1.GetBytes = B ∧
      (Encode (enc.withHeaders true) s).1.GetBytes
        = B ++ List.replicate ((8 - B.length % 8) % 8) 0 ∧
      out = [0x01, 0x10, 0x08, 0x00, 0xCC, 0xCC, 0xCC, 0xCC]
        ++ putUint .littleEndian 4 (Encode (enc.withHeaders true) s).1.GetBytes.length
        ++ [0x00, 0x00, 0x00, 0x00] ++ (Encode (enc.withHeaders true) s).1.GetBytes ∧
      out.length = 16 + (Encode (enc.withHeaders true) s).1.GetBytes.length ∧
      (Encode (enc.withHeaders true) s).1.GetBytes.length % 8 = 0 ∧
      (Encode (enc.withHeaders true) s).1.nextReferentID
        = (Encode (enc.withHeaders false) s).1.nextReferentID ∧
      (Encode (enc.withHeaders true) s).1.ch = (Encode (enc.withHeaders false) s).1.ch ∧
      (Encode (enc.withHeaders true) s).1.ch.Endianness = enc.ch.Endianness := by
  have hcont := (process_spec (enc.write (putUint .littleEndian 4 0xFFFFFFFF)) s {}).1
  rw [encode_ok_iff] at h
  rw [encode_ok_iff, encode_ok_iff]
  rcases hP : process (enc.write (putUint .littleEndian 4 0xFFFFFFFF)) s {} with ⟨e, _ | err⟩
  · rw [hP] at h hcont
    obtain ⟨hf, hw⟩ := framingHeader_eq (e.withHeaders true)
    have hch : e.ch = enc.ch := hcont.2.1
    simp only [Encoder.withHeaders, if_true] at h ⊢
    simp only [Encoder.framingHeader, Encoder.withHeaders] at hf hw
    simp only [Except.ok.injEq] at h
    refine ⟨e.w, by simp, rfl, hw, ?_, ?_, ?_, rfl, rfl, ?_⟩
    · rw [← h, hf]
      rfl
    · rw [← h, hf]
      simp [Encoder.GetBytes, putUint_length]
      omega
    · simp only [Encoder.GetBytes]
      rw [hw, List.length_append, List.length_replicate]
      omega
    · rw [← hch]
      rfl
  · rw [hP] at h
    simp at h

/-- C25 at a concrete input: the empty struct on a fresh encoder with framing. -/
theorem encode_framed_buffer_witness :
    (Encode ((NewEncoder [] true).withHeaders true) (.struct "S" [] [])).2
      = .ok [0x01, 0x10, 0x08, 0x00, 0xCC, 0xCC, 0xCC, 0xCC, 0x08, 0x00, 0x00, 0x00,
             0x00, 0x00, 0x00, 0x00, 0xFF, 0xFF, 0xFF, 0xFF, 0x00, 0x00, 0x00, 0x00] ∧
    ∃ B : List Nat,
      (Encode ((NewEncoder [] true).withHeaders false) (.struct "S" [] [])).2 = .ok B ∧
      (Encode ((NewEncoder [] true).withHeaders true) (.struct "S" [] [])).1.GetBytes
        = B ++ List.replicate ((8 - B.length % 8) % 8) 0 ∧
      (Encode ((NewEncoder [] true).withHeaders true) (.struct "S" [] [])).1.GetBytes.length % 8
        = 0 :=
  ⟨by decide,
   match encode_framed_buffer (NewEncoder [] true) (.struct "S" [] [])
      [0x01, 0x10, 0x08, 0x00, 0xCC, 0xCC, 0xCC, 0xCC, 0x08, 0x00, 0x00, 0x00,
       0x00, 0x00, 0x00, 0x00, 0xFF, 0xFF, 0xFF, 0xFF, 0x00, 0x00, 0x00, 0x00] (by decide) with
   | ⟨B, h1, _, h3, _, _, h6, _⟩ => ⟨B, h1, h3, h6⟩⟩

theorem uuid_no_match (s : String) (hd : '-' ∈ s.toList)
    (hn : ∀ pre m post : List Char, s.toList = pre ++ m ++ post → ¬ IsUuidText m) :
    uuid_to_bin s = ([], some .parseFailed) := by
  have hnone : FindAllStringSubmatch 0 s.toList = [] :=
    findAll_none _ (fun pre suf hs => by
      by_contra hne
      obtain ⟨m, hm⟩ := Option.ne_none_iff_exists'.mp hne
      obtain ⟨g, post, hg, rfl⟩ := reMatch_some _ _ hm
      exact hn pre g post (by rw [hs, List.append_assoc]) hg)
  unfold uuid_to_bin
  rw [if_neg (not_not.mpr hd), hnone]

theorem isUuidText_length (m : List Char) (h : IsUuidText m) : m.length = 36 := by
  obtain ⟨g1, g2, g3, g4, g5, h1, h2, h3, h4, h5, -, rfl⟩ := h
  simp [h1, h2, h3, h4, h5]

/-- C24. For a text of the form `h8-h4-h4-h4-h12` (hexadecimal digits of either case),
`uuid_to_bin` returns no error and 16 bytes: the first group as a little-endian `uint32`,
the second and the third as little-endian `uint16` (each the bytes of its digit pairs in
reverse order), then the digit pairs of the fourth group and of the 12 digits of the fifth
in the order in which they are written. A text that contains `-` and no part of that form
gives the error `Failed to parse UUID v2 string`. The text
`8a885d04-1ceb-11c9-9fe8-08002b104860` gives
`04 5D 88 8A EB 1C C9 11 9F E8 08 00 2B 10 48 60`. -/
theorem uuid_to_bin_layout (g1 g2 g3 g4 g5 : List Char)
    (h1 : g1.length = 8) (h2 : g2.length = 4) (h3 : g3.length = 4) (h4 : g4.length = 4)
    (h5 : g5.length = 12)
    (hh : ∀ c ∈ g1 ++ g2 ++ g3 ++ g4 ++ g5, isHexDigit c = true) :
    uuid_to_bin (String.mk (g1 ++ '-' :: (g2 ++ '-' :: (g3 ++ '-' :: (g4 ++ '-' :: g5)))))
      = (putUint .littleEndian 4 (hexValue g1) ++ putUint .littleEndian 2 (hexValue g2)
          ++ putUint .littleEndian 2 (hexValue g3) ++ hexPairs g4 ++ hexPairs g5, none) ∧
    (putUint .littleEndian 4 (hexValue g1) ++ putUint .littleEndian 2 (hexValue g2)
      ++ putUint .littleEndian 2 (hexValue g3) ++ hexPairs g4 ++ hexPairs g5).length = 16 ∧
    putUint .littleEndian 4 (hexValue g1) = (hexPairs g1).reverse ∧
    putUint .littleEndian 2 (hexValue g2) = (hexPairs g2).reverse ∧
    putUint .littleEndian 2 (hexValue g3) = (hexPairs g3).reverse ∧
    (∀ s : String, '-' ∈ s.toList →
      (∀ pre m post : List Char, s.toList = pre ++ m ++ post → ¬ IsUuidText m) →
      uuid_to_bin s = ([], some .parseFailed)) ∧
    uuid_to_bin "8a885d04-1ceb-11c9-9fe8-08002b104860"
      = ([0x04, 0x5D, 0x88, 0x8A, 0xEB, 0x1C, 0xC9, 0x11, 0x9F, 0xE8, 0x08, 0x00, 0x2B, 0x10,
          0x48, 0x60], none) := by
  have a1 : ∀ c ∈ g1, isHexDigit c = true := fun c hc => hh c (by simp [hc])
  have a2 : ∀ c ∈ g2, isHexDigit c = true := fun c hc => hh c (by simp [hc])
  have a3 : ∀ c ∈ g3, isHexDigit c = true := fun c hc => hh c (by simp [hc])
  have a4 : ∀ c ∈ g4, isHexDigit c = true := fun c hc => hh c (by simp [hc])
  have a5 : ∀ c ∈ g5.take 4, isHexDigit c = true :=
    fun c hc => hh c (by simp [List.mem_of_mem_take hc])
  have a6 : ∀ c ∈ g5.drop 4, isHexDigit c = true :=
    fun c hc => hh c (by simp [List.mem_of_mem_drop hc])
  have l5 : (g5.take 4).length = 4 := by simp [h5]
  have l6 : (g5.drop 4).length = 8 := by simp [h5]
  have hg5 : hexPairs g5 = hexPairs (g5.take 4) ++ hexPairs (g5.drop 4) := by
    rw [← hexPairs_append4 _ _ l5, List.take_append_drop]
  refine ⟨uuid_text_bytes g1 g2 g3 g4 g5 h1 h2 h3 h4 h5 hh, ?_,
    putUint_le_hexPairs 4 g1 (putUint_be4_hexPairs g1 h1 a1),
    putUint_le_hexPairs 2 g2 (putUint_be2_hexPairs g2 h2 a2),
    putUint_le_hexPairs 2 g3 (putUint_be2_hexPairs g3 h3 a3),
    uuid_no_match, by decide⟩
  rw [hg5, ← putUint_be2_hexPairs g4 h4 a4, ← putUint_be2_hexPairs _ l5 a5,
    ← putUint_be4_hexPairs _ l6 a6]
  simp only [List.length_append, putUint_length]

/-- C24 at concrete inputs: the NDR transfer syntax UUID, written with its groups apart, and
a text with a `-` that is too short to hold a UUID. -/
theorem uuid_to_bin_layout_witness :
    uuid_to_bin (String.mk ("8a885d04".toList ++ '-' :: ("1ceb".toList ++ '-' ::
        ("11c9".toList ++ '-' :: ("9fe8".toList ++ '-' :: "08002b104860".toList)))))
      = ([0x04, 0x5D, 0x88, 0x8A, 0xEB, 0x1C, 0xC9, 0x11, 0x9F, 0xE8, 0x08, 0x00, 0x2B, 0x10,
          0x48, 0x60], none) ∧
    uuid_to_bin "8a885d04-1ceb" = ([], some .parseFailed) :=
  ⟨(uuid_to_bin_layout "8a885d04".toList "1ceb".toList "11c9".toList "9fe8".toList
      "08002b104860".toList (by decide) (by decide) (by decide) (by decide) (by decide)
      (by decide)).1.trans (by decide),
   (uuid_to_bin_layout "8a885d04".toList "1ceb".toList "11c9".toList "9fe8".toList
      "08002b104860".toList (by decide) (by decide) (by decide) (by decide) (by decide)
      (by decide)).2.2.2.2.2.1 "8a885d04-1ceb" (by decide)
      (fun pre m post hs hm => by
        have hl := congrArg List.length hs
        rw [List.length_append, List.length_append, isUuidText_length m hm] at hl
        have h13 : "8a885d04-1ceb".toList.length = 13 := by decide
        omega)⟩

end Ndr
